import Mathlib

/-! Verification of `pda.c`: the pattern compiler `constructNFA` and the simulator `runNFA`.

`pda.c` compiles a small regular-expression dialect (`.`, `?`, `*`, `+`, groups, `\` escapes)
into an NFA and simulates it over a text. The definitions below follow the C source line by
line; the theorems after them settle properties of the compiler and of the simulator.

Conventions of the embedding:

* A C string is a `List Char`: the characters before the terminating NUL.
* A `struct State *` is an address, a natural number. While `constructNFA` runs, the state
  at index `i` of the `states` array has the address `base + i`, where `base` is the address
  of the block that holds the array (0 at first). A `realloc` that grows the array (lines
  298-301, 443-446) moves it to a new block behind the old one and frees the old one: the
  pointers stored so far keep their value and now point into the freed block (stale
  pointers). The `realloc` of line 459, which shrinks the array, leaves it in place.
* In the automaton that `constructNFA` returns, pointers are written relative to the returned
  array: a pointer into the array is the index of its state (so the start state is 0), and a
  stale pointer is a number beyond the slots of the array (`toIndex`). A pattern that needs
  at most 16 states never grows the array; addresses and indices then coincide throughout.
* The simulator takes a pointer that refers to no state of the automaton (an index beyond
  the array) for a state without transitions that does not accept; in C, following such a
  pointer is undefined behaviour.
* The parallel arrays `stateSet` / `startPositions` of the simulator are one list of pairs
  `(state, startPosition)`.
* Values of type `size_t` and `int` are unbounded (`Nat`, `Int`): texts are taken to be
  shorter than `2^31` characters, so that no conversion to `int` wraps.
* `constructNFA` returns `Except CompileError NFA`. The error cases are the executions that
  yield no automaton the C program defines: a failed `assert` aborts, the other cases leave
  defined behaviour or never end (see `CompileError`).
-/

namespace Pda

/-! ## Automaton model (`pda.c` lines 7-60) -/

/-- The `struct Transition`: target state, wildcard flag, enabling characters. -/
structure Transition where
  next : Nat
  wildcard : Bool
  transitionChars : List Char
deriving DecidableEq

/-- The `struct State`: outgoing transitions and the accept flag. -/
structure State where
  transitions : List Transition
  accept : Bool
deriving DecidableEq

/-- The `struct NFA`: the state array and its length. -/
structure NFA where
  states : List State
  numStates : Nat
deriving DecidableEq

/-- Source `newState`: a state without transitions. -/
def newState (accepting : Bool) : State :=
  { transitions := [], accept := accepting }

/-- Source `addTransition`: append `tr` to the transitions of `st`. -/
def addTransition (st : State) (tr : Transition) : State :=
  { st with transitions := st.transitions ++ [tr] }

/-- Source `newTransition`: a character-set transition (the empty set makes it an epsilon). -/
def newTransition (tchars : List Char) (next : Nat) : Transition :=
  { next := next, wildcard := false, transitionChars := tchars }

/-- Source `newWildcardTransition`: a wildcard transition with an empty character string. -/
def newWildcardTransition (next : Nat) : Transition :=
  { next := next, wildcard := true, transitionChars := [] }

/-- The assignment `states[idx] = s`; the array holds `states.length` initialised slots and
`idx` is never beyond the first free slot. -/
def setState (states : List State) (idx : Nat) (s : State) : List State :=
  if idx < states.length then states.set idx s else states ++ [s]

/-- The call `addTransition(&states[idx], tr)`. -/
def addTransitionAt (states : List State) (idx : Nat) (tr : Transition) : List State :=
  match states[idx]? with
  | some st => states.set idx (addTransition st tr)
  | none => states

/-- The transitions of the state a pointer refers to (`current->transitions`); a pointer
that refers to no state of the automaton has none in this model. -/
def transitionsOf (states : List State) (q : Nat) : List Transition :=
  match states[q]? with
  | some st => st.transitions
  | none => []

/-- The flag `current->accept` of the state a pointer refers to. -/
def isAccept (states : List State) (q : Nat) : Bool :=
  match states[q]? with
  | some st => st.accept
  | none => false

/-! ## Pattern compiler (`constructNFA`, `pda.c` lines 283-465) -/

/-- The ways in which `constructNFA` does not return an automaton.

* `assertNumStates`: `assert(numStates > 1)` fails (lines 326, 342, 378).
* `assertOperator`: `assert(!lastCharWasOperator)` fails (lines 327, 343, 379).
* `stackUnderflow`: `groupStack[--stackTop]` with `stackTop == 0` (lines 332, 348, 384), a
  read outside the stack.
* `stackOverflow`: `groupStack[stackTop++]` with `stackTop == 32` (line 314), a write outside
  the 32 slots.
* `copyLoopDiverges`: the copy loop of a group `*` / `+` (lines 352, 388) with
  `groupStart == groupEnd` and a non-empty transition list; it appends to the list it
  iterates over and never reaches its bound.
* `readPastTerminator`: a backslash that ends the pattern (line 423); `c++` moves onto the
  terminator, the `break` leaves the `switch`, and the `c++` of the `for` moves past the
  terminator, where `*c` is read. -/
inductive CompileError where
  | assertNumStates
  | assertOperator
  | stackUnderflow
  | stackOverflow
  | copyLoopDiverges
  | readPastTerminator
deriving DecidableEq

/-- The local variables of `constructNFA` that live across the scan. `states` is the
initialised part of the array (slots at `numStates` and beyond are dropped states that are
still in memory), `maxStates` the number of slots of its block and `base` the address of the
block; `groupStack` has its top at the head and `stackTop` is its length. -/
structure Compiler where
  states : List State
  numStates : Nat
  maxStates : Nat
  base : Nat
  groupStack : List Nat
  lastWasGroup : Bool
  lastCharWasOperator : Bool
deriving DecidableEq

/-- The variables at entry of the scan (lines 284-292). -/
def Compiler.init : Compiler :=
  { states := [newState false], numStates := 1, maxStates := 16, base := 0, groupStack := [],
    lastWasGroup := false, lastCharWasOperator := false }

/-- The test before a new state is stored (lines 298-301, 443-446): when all `maxStates`
slots are in use, `realloc` makes room for 16 more. The states are copied into the new
block, which lies behind the old one; the transitions stored so far still hold addresses of
the old block. -/
def growIfFull (st : Compiler) : Compiler :=
  if st.maxStates = st.numStates then
    { st with maxStates := st.maxStates + 16, base := st.base + st.maxStates }
  else st

/-- The `default` case (lines 441-454), also used for a trailing backslash (lines 426-436):
a new state entered from the last one on `ch`. -/
def literalCase (ch : Char) (st : Compiler) : Compiler :=
  { growIfFull st with
    states := addTransitionAt (setState st.states st.numStates (newState false))
      (st.numStates - 1) (newTransition [ch] ((growIfFull st).base + st.numStates))
    numStates := st.numStates + 1
    lastWasGroup := false
    lastCharWasOperator := false }

/-- The case `'.'` (lines 296-311). -/
def wildcardCase (st : Compiler) : Compiler :=
  { growIfFull st with
    states := addTransitionAt (setState st.states st.numStates (newState false))
      (st.numStates - 1) (newWildcardTransition ((growIfFull st).base + st.numStates))
    numStates := st.numStates + 1
    lastWasGroup := false
    lastCharWasOperator := false }

/-- The case `'('` (lines 312-318). -/
def openCase (st : Compiler) : Except CompileError Compiler :=
  if 32 ≤ st.groupStack.length then .error .stackOverflow
  else .ok { st with
    groupStack := (st.numStates - 1) :: st.groupStack
    lastWasGroup := false
    lastCharWasOperator := false }

/-- The case `')'` (lines 319-324). -/
def closeCase (st : Compiler) : Compiler :=
  { st with lastWasGroup := true, lastCharWasOperator := false }

/-- The case `'?'` (lines 325-340). -/
def questionCase (st : Compiler) : Except CompileError Compiler :=
  if st.numStates ≤ 1 then .error .assertNumStates
  else if st.lastCharWasOperator then .error .assertOperator
  else if st.lastWasGroup then
    match st.groupStack with
    | [] => .error .stackUnderflow
    | groupStart :: stack =>
      .ok { st with
        states := addTransitionAt st.states groupStart
          (newTransition [] (st.base + (st.numStates - 1)))
        groupStack := stack
        lastWasGroup := false
        lastCharWasOperator := true }
  else
    .ok { st with
      states := addTransitionAt st.states (st.numStates - 2)
        (newTransition [] (st.base + (st.numStates - 1)))
      lastWasGroup := false
      lastCharWasOperator := true }

/-- One copied transition of the loop-back (lines 354-359). -/
def copyTransition (t : Transition) : Transition :=
  if t.wildcard then newWildcardTransition t.next
  else newTransition t.transitionChars t.next

/-- The loop-back loop of a quantified group (lines 352-361, 388-397): every transition of
`states[groupStart]` is copied onto `states[groupEnd]`. -/
def copyLoop (states : List State) (groupStart groupEnd : Nat) :
    Except CompileError (List State) :=
  if groupStart = groupEnd ∧ transitionsOf states groupStart ≠ [] then
    .error .copyLoopDiverges
  else
    .ok ((transitionsOf states groupStart).foldl
      (fun acc t => addTransitionAt acc groupEnd (copyTransition t)) states)

/-- The search of lines 366-371: the first transition that enters `target` is redirected
to `self`. -/
def redirectFirst (target self : Nat) : List Transition → List Transition
  | [] => []
  | t :: ts =>
    if t.next = target then { t with next := self } :: ts
    else t :: redirectFirst target self ts

/-- The case `'*'` (lines 341-376). -/
def starCase (st : Compiler) : Except CompileError Compiler :=
  if st.numStates ≤ 1 then .error .assertNumStates
  else if st.lastCharWasOperator then .error .assertOperator
  else if st.lastWasGroup then
    match st.groupStack with
    | [] => .error .stackUnderflow
    | groupStart :: stack =>
      match copyLoop st.states groupStart (st.numStates - 1) with
      | .error e => .error e
      | .ok states =>
        .ok { st with
          states := addTransitionAt states groupStart
            (newTransition [] (st.base + (st.numStates - 1)))
          groupStack := stack
          lastWasGroup := false
          lastCharWasOperator := true }
  else
    .ok { st with
      states :=
        match st.states[st.numStates - 2]? with
        | some s =>
          st.states.set (st.numStates - 2)
            { s with
              transitions :=
                redirectFirst (st.base + (st.numStates - 1)) (st.base + (st.numStates - 2))
                  s.transitions }
        | none => st.states
      numStates := st.numStates - 1
      lastWasGroup := false
      lastCharWasOperator := true }

/-- The case `'+'` (lines 377-421); `prev` is the pattern character `*(c-1)`. -/
def plusCase (prev : Char) (st : Compiler) : Except CompileError Compiler :=
  if st.numStates ≤ 1 then .error .assertNumStates
  else if st.lastCharWasOperator then .error .assertOperator
  else if st.lastWasGroup then
    match st.groupStack with
    | [] => .error .stackUnderflow
    | groupStart :: stack =>
      match copyLoop st.states groupStart (st.numStates - 1) with
      | .error e => .error e
      | .ok states =>
        .ok { st with
          states := states
          groupStack := stack
          lastWasGroup := false
          lastCharWasOperator := true }
  else
    let lastWasWildcard :=
      (transitionsOf st.states (st.numStates - 2)).any
        (fun t => decide (t.next = st.base + (st.numStates - 1)) && t.wildcard)
    .ok { st with
      states :=
        if lastWasWildcard then
          addTransitionAt st.states (st.numStates - 1)
            (newWildcardTransition (st.base + (st.numStates - 1)))
        else
          addTransitionAt st.states (st.numStates - 1)
            (newTransition [prev] (st.base + (st.numStates - 1)))
      lastWasGroup := false
      lastCharWasOperator := true }

/-- The `switch (*c)` of lines 295-455 at a character other than a backslash; `prev` is the
pattern character `*(c-1)`. -/
def switchCase (prev c : Char) (st : Compiler) : Except CompileError Compiler :=
  if c = '.' then .ok (wildcardCase st)
  else if c = '(' then openCase st
  else if c = ')' then .ok (closeCase st)
  else if c = '?' then questionCase st
  else if c = '*' then starCase st
  else if c = '+' then plusCase prev st
  else .ok (literalCase c st)

/-- The scan `for (char *c = pattern; *c; c++) switch (*c)` (lines 294-456) over the rest
of the pattern; `prev` is the character before the current one. At a backslash (lines
422-440) the next character, when there is one, goes through the `default` case. A
backslash that ends the pattern gets its state (lines 426-436) and then the `c++` of the
`for` steps past the terminator: the scan ends in `readPastTerminator`. -/
def scan : Char → List Char → Compiler → Except CompileError Compiler
  | _, [], st => .ok st
  | prev, [c], st =>
    if c = '\\' then .error .readPastTerminator
    else
      match switchCase prev c st with
      | .error e => .error e
      | .ok st1 => scan c [] st1
  | prev, c :: x :: rest, st =>
    if c = '\\' then scan x rest (literalCase x st)
    else
      match switchCase prev c st with
      | .error e => .error e
      | .ok st1 => scan c (x :: rest) st1

/-- A stored pointer as seen from the returned array, whose block is at address `base` and
has `maxStates` slots: a pointer into the block is the index of its slot; a pointer into an
earlier block, which `realloc` has freed, gets a number beyond the slots and refers to no
state of the automaton. Distinct pointers stay distinct. -/
def toIndex (base maxStates : Nat) (a : Nat) : Nat :=
  if base ≤ a then a - base else maxStates + a

/-- A state with its stored pointers written relative to the returned array. -/
def relabel (base maxStates : Nat) (s : State) : State :=
  { s with transitions :=
      s.transitions.map (fun t => { t with next := toIndex base maxStates t.next }) }

/-- The end of `constructNFA` (lines 458-464): the array is cut to `numStates` states and
the last one accepts; the pointers are written relative to the returned array. -/
def finish (st : Compiler) : NFA :=
  let states := (st.states.take st.numStates).map (relabel st.base st.maxStates)
  { states :=
      match states[st.numStates - 1]? with
      | some s => states.set (st.numStates - 1) { s with accept := true }
      | none => states
    numStates := st.numStates }

/-- Source `constructNFA`. -/
def constructNFA (pattern : List Char) : Except CompileError NFA :=
  match scan ' ' pattern Compiler.init with
  | .error e => .error e
  | .ok st => .ok (finish st)

/-! ## Simulator (`epsilonClosure` and `runNFA`, `pda.c` lines 83-269) -/

/-- The pair of outputs of `runNFA`: the returned start index (`-1` for no match) and the
value stored through `matchLength`. -/
structure MatchResult where
  start : Int
  length : Int
deriving DecidableEq

/-- The membership loops (lines 91-96, 154-159, 179-184): is the state already in the set? -/
def inSet (set : List (Nat × Nat)) (q : Nat) : Bool :=
  set.any (fun e => e.1 == q)

/-- The test of line 88: an empty character string on a non-wildcard transition. -/
def isEpsilon (t : Transition) : Bool :=
  t.transitionChars.length == 0 && !t.wildcard

/-- The test of lines 142-150: a wildcard, or the character is one of `transitionChars`. -/
def transitionMatches (t : Transition) (c : Char) : Bool :=
  t.wildcard || decide (c ∈ t.transitionChars)

/-- The inner loop of `epsilonClosure` (lines 87-109) for the state at one index, whose start
position is `sp`: each epsilon target that is not yet in the set is appended with `sp`. -/
def closeState : List Transition → Nat → List (Nat × Nat) → List (Nat × Nat)
  | [], _, set => set
  | t :: ts, sp, set =>
    if isEpsilon t && !inSet set t.next then closeState ts sp (set ++ [(t.next, sp)])
    else closeState ts sp set

/-- The outer loop of `epsilonClosure` (line 84) from index `i`; the set grows while it is
scanned. The first argument bounds the number of iterations. -/
def closureLoop (states : List State) : Nat → Nat → List (Nat × Nat) → List (Nat × Nat)
  | 0, _, set => set
  | fuel + 1, i, set =>
    match set[i]? with
    | none => set
    | some (q, sp) => closureLoop states fuel (i + 1) (closeState (transitionsOf states q) sp set)

/-- All transition targets of the automaton, one entry per transition. -/
def allTargets (states : List State) : List Nat :=
  states.flatMap (fun s => s.transitions.map (fun t => t.next))

/-- Source `epsilonClosure`. The loop runs once per element of the final set, which has at
most `set.length + (allTargets states).length` elements (`closureLoop_fuel` below shows that
this bound is never the reason the loop stops). -/
def epsilonClosure (states : List State) (set : List (Nat × Nat)) : List (Nat × Nat) :=
  closureLoop states (set.length + (allTargets states).length) 0 set

/-- The loop of lines 141-172 for one current state with start position `sp`: the targets
of its transitions enabled on `c` are appended to the next set unless already there. -/
def stepState (c : Char) : List Transition → Nat → List (Nat × Nat) → List (Nat × Nat)
  | [], _, next => next
  | t :: ts, sp, next =>
    if transitionMatches t c && !inSet next t.next then
      stepState c ts sp (next ++ [(t.next, sp)])
    else stepState c ts sp next

/-- The loop of lines 138-173 over the current states. -/
def stepAll (states : List State) (c : Char) :
    List (Nat × Nat) → List (Nat × Nat) → List (Nat × Nat)
  | [], next => next
  | (q, sp) :: rest, next => stepAll states c rest (stepState c (transitionsOf states q) sp next)

/-- The variables `bestMatchStart`, `bestMatchLength`, `firstMatchStart` of `runNFA`. -/
structure Best where
  bestMatchStart : Int
  bestMatchLength : Int
  firstMatchStart : Int
deriving DecidableEq

/-- The start state is kept active (lines 177-196). -/
def reinject (start : Nat) (search greedy : Bool) (pos : Nat) (b : Best)
    (next : List (Nat × Nat)) : List (Nat × Nat) :=
  if search && (!greedy || decide (b.firstMatchStart = -1)) then
    if inSet next start then next else next ++ [(start, pos + 1)]
  else next

/-- The two return sequences of lines 212-217 and 262-268. -/
def finalResult (b : Best) : MatchResult :=
  if b.bestMatchStart ≠ -1 then { start := b.bestMatchStart, length := b.bestMatchLength }
  else { start := -1, length := 0 }

/-- The scan for accepting states after a character has been consumed (lines 221-255):
`Sum.inl` is the immediate return of the non-greedy mode, `Sum.inr` the updated variables. -/
def checkAccept (states : List State) (search greedy : Bool) (pos : Nat) :
    List (Nat × Nat) → Best → Sum MatchResult Best
  | [], b => .inr b
  | (q, sp) :: rest, b =>
    if isAccept states q then
      let matchStart : Int := (sp : Int)
      let matchLen : Int := ((pos + 1 : Nat) : Int) - (sp : Int)
      if greedy then
        if search then
          if b.firstMatchStart = -1 then
            checkAccept states search greedy pos rest
              { bestMatchStart := matchStart, bestMatchLength := matchLen,
                firstMatchStart := matchStart }
          else if matchStart = b.firstMatchStart then
            if matchLen > b.bestMatchLength then
              checkAccept states search greedy pos rest { b with bestMatchLength := matchLen }
            else checkAccept states search greedy pos rest b
          else checkAccept states search greedy pos rest b
        else
          if matchLen > b.bestMatchLength ∨ b.bestMatchStart = -1 then
            checkAccept states search greedy pos rest
              { b with bestMatchStart := matchStart, bestMatchLength := matchLen }
          else checkAccept states search greedy pos rest b
      else .inl { start := matchStart, length := matchLen }
    else checkAccept states search greedy pos rest b

/-- The character loop of `runNFA` (lines 131-256) followed by the final return. -/
def runLoop (states : List State) (start : Nat) (search greedy : Bool) :
    List Char → Nat → List (Nat × Nat) → Best → MatchResult
  | [], _, _, b => finalResult b
  | c :: cs, pos, current, b =>
    let next := epsilonClosure states
      (reinject start search greedy pos b (stepAll states c current []))
    if next.length = 0 then finalResult b
    else
      match checkAccept states search greedy pos next b with
      | .inl r => r
      | .inr b1 => runLoop states start search greedy cs (pos + 1) next b1

/-- Source `runNFA`; `start` is the state the pointer `start` refers to. -/
def runNFA (nfa : NFA) (start : Nat) (input : List Char) (search greedy : Bool) : MatchResult :=
  runLoop nfa.states start search greedy input 0 (epsilonClosure nfa.states [(start, 0)])
    { bestMatchStart := -1, bestMatchLength := 0, firstMatchStart := -1 }

/-- The state sets that `runNFA` builds in the character loop (lines 131-256), in the order
in which they arise: for each consumed character the set after the transition loop (line
173), the set after the re-injection of the start state (line 196) and the set after
`epsilonClosure` (line 202). The loop is left as in `runLoop`. -/
def loopSets (states : List State) (start : Nat) (search greedy : Bool) :
    List Char → Nat → List (Nat × Nat) → Best → List (List (Nat × Nat))
  | [], _, _, _ => []
  | c :: cs, pos, current, b =>
    let stepped := stepAll states c current []
    let injected := reinject start search greedy pos b stepped
    let next := epsilonClosure states injected
    stepped :: injected :: next ::
      (if next.length = 0 then []
       else
        match checkAccept states search greedy pos next b with
        | .inl _ => []
        | .inr b1 => loopSets states start search greedy cs (pos + 1) next b1)

/-- Every state set of a run of `runNFA`: the set at entry (lines 117-118), its epsilon
closure (line 127), and the sets of the character loop. -/
def runSets (nfa : NFA) (start : Nat) (input : List Char) (search greedy : Bool) :
    List (List (Nat × Nat)) :=
  [(start, 0)] :: epsilonClosure nfa.states [(start, 0)] ::
    loopSets nfa.states start search greedy input 0 (epsilonClosure nfa.states [(start, 0)])
      { bestMatchStart := -1, bestMatchLength := 0, firstMatchStart := -1 }

/-! ## The find-all loop of `main` (`pda.c` lines 533-563) -/

/-- One iteration of the `while` loop of `main` (lines 537-563) at `offset`. The value is
`none` when the loop ends there: the offset has reached `strlen(contents)`, or `runNFA`
returns -1. Otherwise it is the match that is printed, if one is, as
`(matchIndex, matchLen)`, together with the offset of the next iteration. -/
def findStep (nfa : NFA) (greedy : Bool) (contents : List Char) (offset : Nat) :
    Option (Option (Nat × Nat) × Nat) :=
  if offset < contents.length then
    let r := runNFA nfa 0 (contents.drop offset) true greedy
    if r.start = -1 then none
    else
      let matchIndex : Nat := ((offset : Int) + r.start).toNat
      if r.length = 0 then some (none, offset + 1)
      else some (some (matchIndex, r.length.toNat), ((matchIndex : Int) + r.length).toNat)
  else none

/-- The `while` loop of `main` from `offset`, as the list of the printed matches; the first
argument bounds the number of iterations. -/
def findAll (nfa : NFA) (greedy : Bool) (contents : List Char) : Nat → Nat → List (Nat × Nat)
  | 0, _ => []
  | fuel + 1, offset =>
    match findStep nfa greedy contents offset with
    | none => []
    | some (none, next) => findAll nfa greedy contents fuel next
    | some (some m, next) => m :: findAll nfa greedy contents fuel next

/-- The matches that `main` prints for a compiled automaton and the contents of the file.
The loop runs at most once per character (`findAll_fuel` below shows that the bound is never
the reason the loop stops). -/
def findMatches (nfa : NFA) (greedy : Bool) (contents : List Char) : List (Nat × Nat) :=
  findAll nfa greedy contents contents.length 0

/-! ## The language of an automaton -/

/-- A path: `Reach states q w r` when `r` is reached from `q` along transitions that consume
exactly the characters of `w`. -/
inductive Reach (states : List State) : Nat → List Char → Nat → Prop where
  | refl (q : Nat) : Reach states q [] q
  | eps {q : Nat} {w : List Char} {r : Nat} (t : Transition) :
      t ∈ transitionsOf states q → isEpsilon t = true → Reach states t.next w r →
      Reach states q w r
  | step {q : Nat} {c : Char} {w : List Char} {r : Nat} (t : Transition) :
      t ∈ transitionsOf states q → transitionMatches t c = true → Reach states t.next w r →
      Reach states q (c :: w) r

/-- Some path from `start` to an accepting state consumes exactly the characters of `w`. -/
def AcceptsFrom (states : List State) (start : Nat) (w : List Char) : Prop :=
  ∃ f, Reach states start w f ∧ isAccept states f = true

/-- A string is accepted when some path from state 0 to an accepting state consumes exactly
its characters. -/
def Accepts (nfa : NFA) (w : List Char) : Prop :=
  AcceptsFrom nfa.states 0 w

/-- Every transition target is one of the automaton's states. -/
def WellFormed (nfa : NFA) : Prop :=
  nfa.numStates = nfa.states.length ∧
  ∀ s ∈ nfa.states, ∀ t ∈ s.transitions, t.next < nfa.numStates

/-! ## Vocabulary of the specification -/

/-- The quantifier characters `?`, `*`, `+`. -/
def isQuantifier (c : Char) : Bool :=
  c == '?' || c == '*' || c == '+'

/-- The characters with a meaning in a pattern: `.`, the quantifiers, the parentheses and
the backslash. A literal character is any other one. -/
def isMeta (c : Char) : Bool :=
  c == '.' || isQuantifier c || c == '(' || c == ')' || c == '\\'

/-- The pattern begins with a quantifier. -/
def startsWithQuantifier (p : List Char) : Bool :=
  match p with
  | [] => false
  | c :: _ => isQuantifier c

/-- Two unescaped quantifier characters stand in immediate succession somewhere in the
pattern (a backslash escapes the character after it). -/
def adjacentQuantifiers : List Char → Bool
  | [] => false
  | [_] => false
  | c :: d :: rest =>
    if c = '\\' then adjacentQuantifiers rest
    else (isQuantifier c && isQuantifier d) || adjacentQuantifiers (d :: rest)

/-- The pattern ends in a backslash that escapes nothing. -/
def trailingBackslash : List Char → Bool
  | [] => false
  | [c] => c == '\\'
  | c :: d :: rest =>
    if c = '\\' then trailingBackslash rest else trailingBackslash (d :: rest)

/-- An unescaped `.`, `(` or `)` occurs in the pattern. -/
def unescapedDotOrParen : List Char → Bool
  | [] => false
  | [c] => c == '.' || c == '(' || c == ')'
  | c :: d :: rest =>
    if c = '\\' then unescapedDotOrParen rest
    else (c == '.' || c == '(' || c == ')') || unescapedDotOrParen (d :: rest)

/-- The pattern taken literally, each escape (a backslash and the character after it)
decoded to that character; a backslash that ends the pattern stands for itself. -/
def decode : List Char → List Char
  | [] => []
  | [c] => [c]
  | c :: d :: rest =>
    if c = '\\' then d :: decode rest else c :: decode (d :: rest)

/-- Nesting depth after the pattern, starting from depth `depth`; `none` when an unescaped
`)` has no matching earlier `(`. -/
def parenDepth : Nat → List Char → Option Nat
  | depth, [] => some depth
  | depth, [c] =>
    if c = '(' then some (depth + 1)
    else if c = ')' then (if depth = 0 then none else some (depth - 1))
    else some depth
  | depth, c :: d :: rest =>
    if c = '\\' then parenDepth depth rest
    else if c = '(' then parenDepth (depth + 1) (d :: rest)
    else if c = ')' then (if depth = 0 then none else parenDepth (depth - 1) (d :: rest))
    else parenDepth depth (d :: rest)

/-- Balanced parentheses: every `)` has a matching earlier `(` and every `(` is closed. -/
def balanced (p : List Char) : Bool :=
  parenDepth 0 p == some 0

/-! ## Auxiliary descriptions used in the proofs -/

/-- The states that a run of literal characters `d` produces when the first new state gets
index `n`: a chain in which state `i` is left by the single transition on `d[i]`. -/
def chainFrom (n : Nat) : List Char → List State
  | [] => [newState false]
  | c :: d => { transitions := [newTransition [c] n], accept := false } :: chainFrom (n + 1) d

/-- The automaton is the chain of the string `d`: state `i` is left by one transition, on
`d[i]` to state `i + 1`, and the only accepting state is the one after the last character. -/
def IsChain (states : List State) (d : List Char) : Prop :=
  (∀ i, transitionsOf states i =
    match d[i]? with
    | some c => [newTransition [c] (i + 1)]
    | none => []) ∧
  ∀ i, isAccept states i = decide (i = d.length)

/-- The variables after a run of `default` cases, one per character of `d`. -/
def literals (d : List Char) (st : Compiler) : Compiler :=
  d.foldl (fun st c => literalCase c st) st

/-- The length of the maximal run of `a` at the beginning of the text. -/
def leadingRun (a : Char) : List Char → Nat
  | [] => 0
  | c :: cs => if c = a then leadingRun a cs + 1 else 0

/-- The automaton that `constructNFA` builds for `a*`: one accepting state with a loop. -/
def starNFA (a : Char) : NFA :=
  { states := [{ transitions := [newTransition [a] 0], accept := true }], numStates := 1 }

/-- The automaton that `constructNFA` builds for `a+`. -/
def plusNFA (a : Char) : NFA :=
  { states := [{ transitions := [newTransition [a] 1], accept := false },
               { transitions := [newTransition [a] 1], accept := true }],
    numStates := 2 }

/-- The automaton that `constructNFA` builds for `(ab)+`. -/
def groupPlusNFA (a b : Char) : NFA :=
  { states := [{ transitions := [newTransition [a] 1], accept := false },
               { transitions := [newTransition [b] 2], accept := false },
               { transitions := [newTransition [a] 1], accept := true }],
    numStates := 3 }

/-- The text `(ab)^n`. -/
def repeatPair (a b : Char) : Nat → List Char
  | 0 => []
  | n + 1 => a :: b :: repeatPair a b n

/-- The index of the first `a` in the text (the length of the text when there is none). -/
def firstIndex (a : Char) : List Char → Nat
  | [] => 0
  | c :: cs => if c = a then 0 else firstIndex a cs + 1

/-- The state set after the text `pre` has been consumed in anchored mode: no duplicates,
every start position 0, and exactly the states reached from `start` over `pre`. -/
def SetOK (states : List State) (start : Nat) (cur : List (Nat × Nat)) (pre : List Char) :
    Prop :=
  (cur.map Prod.fst).Nodup ∧ (∀ e ∈ cur, e.2 = 0) ∧
    ∀ q, inSet cur q = true ↔ Reach states start pre q

/-- The pair `(s, len)` is the anchored greedy answer for `text`: either no non-empty
beginning of `text` is accepted and the pair is `(-1, 0)`, or `s = 0` and `len` is the
largest `n ≥ 1` such that the first `n` characters of `text` are accepted. -/
def LongestAccepted (states : List State) (start : Nat) (text : List Char) (s len : Int) :
    Prop :=
  (s = -1 ∧ len = 0 ∧
    ∀ k, 1 ≤ k → k ≤ text.length → ¬ AcceptsFrom states start (text.take k)) ∨
  (s = 0 ∧ ∃ n : Nat, len = (n : Int) ∧ 1 ≤ n ∧ n ≤ text.length ∧
    AcceptsFrom states start (text.take n) ∧
    ∀ k, n < k → k ≤ text.length → ¬ AcceptsFrom states start (text.take k))

/-- The text begins with the characters of `p`. -/
def startsWith : List Char → List Char → Bool
  | [], _ => true
  | _ :: _, [] => false
  | a :: p, c :: text => a == c && startsWith p text

/-- The index, counted from `i`, of the first position of the text at which `p` occurs. -/
def firstOccurrenceFrom (p : List Char) : Nat → List Char → Option Nat
  | i, [] => if startsWith p [] then some i else none
  | i, c :: cs => if startsWith p (c :: cs) then some i else firstOccurrenceFrom p (i + 1) cs

/-- The index of the first occurrence of `p` in the text, if `p` occurs in it. -/
def firstOccurrence (p text : List Char) : Option Nat :=
  firstOccurrenceFrom p 0 text

/-- The state set of the search on the chain of `p` after the text `pre`, while the start
state is re-injected: state `j` is present, with start position `s`, exactly when the first
`j` characters of `p` end `pre` and begin at offset `s`. -/
def ChainSet (p : List Char) (cur : List (Nat × Nat)) (pre : List Char) : Prop :=
  ∀ j s, (j, s) ∈ cur ↔ (j ≤ p.length ∧ ∃ u : List Char, u.length = s ∧ pre = u ++ p.take j)

/-- The automaton that `constructNFA` builds for `a.c`. -/
def wildNFA (a c : Char) : NFA :=
  { states := [{ transitions := [newTransition [a] 1], accept := false },
               { transitions := [newWildcardTransition 2], accept := false },
               { transitions := [newTransition [c] 3], accept := false },
               { transitions := [], accept := true }],
    numStates := 4 }

/-- The automaton that `constructNFA` builds for `ab?c`. -/
def optNFA (a b c : Char) : NFA :=
  { states := [{ transitions := [newTransition [a] 1], accept := false },
               { transitions := [newTransition [b] 2, newTransition [] 2], accept := false },
               { transitions := [newTransition [c] 3], accept := false },
               { transitions := [], accept := true }],
    numStates := 4 }

/-- What holds of the variables of `constructNFA` throughout the scan: there is at least one
state, the states in use are initialised slots of the array, and no slot accepts yet. -/
def CompilerInv (st : Compiler) : Prop :=
  1 ≤ st.numStates ∧ st.numStates ≤ st.states.length ∧ ∀ s ∈ st.states, s.accept = false

/-- The pair `(s, len)` is no match (`s = -1`) or a genuine match in `text`: offset and
length are natural numbers, the match lies within the text and the matched substring is
accepted from `start`. -/
def Genuine (states : List State) (start : Nat) (text : List Char) (s len : Int) : Prop :=
  s = -1 ∨ ∃ i n : Nat, s = (i : Int) ∧ len = (n : Int) ∧ i + n ≤ text.length ∧
    AcceptsFrom states start ((text.drop i).take n)

/-- Every entry of the state set after the text `pre` is justified: no state occurs twice,
and an entry `(q, s)` has a start position `s` within `pre` (0 in anchored mode) such that
`q` is reached from `start` over the characters of `pre` from offset `s` on. -/
def SoundSet (states : List State) (start : Nat) (search : Bool) (cur : List (Nat × Nat))
    (pre : List Char) : Prop :=
  (cur.map Prod.fst).Nodup ∧
    ∀ e ∈ cur, e.2 ≤ pre.length ∧ (search = true ∨ e.2 = 0) ∧
      Reach states start (pre.drop e.2) e.1

/-- The best match recorded so far is genuine, and a start is locked only in search mode and
is then the start of the best match. -/
def BestSound (states : List State) (start : Nat) (search : Bool) (b : Best)
    (pre : List Char) : Prop :=
  (b.firstMatchStart = -1 ∨ (search = true ∧ b.firstMatchStart = b.bestMatchStart)) ∧
    Genuine states start pre b.bestMatchStart b.bestMatchLength

/-- The state set after the text `pre` misses no state: every state reached from `start`
over the characters of `pre` from an admissible offset on (any offset in search mode, offset
0 in anchored mode) is in the set. -/
def CompleteSet (states : List State) (start : Nat) (search : Bool) (cur : List (Nat × Nat))
    (pre : List Char) : Prop :=
  ∀ s, s ≤ pre.length → (search = true ∨ s = 0) →
    ∀ q, Reach states start (pre.drop s) q → inSet cur q = true

/-- No substring of `pre` that begins at an admissible offset and ends after at least one
character of `pre` is accepted. -/
def NoAcceptWithin (states : List State) (start : Nat) (search : Bool) (pre : List Char) :
    Prop :=
  ∀ t s, 1 ≤ t → t ≤ pre.length → s ≤ t → (search = true ∨ s = 0) →
    ¬ AcceptsFrom states start ((pre.drop s).take (t - s))

/-- An automaton with two epsilon transitions in a row: `0 → 1 → 2`. -/
def twoHopNFA : NFA :=
  { states := [{ transitions := [newTransition [] 1], accept := false },
               { transitions := [newTransition [] 2], accept := false },
               { transitions := [], accept := true }],
    numStates := 3 }

/-- The automaton that `constructNFA` returns for `a?(*)`: the epsilon transition of the `?`
still targets state 1, which the `*` has dropped. -/
def danglingNFA : NFA :=
  { states := [{ transitions := [newTransition ['a'] 0, newTransition [] 1], accept := true }],
    numStates := 1 }

/-- A state that is left by one transition, on `c` to `next`, and does not accept. -/
def literalState (c : Char) (next : Nat) : State :=
  { transitions := [newTransition [c] next], accept := false }

/-- The automaton that `constructNFA` returns for the 16 literals `abcdefghijklmnop`. The
array is grown when the state after `p` is stored: the transitions of states 0 to 14 were
stored before and hold stale pointers (the numbers from 33 on, beyond the 32 slots of the
new block); only the transition on `p` targets a state of the automaton. -/
def sixteenNFA : NFA :=
  { states := [literalState 'a' 33, literalState 'b' 34, literalState 'c' 35,
               literalState 'd' 36, literalState 'e' 37, literalState 'f' 38,
               literalState 'g' 39, literalState 'h' 40, literalState 'i' 41,
               literalState 'j' 42, literalState 'k' 43, literalState 'l' 44,
               literalState 'm' 45, literalState 'n' 46, literalState 'o' 47,
               literalState 'p' 16, { transitions := [], accept := true }],
    numStates := 17 }

end Pda

/-! ## Theorems -/

namespace Pda

/-! ### Growth of the state array -/

@[simp] theorem growIfFull_states (st : Compiler) : (growIfFull st).states = st.states := by
  unfold growIfFull; split_ifs <;> rfl

@[simp] theorem growIfFull_numStates (st : Compiler) :
    (growIfFull st).numStates = st.numStates := by
  unfold growIfFull; split_ifs <;> rfl

@[simp] theorem growIfFull_groupStack (st : Compiler) :
    (growIfFull st).groupStack = st.groupStack := by
  unfold growIfFull; split_ifs <;> rfl

/-- The array is not grown while a slot is free. -/
theorem growIfFull_of_lt {st : Compiler} (h : st.numStates < st.maxStates) :
    growIfFull st = st := by
  have : st.maxStates ≠ st.numStates := by omega
  simp [growIfFull, this]

theorem growIfFull_maxStates_ge (st : Compiler) : st.maxStates ≤ (growIfFull st).maxStates := by
  unfold growIfFull; split_ifs <;> simp

@[simp] theorem literalCase_numStates (c : Char) (st : Compiler) :
    (literalCase c st).numStates = st.numStates + 1 := rfl

@[simp] theorem literalCase_groupStack (c : Char) (st : Compiler) :
    (literalCase c st).groupStack = st.groupStack := by
  simp [literalCase]

@[simp] theorem wildcardCase_numStates (st : Compiler) :
    (wildcardCase st).numStates = st.numStates + 1 := rfl

@[simp] theorem wildcardCase_groupStack (st : Compiler) :
    (wildcardCase st).groupStack = st.groupStack := by
  simp [wildcardCase]

@[simp] theorem literalCase_states_eq (c : Char) (st : Compiler) :
    (literalCase c st).states =
      addTransitionAt (setState st.states st.numStates (newState false))
        (st.numStates - 1) (newTransition [c] ((growIfFull st).base + st.numStates)) := rfl

@[simp] theorem wildcardCase_states_eq (st : Compiler) :
    (wildcardCase st).states =
      addTransitionAt (setState st.states st.numStates (newState false))
        (st.numStates - 1) (newWildcardTransition ((growIfFull st).base + st.numStates)) := rfl

/-- A pointer into the returned block is the index of its slot. -/
theorem toIndex_zero (m a : Nat) : toIndex 0 m a = a := by
  simp [toIndex]

theorem relabel_zero (m : Nat) (s : State) : relabel 0 m s = s := by
  cases s with
  | mk ts acc =>
    simp only [relabel, toIndex_zero]
    congr
    exact List.map_id _

theorem map_relabel_zero (m : Nat) (states : List State) :
    states.map (relabel 0 m) = states := by
  have : relabel 0 m = id := funext (relabel_zero m)
  rw [this, List.map_id]

end Pda

namespace Pda

/-! ### Unfolding the scan -/

theorem scan_cons_ok {prev c : Char} {st st1 : Compiler} (rest : List Char) (hc : c ≠ '\\')
    (h : switchCase prev c st = .ok st1) : scan prev (c :: rest) st = scan c rest st1 := by
  cases rest with
  | nil => simp [scan, hc, h]
  | cons x rest => simp [scan, hc, h]

theorem scan_cons_error {prev c : Char} {st : Compiler} {e : CompileError} (rest : List Char)
    (hc : c ≠ '\\') (h : switchCase prev c st = .error e) :
    scan prev (c :: rest) st = .error e := by
  cases rest with
  | nil => simp [scan, hc, h]
  | cons x rest => simp [scan, hc, h]

theorem scan_escape (prev x : Char) (rest : List Char) (st : Compiler) :
    scan prev ('\\' :: x :: rest) st = scan x rest (literalCase x st) := by
  simp [scan]

theorem scan_backslash_end (prev : Char) (st : Compiler) :
    scan prev ['\\'] st = .error .readPastTerminator := by
  simp [scan]

/-! ### Quantifier placement (C3) -/

theorem isQuantifier_iff (c : Char) : isQuantifier c = true ↔ c = '?' ∨ c = '*' ∨ c = '+' := by
  simp [isQuantifier, or_assoc]

theorem isQuantifier_ne_backslash {c : Char} (h : isQuantifier c = true) : c ≠ '\\' := by
  rcases (isQuantifier_iff c).1 h with h | h | h <;> subst h <;> decide

/-- A quantifier met while `lastCharWasOperator` is set fails an assertion. -/
theorem switchCase_quantifier_after_operator (prev c : Char) (st : Compiler)
    (hc : isQuantifier c = true) (hop : st.lastCharWasOperator = true) :
    ∃ e, switchCase prev c st = .error e := by
  rcases (isQuantifier_iff c).1 hc with h | h | h <;> subst h
  · by_cases hn : st.numStates ≤ 1 <;> simp [switchCase, questionCase, hn, hop]
  · by_cases hn : st.numStates ≤ 1 <;> simp [switchCase, starCase, hn, hop]
  · by_cases hn : st.numStates ≤ 1 <;> simp [switchCase, plusCase, hn, hop]

/-- A quantifier met with a single state fails `assert(numStates > 1)`. -/
theorem switchCase_quantifier_one_state (prev c : Char) (st : Compiler)
    (hc : isQuantifier c = true) (hn : st.numStates ≤ 1) :
    switchCase prev c st = .error .assertNumStates := by
  rcases (isQuantifier_iff c).1 hc with h | h | h <;> subst h
  · simp [switchCase, questionCase, hn]
  · simp [switchCase, starCase, hn]
  · simp [switchCase, plusCase, hn]

theorem questionCase_operator {st st1 : Compiler} (h : questionCase st = .ok st1) :
    st1.lastCharWasOperator = true := by
  unfold questionCase at h
  split_ifs at h
  · split at h
    · cases h
    · cases h; rfl
  · cases h; rfl

theorem starCase_operator {st st1 : Compiler} (h : starCase st = .ok st1) :
    st1.lastCharWasOperator = true := by
  unfold starCase at h
  split_ifs at h
  · split at h
    · cases h
    · split at h
      · cases h
      · cases h; rfl
  · cases h; rfl

theorem plusCase_operator {prev : Char} {st st1 : Compiler} (h : plusCase prev st = .ok st1) :
    st1.lastCharWasOperator = true := by
  unfold plusCase at h
  split_ifs at h
  · split at h
    · cases h
    · split at h
      · cases h
      · cases h; rfl
  · cases h; rfl

/-- A quantifier that is compiled sets `lastCharWasOperator`. -/
theorem switchCase_quantifier_operator {prev c : Char} {st st1 : Compiler}
    (hc : isQuantifier c = true) (h : switchCase prev c st = .ok st1) :
    st1.lastCharWasOperator = true := by
  rcases (isQuantifier_iff c).1 hc with hq | hq | hq <;> subst hq
  · exact questionCase_operator (by simpa [switchCase] using h)
  · exact starCase_operator (by simpa [switchCase] using h)
  · exact plusCase_operator (by simpa [switchCase] using h)

/-- A quantifier directly followed by a quantifier stops the compilation. -/
theorem scan_two_quantifiers (prev c d : Char) (rest : List Char) (st : Compiler)
    (hc : isQuantifier c = true) (hd : isQuantifier d = true) :
    ∃ e, scan prev (c :: d :: rest) st = .error e := by
  have hcb := isQuantifier_ne_backslash hc
  have hdb := isQuantifier_ne_backslash hd
  cases hq : switchCase prev c st with
  | error e => exact ⟨e, scan_cons_error _ hcb hq⟩
  | ok st1 =>
    obtain ⟨e, he⟩ := switchCase_quantifier_after_operator c d st1 hd
      (switchCase_quantifier_operator hc hq)
    exact ⟨e, by rw [scan_cons_ok _ hcb hq, scan_cons_error _ hdb he]⟩

/-- Two adjacent unescaped quantifiers stop the scan, whatever the variables at entry. -/
theorem scan_adjacentQuantifiers (n : Nat) :
    ∀ (p : List Char) (prev : Char) (st : Compiler), p.length ≤ n →
      adjacentQuantifiers p = true → ∃ e, scan prev p st = .error e := by
  induction n with
  | zero =>
    intro p prev st hlen h
    have : p = [] := List.length_eq_zero.1 (Nat.le_zero.1 hlen)
    subst this
    simp [adjacentQuantifiers] at h
  | succ n ih =>
    intro p prev st hlen h
    cases p with
    | nil => simp [adjacentQuantifiers] at h
    | cons c rest =>
      cases rest with
      | nil => simp [adjacentQuantifiers] at h
      | cons d rest1 =>
        by_cases hb : c = '\\'
        · subst hb
          have h1 : adjacentQuantifiers rest1 = true := by simpa [adjacentQuantifiers] using h
          have hl : rest1.length ≤ n := by simp at hlen; omega
          obtain ⟨e, he⟩ := ih rest1 d (literalCase d st) hl h1
          exact ⟨e, by rw [scan_escape, he]⟩
        · have h1 : (isQuantifier c = true ∧ isQuantifier d = true) ∨
              adjacentQuantifiers (d :: rest1) = true := by
            simpa [adjacentQuantifiers, hb] using h
          rcases h1 with ⟨hc, hd⟩ | h1
          · exact scan_two_quantifiers prev c d rest1 st hc hd
          · cases hq : switchCase prev c st with
            | error e => exact ⟨e, scan_cons_error _ hb hq⟩
            | ok st1 =>
              have hl : (d :: rest1).length ≤ n := by simp at hlen ⊢; omega
              obtain ⟨e, he⟩ := ih (d :: rest1) c st1 hl h1
              exact ⟨e, by rw [scan_cons_ok _ hb hq, he]⟩

/-- C3: `constructNFA` does not return an automaton for a pattern whose first character is a
quantifier (`?`, `*`, `+`), nor for a pattern that contains two unescaped quantifier
characters in immediate succession. -/
theorem constructNFA_rejects_misplaced_quantifier (p : List Char)
    (h : startsWithQuantifier p = true ∨ adjacentQuantifiers p = true) :
    ∃ e, constructNFA p = .error e := by
  have hscan : ∃ e, scan ' ' p Compiler.init = .error e := by
    rcases h with h | h
    · cases p with
      | nil => simp [startsWithQuantifier] at h
      | cons c rest =>
        have hc : isQuantifier c = true := by simpa [startsWithQuantifier] using h
        exact ⟨_, scan_cons_error rest (isQuantifier_ne_backslash hc)
          (switchCase_quantifier_one_state ' ' c Compiler.init hc (by simp [Compiler.init]))⟩
    · exact scan_adjacentQuantifiers p.length p ' ' Compiler.init le_rfl h
  obtain ⟨e, he⟩ := hscan
  exact ⟨e, by simp [constructNFA, he]⟩

/-- The patterns `*abc` and `a**` are rejected. -/
theorem constructNFA_rejects_misplaced_quantifier_witness :
    (∃ e, constructNFA ['*', 'a', 'b', 'c'] = .error e) ∧
    (∃ e, constructNFA ['a', '*', '*'] = .error e) :=
  ⟨constructNFA_rejects_misplaced_quantifier ['*', 'a', 'b', 'c'] (Or.inl (by decide)),
   constructNFA_rejects_misplaced_quantifier ['a', '*', '*'] (Or.inr (by decide))⟩

end Pda

namespace Pda

/-! ### Patterns of literal and escaped characters (C1, C4) -/

theorem switchCase_literal {prev c : Char} (st : Compiler) (h1 : c ≠ '.') (h2 : c ≠ '(')
    (h3 : c ≠ ')') (hq : isQuantifier c = false) :
    switchCase prev c st = .ok (literalCase c st) := by
  have h := (isQuantifier_iff c).not.1 (by simp [hq])
  push_neg at h
  simp [switchCase, h1, h2, h3, h.1, h.2.1, h.2.2]

/-- The effect of the `default` case on an array that ends in a fresh state, while the
array has a free slot and was never grown. -/
theorem literalCase_states (c : Char) (st : Compiler) (pre : List State)
    (hs : st.states = pre ++ [newState false]) (hn : st.numStates = pre.length + 1)
    (hb : st.base = 0) (hm : st.numStates < st.maxStates) :
    (literalCase c st).states =
        (pre ++ [{ transitions := [newTransition [c] (pre.length + 1)], accept := false }]) ++
          [newState false] ∧
      (literalCase c st).numStates = pre.length + 2 ∧
      (literalCase c st).base = 0 ∧ (literalCase c st).maxStates = st.maxStates := by
  simp [literalCase, growIfFull_of_lt hm, hb, hs, hn, setState, addTransitionAt, addTransition,
    newState, List.getElem_append_right]

theorem literals_states (d : List Char) :
    ∀ (st : Compiler) (pre : List State), st.states = pre ++ [newState false] →
      st.numStates = pre.length + 1 → st.base = 0 → st.numStates + d.length ≤ st.maxStates →
      (literals d st).states = pre ++ chainFrom (pre.length + 1) d ∧
        (literals d st).numStates = pre.length + d.length + 1 ∧ (literals d st).base = 0 := by
  induction d with
  | nil => intro st pre hs hn hb _; simp [literals, chainFrom, hs, hn, hb]
  | cons c d ih =>
    intro st pre hs hn hb hm
    have hm1 : st.numStates < st.maxStates := by simp at hm; omega
    obtain ⟨h1, h2, h5, h6⟩ := literalCase_states c st pre hs hn hb hm1
    obtain ⟨h3, h4, h7⟩ := ih (literalCase c st) _ h1 (by rw [h2]; simp) h5
      (by rw [h6, h2]; simp at hm; omega)
    refine ⟨?_, ?_, ?_⟩
    · simpa [literals, chainFrom] using h3
    · simp [literals] at h4 ⊢; omega
    · simpa [literals] using h7

theorem chainFrom_length (d : List Char) : ∀ n, (chainFrom n d).length = d.length + 1 := by
  induction d with
  | nil => intro n; simp [chainFrom]
  | cons c d ih => intro n; simp [chainFrom, ih]

theorem chainFrom_getElem?_of (d : List Char) :
    ∀ (n i : Nat) (c : Char), d[i]? = some c →
      (chainFrom n d)[i]? = some { transitions := [newTransition [c] (n + i)], accept := false } := by
  induction d with
  | nil => intro n i c h; simp at h
  | cons x d ih =>
    intro n i c h
    cases i with
    | zero =>
      simp at h
      simp [chainFrom, h]
    | succ i =>
      simp at h
      have := ih (n + 1) i c h
      simp only [chainFrom, List.getElem?_cons_succ, this]
      have : n + 1 + i = n + (i + 1) := by omega
      rw [this]

theorem chainFrom_getElem?_length (d : List Char) :
    ∀ n, (chainFrom n d)[d.length]? = some (newState false) := by
  induction d with
  | nil => intro n; simp [chainFrom]
  | cons x d ih => intro n; simp [chainFrom, ih]

/-- The scan of a pattern without quantifier characters, unescaped `.` or parentheses and
without a trailing backslash is a run of `default` cases over the decoded pattern. -/
theorem scan_plain (n : Nat) :
    ∀ (p : List Char) (prev : Char) (st : Compiler), p.length ≤ n →
      (∀ c ∈ p, isQuantifier c = false) → unescapedDotOrParen p = false →
      trailingBackslash p = false → scan prev p st = .ok (literals (decode p) st) := by
  induction n with
  | zero =>
    intro p prev st hlen _ _ _
    have : p = [] := List.length_eq_zero.1 (Nat.le_zero.1 hlen)
    subst this
    simp [scan, literals, decode]
  | succ n ih =>
    intro p prev st hlen hq hd hb
    cases p with
    | nil => simp [scan, literals, decode]
    | cons c rest =>
      cases rest with
      | nil =>
        have hcb : c ≠ '\\' := by simpa [trailingBackslash] using hb
        have hd1 : c ≠ '.' ∧ c ≠ '(' ∧ c ≠ ')' := by
          simpa [unescapedDotOrParen, not_or, and_assoc] using hd
        have hs := @switchCase_literal prev c st hd1.1 hd1.2.1 hd1.2.2
          (hq c (by simp))
        rw [scan_cons_ok _ hcb hs]
        simp [scan, literals, decode]
      | cons x rest1 =>
        by_cases hcb : c = '\\'
        · subst hcb
          have hl : rest1.length ≤ n := by simp at hlen; omega
          rw [scan_escape, ih rest1 x _ hl (fun c hc => hq c (by simp [hc]))
            (by simpa [unescapedDotOrParen] using hd) (by simpa [trailingBackslash] using hb)]
          simp [literals, decode]
        · have hd1 : (c ≠ '.' ∧ c ≠ '(' ∧ c ≠ ')') ∧ unescapedDotOrParen (x :: rest1) = false := by
            simpa [unescapedDotOrParen, hcb, not_or, and_assoc] using hd
          have hs := @switchCase_literal prev c st hd1.1.1 hd1.1.2.1 hd1.1.2.2
            (hq c (by simp))
          have hl : (x :: rest1).length ≤ n := by simp at hlen ⊢; omega
          rw [scan_cons_ok _ hcb hs, ih (x :: rest1) c _ hl
            (fun c hc => hq c (List.mem_cons_of_mem _ hc)) hd1.2
            (by simpa [trailingBackslash, hcb] using hb)]
          simp [literals, decode, hcb]

/-- The automaton that `finish` returns after a run of at most 15 `default` cases from the
initial variables, which fill the 16 slots of the array without growing it, is the chain of
the characters. -/
theorem finish_literals_isChain (d : List Char) (hd : d.length ≤ 15) :
    IsChain (finish (literals d Compiler.init)).states d ∧
      (finish (literals d Compiler.init)).numStates = d.length + 1 := by
  obtain ⟨hs, hn, hb⟩ := literals_states d Compiler.init [] (by simp [Compiler.init])
    (by simp [Compiler.init]) (by simp [Compiler.init])
    (by simp only [Compiler.init]; omega)
  simp only [List.nil_append, List.length_nil, Nat.zero_add] at hs hn
  have htake : (chainFrom 1 d).take (d.length + 1) = chainFrom 1 d := by
    apply List.take_of_length_le
    simp [chainFrom_length]
  have hlast : (chainFrom 1 d)[d.length]? = some (newState false) :=
    chainFrom_getElem?_length d 1
  refine ⟨⟨fun i => ?_, fun i => ?_⟩, by simp [finish, hn]⟩
  · simp only [finish, hb, map_relabel_zero, hs, hn, htake, Nat.add_sub_cancel, hlast,
      transitionsOf]
    rcases lt_trichotomy i d.length with h | h | h
    · have hne : d.length ≠ i := by omega
      have hg : d[i]? = some d[i] := by simp [h]
      rw [List.getElem?_set_ne hne, chainFrom_getElem?_of d 1 i _ hg, hg]
      simp [Nat.add_comm]
    · subst h
      simp [List.getElem?_set, chainFrom_length, newState]
    · have hne : d.length ≠ i := by omega
      have hg : d[i]? = none := by simp; omega
      have hg2 : (chainFrom 1 d)[i]? = none := by simp [chainFrom_length]; omega
      rw [List.getElem?_set_ne hne, hg, hg2]
  · simp only [finish, hb, map_relabel_zero, hs, hn, htake, Nat.add_sub_cancel, hlast,
      isAccept]
    rcases lt_trichotomy i d.length with h | h | h
    · have hne : d.length ≠ i := by omega
      have hne2 : i ≠ d.length := by omega
      have hg : d[i]? = some d[i] := by simp [h]
      rw [List.getElem?_set_ne hne, chainFrom_getElem?_of d 1 i _ hg]
      simp [hne2]
    · subst h
      simp [List.getElem?_set, chainFrom_length, newState]
    · have hne : d.length ≠ i := by omega
      have hne2 : i ≠ d.length := by omega
      have hg2 : (chainFrom 1 d)[i]? = none := by simp [chainFrom_length]; omega
      rw [List.getElem?_set_ne hne, hg2]
      simp [hne2]

end Pda

namespace Pda

/-! ### The language of a chain -/

theorem isChain_transitions_some {states : List State} {d : List Char} (h : IsChain states d)
    {i : Nat} {c : Char} (hc : d[i]? = some c) :
    transitionsOf states i = [newTransition [c] (i + 1)] := by
  rw [h.1 i, hc]

theorem isChain_transitions_none {states : List State} {d : List Char} (h : IsChain states d)
    {i : Nat} (hc : d[i]? = none) : transitionsOf states i = [] := by
  rw [h.1 i, hc]

/-- A transition of a chain is the one on `d[i]` to the next state. -/
theorem isChain_mem {states : List State} {d : List Char} (h : IsChain states d)
    {i : Nat} {t : Transition} (ht : t ∈ transitionsOf states i) :
    ∃ c, d[i]? = some c ∧ t = newTransition [c] (i + 1) := by
  cases hc : d[i]? with
  | none => rw [isChain_transitions_none h hc] at ht; simp at ht
  | some c =>
    rw [isChain_transitions_some h hc] at ht
    exact ⟨c, rfl, by simpa using ht⟩

/-- A path in a chain consumes the characters of `d` between its end states. -/
theorem isChain_reach {states : List State} {d : List Char} (h : IsChain states d)
    {i f : Nat} {w : List Char} (hr : Reach states i w f) :
    f = i + w.length ∧ d.drop i = w ++ d.drop f := by
  induction hr with
  | refl q => simp
  | eps t ht he _ _ =>
    obtain ⟨c, _, rfl⟩ := isChain_mem h ht
    simp [isEpsilon, newTransition] at he
  | @step q c w r t ht hm _ ih =>
    obtain ⟨x, hx, rfl⟩ := isChain_mem h ht
    have hcx : c = x := by simpa [transitionMatches, newTransition] using hm
    subst hcx
    obtain ⟨h1, h2⟩ := ih
    simp only [newTransition] at h1 h2
    refine ⟨by simp [h1]; omega, ?_⟩
    have hq : q < d.length := by
      by_contra hlt
      have : d[q]? = none := by simp; omega
      simp [this] at hx
    have hcq : d[q] = c := by
      have := List.getElem?_eq_getElem hq
      rw [this] at hx
      exact Option.some.inj hx
    rw [List.drop_eq_getElem_cons hq, hcq, h2]
    simp

/-- The whole rest of `d` leads from state `i` to the last state of the chain. -/
theorem isChain_reach_end {states : List State} {d : List Char} (h : IsChain states d) :
    ∀ (k i : Nat), i + k = d.length → Reach states i (d.drop i) d.length := by
  intro k
  induction k with
  | zero =>
    intro i hi
    have : i = d.length := by omega
    subst this
    simpa using @Reach.refl states d.length
  | succ k ih =>
    intro i hi
    have hq : i < d.length := by omega
    have hx : d[i]? = some d[i] := List.getElem?_eq_getElem hq
    rw [List.drop_eq_getElem_cons hq]
    refine Reach.step (newTransition [d[i]] (i + 1)) ?_ ?_ ?_
    · rw [isChain_transitions_some h hx]; simp
    · simp [transitionMatches, newTransition]
    · exact ih (i + 1) (by omega)

/-- A chain accepts the string it is the chain of, and nothing else. -/
theorem isChain_accepts {nfa : NFA} {d : List Char} (h : IsChain nfa.states d) (w : List Char) :
    Accepts nfa w ↔ w = d := by
  constructor
  · rintro ⟨f, hr, hf⟩
    have hfd : f = d.length := by simpa [h.2 f] using hf
    obtain ⟨_, h2⟩ := isChain_reach h hr
    subst hfd
    simpa using h2.symm
  · rintro rfl
    exact ⟨w.length, by simpa using isChain_reach_end h w.length 0 (by simp),
      by simp [h.2 w.length]⟩

/-- The automaton of a pattern of at most 15 literal and escaped characters is the chain of
the decoded pattern. -/
theorem constructNFA_plain (p : List Char) (hq : ∀ c ∈ p, isQuantifier c = false)
    (hd : unescapedDotOrParen p = false) (hb : trailingBackslash p = false)
    (hl : (decode p).length ≤ 15) :
    ∃ nfa, constructNFA p = .ok nfa ∧ IsChain nfa.states (decode p) ∧
      nfa.numStates = (decode p).length + 1 := by
  refine ⟨finish (literals (decode p) Compiler.init), ?_,
    finish_literals_isChain (decode p) hl⟩
  simp [constructNFA, scan_plain p.length p ' ' Compiler.init le_rfl hq hd hb]

/-- C1 (amended): for every pattern that contains no quantifier character, no unescaped `.`,
`(` or `)` and no trailing lone backslash, and that stands for at most 15 characters once
its escapes are decoded (so that the 16 slots of the state array suffice and the array is
never grown), `constructNFA` returns an automaton that accepts exactly one string: the
pattern taken literally, each escape decoded to the escaped character. -/
theorem constructNFA_literal_language (p : List Char) (hq : ∀ c ∈ p, isQuantifier c = false)
    (hd : unescapedDotOrParen p = false) (hb : trailingBackslash p = false)
    (hl : (decode p).length ≤ 15) :
    ∃ nfa, constructNFA p = .ok nfa ∧ ∀ w, Accepts nfa w ↔ w = decode p := by
  obtain ⟨nfa, h1, h2, _⟩ := constructNFA_plain p hq hd hb hl
  exact ⟨nfa, h1, isChain_accepts h2⟩

/-- The pattern `a\.c` accepts exactly `a.c`. -/
theorem constructNFA_literal_language_witness :
    ∃ nfa, constructNFA ['a', '\\', '.', 'c'] = .ok nfa ∧
      ∀ w, Accepts nfa w ↔ w = decode ['a', '\\', '.', 'c'] :=
  constructNFA_literal_language ['a', '\\', '.', 'c'] (by decide) (by decide) (by decide)
    (by decide)

/-- C1 as stated fails: the pattern `.` has no quantifier character, yet its automaton
accepts both `a` and `b`; the pattern `(a)` has none either, and its automaton accepts `a`
and not `(a)`. -/
theorem constructNFA_literal_language_counterexample :
    (∃ nfa, constructNFA ['.'] = .ok nfa ∧ Accepts nfa ['a'] ∧ Accepts nfa ['b']) ∧
    (∃ nfa, constructNFA ['(', 'a', ')'] = .ok nfa ∧ Accepts nfa ['a'] ∧
      ¬ Accepts nfa ['(', 'a', ')']) := by
  constructor
  · refine ⟨_, rfl, ?_, ?_⟩
    · exact ⟨1, Reach.step (newWildcardTransition 1) (by decide) (by decide) (Reach.refl 1),
        by decide⟩
    · exact ⟨1, Reach.step (newWildcardTransition 1) (by decide) (by decide) (Reach.refl 1),
        by decide⟩
  · obtain ⟨nfa, h1, h2, _⟩ := constructNFA_plain ['a'] (by decide) (by decide) (by decide)
      (by decide)
    have heq : constructNFA ['(', 'a', ')'] = constructNFA ['a'] := by rfl
    refine ⟨nfa, by rw [heq, h1], (isChain_accepts h2 _).2 (by decide), ?_⟩
    rw [isChain_accepts h2]
    decide

/-! ### Parentheses are not checked (C4) -/

/-- The scan of a pattern without quantifier characters and without a trailing backslash
ends normally when the group stack has room for its `(`. -/
theorem scan_no_quantifier (n : Nat) :
    ∀ (p : List Char) (prev : Char) (st : Compiler), p.length ≤ n →
      (∀ c ∈ p, isQuantifier c = false) → trailingBackslash p = false →
      st.groupStack.length + p.count '(' ≤ 32 → ∃ st1, scan prev p st = .ok st1 := by
  induction n with
  | zero =>
    intro p prev st hlen _ _ _
    have : p = [] := List.length_eq_zero.1 (Nat.le_zero.1 hlen)
    subst this
    exact ⟨st, by simp [scan]⟩
  | succ n ih =>
    intro p prev st hlen hq hb hs
    have step : ∀ (c : Char) (rest : List Char), p = c :: rest → c ≠ '\\' →
        trailingBackslash rest = false → ∃ st1, scan prev p st = .ok st1 := by
      intro c rest hp hcb hb1
      subst hp
      have hl : rest.length ≤ n := by simp at hlen; omega
      have hq1 : ∀ c ∈ rest, isQuantifier c = false := fun c hc => hq c (List.mem_cons_of_mem _ hc)
      have hcq := (isQuantifier_iff c).not.1 (by simp [hq c (by simp)])
      push_neg at hcq
      by_cases h2 : c = '('
      · subst h2
        have hs1 : st.groupStack.length + 1 + rest.count '(' ≤ 32 := by
          simp at hs; omega
        have hok : switchCase prev '(' st = .ok { st with
            groupStack := (st.numStates - 1) :: st.groupStack
            lastWasGroup := false
            lastCharWasOperator := false } := by
          have : ¬ 32 ≤ st.groupStack.length := by omega
          simp [switchCase, openCase, this]
        rw [scan_cons_ok _ hcb hok]
        exact ih rest _ _ hl hq1 hb1 (by simpa using hs1)
      · have hs1 : st.groupStack.length + rest.count '(' ≤ 32 := by
          rw [List.count_cons_of_ne (Ne.symm h2)] at hs
          exact hs
        by_cases h1 : c = '.'
        · have hok : switchCase prev c st = .ok (wildcardCase st) := by simp [switchCase, h1]
          rw [scan_cons_ok _ hcb hok]
          exact ih rest _ _ hl hq1 hb1 (by simpa [wildcardCase] using hs1)
        · by_cases h3 : c = ')'
          · have hok : switchCase prev c st = .ok (closeCase st) := by simp [switchCase, h3]
            rw [scan_cons_ok _ hcb hok]
            exact ih rest _ _ hl hq1 hb1 (by simpa [closeCase] using hs1)
          · rw [scan_cons_ok _ hcb (switchCase_literal st h1 h2 h3 (hq c (by simp)))]
            exact ih rest _ _ hl hq1 hb1 (by simpa [literalCase] using hs1)
    cases p with
    | nil => exact ⟨st, by simp [scan]⟩
    | cons c rest =>
      cases rest with
      | nil =>
        exact step c [] rfl (by simpa [trailingBackslash] using hb) (by simp [trailingBackslash])
      | cons x rest1 =>
        by_cases hcb : c = '\\'
        · subst hcb
          have hl : rest1.length ≤ n := by simp at hlen; omega
          rw [scan_escape]
          refine ih rest1 x _ hl (fun c hc => hq c (by simp [hc]))
            (by simpa [trailingBackslash] using hb) ?_
          have h1 : List.count '(' rest1 ≤ List.count '(' ('\\' :: x :: rest1) := by
            simp only [List.count_cons]
            omega
          simp only [literalCase_groupStack]
          omega
        · exact step c (x :: rest1) rfl hcb (by simpa [trailingBackslash, hcb] using hb)

/-- C4 (amended): `constructNFA` does not check that parentheses are balanced. Every pattern
without quantifier characters, with at most 32 characters `(` and without a trailing lone
backslash compiles to an automaton, whether its parentheses are balanced or not. -/
theorem constructNFA_accepts_unbalanced (p : List Char)
    (hq : ∀ c ∈ p, isQuantifier c = false) (hb : trailingBackslash p = false)
    (hs : p.count '(' ≤ 32) : ∃ nfa, constructNFA p = .ok nfa := by
  obtain ⟨st1, h⟩ := scan_no_quantifier p.length p ' ' Compiler.init le_rfl hq hb
    (by simpa [Compiler.init] using hs)
  exact ⟨finish st1, by simp [constructNFA, h]⟩

/-- The pattern `(abc`, with an unclosed group, compiles. -/
theorem constructNFA_accepts_unbalanced_witness :
    balanced ['(', 'a', 'b', 'c'] = false ∧ ∃ nfa, constructNFA ['(', 'a', 'b', 'c'] = .ok nfa :=
  ⟨by decide, constructNFA_accepts_unbalanced ['(', 'a', 'b', 'c'] (by decide) (by decide)
    (by decide)⟩

/-- C4 as stated fails: `(abc` and `abc)` have unbalanced parentheses, and `constructNFA`
returns for both the automaton it returns for `abc`. -/
theorem constructNFA_unbalanced_counterexample :
    balanced ['(', 'a', 'b', 'c'] = false ∧ balanced ['a', 'b', 'c', ')'] = false ∧
    (∃ nfa, constructNFA ['a', 'b', 'c'] = .ok nfa ∧
      constructNFA ['(', 'a', 'b', 'c'] = .ok nfa ∧
      constructNFA ['a', 'b', 'c', ')'] = .ok nfa) := by
  exact ⟨by decide, by decide, _, rfl, rfl, rfl⟩

end Pda

namespace Pda

/-! ### Small automata: `a*`, `a+`, `(ab)+` -/

theorem isMeta_false {a : Char} (h : isMeta a = false) :
    a ≠ '.' ∧ a ≠ '?' ∧ a ≠ '*' ∧ a ≠ '+' ∧ a ≠ '(' ∧ a ≠ ')' ∧ a ≠ '\\' := by
  simpa [isMeta, isQuantifier, not_or, and_assoc] using h

theorem switchCase_of_not_meta {prev a : Char} (st : Compiler) (h : isMeta a = false) :
    switchCase prev a st = .ok (literalCase a st) := by
  obtain ⟨h1, h2, h3, h4, h5, h6, h7⟩ := isMeta_false h
  simp [switchCase, h1, h2, h3, h4, h5, h6]

theorem scan_nil (prev : Char) (st : Compiler) : scan prev [] st = .ok st := by
  simp [scan]

theorem constructNFA_star (a : Char) (h : isMeta a = false) :
    constructNFA [a, '*'] = .ok (starNFA a) := by
  have hb := (isMeta_false h).2.2.2.2.2.2
  have h1 : scan ' ' [a, '*'] Compiler.init = scan a ['*'] (literalCase a Compiler.init) :=
    scan_cons_ok _ hb (switchCase_of_not_meta _ h)
  have h2 : switchCase a '*' (literalCase a Compiler.init) =
      .ok { states := [{ transitions := [newTransition [a] 0], accept := false }, newState false],
            numStates := 1, maxStates := 16, base := 0, groupStack := [], lastWasGroup := false,
            lastCharWasOperator := true } := by
    simp [switchCase, starCase, literalCase, growIfFull, Compiler.init, setState, addTransitionAt,
      addTransition, newState, redirectFirst, newTransition]
  rw [constructNFA, h1, scan_cons_ok [] (by decide) h2, scan_nil]
  simp [finish, relabel, toIndex, starNFA, newTransition]

theorem constructNFA_plus (a : Char) (h : isMeta a = false) :
    constructNFA [a, '+'] = .ok (plusNFA a) := by
  have hb := (isMeta_false h).2.2.2.2.2.2
  have h1 : scan ' ' [a, '+'] Compiler.init = scan a ['+'] (literalCase a Compiler.init) :=
    scan_cons_ok _ hb (switchCase_of_not_meta _ h)
  have h2 : switchCase a '+' (literalCase a Compiler.init) =
      .ok { states := [{ transitions := [newTransition [a] 1], accept := false },
                       { transitions := [newTransition [a] 1], accept := false }],
            numStates := 2, maxStates := 16, base := 0, groupStack := [], lastWasGroup := false,
            lastCharWasOperator := true } := by
    simp [switchCase, plusCase, literalCase, growIfFull, Compiler.init, setState, addTransitionAt,
      addTransition, newState, newTransition, transitionsOf]
  rw [constructNFA, h1, scan_cons_ok [] (by decide) h2, scan_nil]
  simp [finish, relabel, toIndex, plusNFA, newTransition]

theorem constructNFA_groupPlus (a b : Char) (ha : isMeta a = false) (hb : isMeta b = false) :
    constructNFA ['(', a, b, ')', '+'] = .ok (groupPlusNFA a b) := by
  have hab := (isMeta_false ha).2.2.2.2.2.2
  have hbb := (isMeta_false hb).2.2.2.2.2.2
  have h0 : switchCase ' ' '(' Compiler.init = .ok { Compiler.init with groupStack := [0] } := by
    simp [switchCase, openCase, Compiler.init]
  have h1 := @switchCase_of_not_meta '(' a { Compiler.init with groupStack := [0] } ha
  have h2 := @switchCase_of_not_meta a b
    (literalCase a { Compiler.init with groupStack := [0] }) hb
  have h3 : switchCase b ')' (literalCase b (literalCase a { Compiler.init with groupStack := [0] }))
      = .ok (closeCase (literalCase b (literalCase a { Compiler.init with groupStack := [0] }))) := by
    simp [switchCase]
  have h4 : switchCase ')' '+'
      (closeCase (literalCase b (literalCase a { Compiler.init with groupStack := [0] }))) =
      .ok { states := [{ transitions := [newTransition [a] 1], accept := false },
                       { transitions := [newTransition [b] 2], accept := false },
                       { transitions := [newTransition [a] 1], accept := false }],
            numStates := 3, maxStates := 16, base := 0, groupStack := [], lastWasGroup := false,
            lastCharWasOperator := true } := by
    simp [switchCase, plusCase, closeCase, literalCase, growIfFull, Compiler.init, setState,
      addTransitionAt, addTransition, newState, newTransition, transitionsOf, copyLoop,
      copyTransition]
  rw [constructNFA, scan_cons_ok _ (by decide) h0, scan_cons_ok _ hab h1,
    scan_cons_ok _ hbb h2, scan_cons_ok _ (by decide) h3, scan_cons_ok _ (by decide) h4,
    scan_nil]
  simp [finish, relabel, toIndex, groupPlusNFA, newTransition]

end Pda

namespace Pda

/-! ### Automata without epsilon transitions -/

theorem closeState_noEps (ts : List Transition) (sp : Nat) (set : List (Nat × Nat))
    (h : ∀ t ∈ ts, isEpsilon t = false) : closeState ts sp set = set := by
  induction ts generalizing set with
  | nil => simp [closeState]
  | cons t ts ih =>
    have ht : isEpsilon t = false := h t (by simp)
    simp only [closeState, ht, Bool.false_and]
    exact ih set (fun t ht => h t (List.mem_cons_of_mem _ ht))

theorem transitionsOf_mem {states : List State} {q : Nat} {t : Transition}
    (h : t ∈ transitionsOf states q) : ∃ s ∈ states, t ∈ s.transitions := by
  unfold transitionsOf at h
  split at h
  · next st hst => exact ⟨st, List.getElem?_mem hst, h⟩
  · simp at h

theorem closureLoop_noEps (states : List State)
    (h : ∀ s ∈ states, ∀ t ∈ s.transitions, isEpsilon t = false) (fuel : Nat) :
    ∀ (i : Nat) (set : List (Nat × Nat)), closureLoop states fuel i set = set := by
  induction fuel with
  | zero => intro i set; simp [closureLoop]
  | succ fuel ih =>
    intro i set
    simp only [closureLoop]
    split
    · rfl
    · next q sp _ =>
      rw [closeState_noEps _ _ _ (fun t ht => by
        obtain ⟨s, hs, hts⟩ := transitionsOf_mem ht
        exact h s hs t hts)]
      exact ih (i + 1) set

/-- Without epsilon transitions `epsilonClosure` leaves the set as it is. -/
theorem epsilonClosure_noEps (states : List State)
    (h : ∀ s ∈ states, ∀ t ∈ s.transitions, isEpsilon t = false) (set : List (Nat × Nat)) :
    epsilonClosure states set = set :=
  closureLoop_noEps states h _ 0 set

theorem starNFA_noEps (a : Char) :
    ∀ s ∈ (starNFA a).states, ∀ t ∈ s.transitions, isEpsilon t = false := by
  simp [starNFA, isEpsilon, newTransition]

theorem plusNFA_noEps (a : Char) :
    ∀ s ∈ (plusNFA a).states, ∀ t ∈ s.transitions, isEpsilon t = false := by
  simp [plusNFA, isEpsilon, newTransition]

theorem groupPlusNFA_noEps (a b : Char) :
    ∀ s ∈ (groupPlusNFA a b).states, ∀ t ∈ s.transitions, isEpsilon t = false := by
  simp [groupPlusNFA, isEpsilon, newTransition]

/-- On the empty text the character loop is not entered: no match. -/
theorem runNFA_nil (nfa : NFA) (start : Nat) (search greedy : Bool) :
    runNFA nfa start [] search greedy = { start := -1, length := 0 } := by
  simp [runNFA, runLoop, finalResult]

/-! ### `a*` and `a+`, anchored (C5, C6) -/

/-- The anchored greedy loop on `a*` from the state set `[(0, 0)]`. -/
theorem runLoop_star_greedy (a : Char) (text : List Char) :
    ∀ (pos : Nat) (b : Best),
      (b.bestMatchStart = -1 ∧ b.bestMatchLength = 0 ∧ pos = 0) ∨
        (b.bestMatchStart = 0 ∧ b.bestMatchLength = pos ∧ 1 ≤ pos) →
      1 ≤ pos + leadingRun a text →
      runLoop (starNFA a).states 0 false true text pos [(0, 0)] b =
        { start := 0, length := ((pos + leadingRun a text : Nat) : Int) } := by
  induction text with
  | nil =>
    intro pos b hb hpos
    rcases hb with ⟨_, _, h3⟩ | ⟨h1, h2, _⟩
    · simp [leadingRun] at hpos; omega
    · simp [runLoop, finalResult, h1, h2, leadingRun]
  | cons c cs ih =>
    intro pos b hb hpos
    by_cases hc : c = a
    · subst hc
      have hstep : epsilonClosure (starNFA c).states
          (reinject 0 false true pos b (stepAll (starNFA c).states c [(0, 0)] [])) = [(0, 0)] := by
        rw [epsilonClosure_noEps _ (starNFA_noEps c)]
        simp [reinject, stepAll, stepState, transitionsOf, starNFA, transitionMatches,
          newTransition, inSet]
      have hacc : checkAccept (starNFA c).states false true pos [(0, 0)] b =
          .inr { b with bestMatchStart := 0, bestMatchLength := ((pos + 1 : Nat) : Int) } := by
        rcases hb with ⟨h1, _, _⟩ | ⟨_, h2, _⟩
        · simp [checkAccept, isAccept, starNFA, h1]
        · simp [checkAccept, isAccept, starNFA, h2]
      rw [runLoop]
      simp only [hstep, hacc]
      simp only [List.length_singleton, one_ne_zero, if_false]
      rw [ih (pos + 1) _ (Or.inr ⟨rfl, rfl, by omega⟩) (by omega)]
      simp [leadingRun]
      omega
    · have hstep : epsilonClosure (starNFA a).states
          (reinject 0 false true pos b (stepAll (starNFA a).states c [(0, 0)] [])) = [] := by
        rw [epsilonClosure_noEps _ (starNFA_noEps a)]
        simp [reinject, stepAll, stepState, transitionsOf, starNFA, transitionMatches,
          newTransition, inSet, hc]
      have hrun : leadingRun a (c :: cs) = 0 := by simp [leadingRun, hc]
      rw [runLoop]
      simp only [hstep, List.length_nil, if_true]
      rcases hb with ⟨_, _, h3⟩ | ⟨h1, h2, _⟩
      · omega
      · simp [finalResult, h1, h2, hrun]

end Pda

namespace Pda

/-- The anchored greedy loop on `a+` once the accepting state is the current set. -/
theorem runLoop_plus_greedy (a : Char) (text : List Char) :
    ∀ (pos : Nat) (b : Best), b.bestMatchStart = 0 → b.bestMatchLength = pos → 1 ≤ pos →
      runLoop (plusNFA a).states 0 false true text pos [(1, 0)] b =
        { start := 0, length := ((pos + leadingRun a text : Nat) : Int) } := by
  induction text with
  | nil =>
    intro pos b h1 h2 _
    simp [runLoop, finalResult, h1, h2, leadingRun]
  | cons c cs ih =>
    intro pos b h1 h2 hpos
    by_cases hc : c = a
    · subst hc
      have hstep : epsilonClosure (plusNFA c).states
          (reinject 0 false true pos b (stepAll (plusNFA c).states c [(1, 0)] [])) = [(1, 0)] := by
        rw [epsilonClosure_noEps _ (plusNFA_noEps c)]
        simp [reinject, stepAll, stepState, transitionsOf, plusNFA, transitionMatches,
          newTransition, inSet]
      have hacc : checkAccept (plusNFA c).states false true pos [(1, 0)] b =
          .inr { b with bestMatchStart := 0, bestMatchLength := ((pos + 1 : Nat) : Int) } := by
        simp [checkAccept, isAccept, plusNFA, h2]
      rw [runLoop]
      simp only [hstep, hacc]
      simp only [List.length_singleton, one_ne_zero, if_false]
      rw [ih (pos + 1) _ rfl rfl (by omega)]
      simp [leadingRun]
      omega
    · have hstep : epsilonClosure (plusNFA a).states
          (reinject 0 false true pos b (stepAll (plusNFA a).states c [(1, 0)] [])) = [] := by
        rw [epsilonClosure_noEps _ (plusNFA_noEps a)]
        simp [reinject, stepAll, stepState, transitionsOf, plusNFA, transitionMatches,
          newTransition, inSet, hc]
      rw [runLoop]
      simp only [hstep, List.length_nil, if_true]
      simp [finalResult, h1, h2, leadingRun, hc]

/-- Anchored greedy `a*` returns the maximal leading run of `a`. -/
theorem runNFA_star_greedy (a : Char) (text : List Char) (h : 1 ≤ leadingRun a text) :
    runNFA (starNFA a) 0 text false true = { start := 0, length := (leadingRun a text : Int) } := by
  have hinit : epsilonClosure (starNFA a).states [(0, 0)] = [(0, 0)] :=
    epsilonClosure_noEps _ (starNFA_noEps a) _
  rw [runNFA, hinit, runLoop_star_greedy a text 0 _ (Or.inl ⟨rfl, rfl, rfl⟩) (by omega)]
  simp

/-- Anchored greedy `a+` returns the maximal leading run of `a`. -/
theorem runNFA_plus_greedy (a : Char) (text : List Char) (h : 1 ≤ leadingRun a text) :
    runNFA (plusNFA a) 0 text false true = { start := 0, length := (leadingRun a text : Int) } := by
  have hinit : epsilonClosure (plusNFA a).states [(0, 0)] = [(0, 0)] :=
    epsilonClosure_noEps _ (plusNFA_noEps a) _
  cases text with
  | nil => simp [leadingRun] at h
  | cons c cs =>
    have hc : c = a := by
      by_contra hne
      simp [leadingRun, hne] at h
    subst hc
    have hstep : epsilonClosure (plusNFA c).states
        (reinject 0 false true 0 { bestMatchStart := -1, bestMatchLength := 0, firstMatchStart := -1 }
          (stepAll (plusNFA c).states c [(0, 0)] [])) = [(1, 0)] := by
      rw [epsilonClosure_noEps _ (plusNFA_noEps c)]
      simp [reinject, stepAll, stepState, transitionsOf, plusNFA, transitionMatches,
        newTransition, inSet]
    have hacc : checkAccept (plusNFA c).states false true 0 [(1, 0)]
        { bestMatchStart := -1, bestMatchLength := 0, firstMatchStart := -1 } =
        .inr { bestMatchStart := 0, bestMatchLength := 1, firstMatchStart := -1 } := by
      simp [checkAccept, isAccept, plusNFA]
    rw [runNFA, hinit, runLoop]
    simp only [hstep, hacc]
    simp only [List.length_singleton, one_ne_zero, if_false]
    rw [runLoop_plus_greedy c cs 1 _ rfl rfl le_rfl]
    simp [leadingRun]
    omega

/-- Anchored non-greedy `a*` on a text that begins with `a` returns after that `a`. -/
theorem runNFA_star_nongreedy (a : Char) (cs : List Char) :
    runNFA (starNFA a) 0 (a :: cs) false false = { start := 0, length := 1 } := by
  have hinit : epsilonClosure (starNFA a).states [(0, 0)] = [(0, 0)] :=
    epsilonClosure_noEps _ (starNFA_noEps a) _
  have hstep : epsilonClosure (starNFA a).states
      (reinject 0 false false 0 { bestMatchStart := -1, bestMatchLength := 0, firstMatchStart := -1 }
        (stepAll (starNFA a).states a [(0, 0)] [])) = [(0, 0)] := by
    rw [epsilonClosure_noEps _ (starNFA_noEps a)]
    simp [reinject, stepAll, stepState, transitionsOf, starNFA, transitionMatches,
      newTransition, inSet]
  rw [runNFA, hinit, runLoop]
  simp only [hstep]
  simp [checkAccept, isAccept, starNFA]

/-- C5 (amended): `runNFA` examines accepting states only after a character has been
consumed, so no match is reported at initialization: on the empty text every automaton gives
no match, in every mode. For every literal `a` the accepting state of `constructNFA("a*")`
lies in the epsilon closure of the start state (it is the start state), and anchored
non-greedy `runNFA` on `aaa` returns start 0, length 1. -/
theorem runNFA_no_accept_at_initialization (a : Char) (h : isMeta a = false) :
    (∀ (nfa : NFA) (search greedy : Bool),
      runNFA nfa 0 [] search greedy = { start := -1, length := 0 }) ∧
    ∃ nfa, constructNFA [a, '*'] = .ok nfa ∧ isAccept nfa.states 0 = true ∧
      runNFA nfa 0 [a, a, a] false false = { start := 0, length := 1 } :=
  ⟨fun nfa search greedy => runNFA_nil nfa 0 search greedy,
   starNFA a, constructNFA_star a h, by simp [isAccept, starNFA], runNFA_star_nongreedy a [a, a]⟩

/-- The pattern `a*` on `aaa` and on the empty text. -/
theorem runNFA_no_accept_at_initialization_witness :
    (∀ (nfa : NFA) (search greedy : Bool),
      runNFA nfa 0 [] search greedy = { start := -1, length := 0 }) ∧
    ∃ nfa, constructNFA ['a', '*'] = .ok nfa ∧ isAccept nfa.states 0 = true ∧
      runNFA nfa 0 ['a', 'a', 'a'] false false = { start := 0, length := 1 } :=
  runNFA_no_accept_at_initialization 'a' (by decide)

/-- C5 as stated fails: the accepting state of `a*` is the start state, and anchored
non-greedy `runNFA` on `aaa` does not return start 0, length 0 (it returns length 1). -/
theorem runNFA_zero_length_counterexample :
    ∃ nfa, constructNFA ['a', '*'] = .ok nfa ∧ isAccept nfa.states 0 = true ∧
      runNFA nfa 0 ['a', 'a', 'a'] false false ≠ { start := 0, length := 0 } :=
  ⟨starNFA 'a', rfl, by decide, by decide⟩

/-- C6: for every literal `a` and every text whose maximal leading run of `a` has length
`k ≥ 1`, anchored greedy `runNFA` of `constructNFA("a*")` and of `constructNFA("a+")` both
return start 0, length `k`; and `runNFA` of `constructNFA("a+")` returns no match on the
empty text, in every mode. -/
theorem runNFA_star_plus_greedy (a : Char) (h : isMeta a = false) :
    (∃ nfa, constructNFA [a, '*'] = .ok nfa ∧
      ∀ text, 1 ≤ leadingRun a text →
        runNFA nfa 0 text false true = { start := 0, length := (leadingRun a text : Int) }) ∧
    (∃ nfa, constructNFA [a, '+'] = .ok nfa ∧
      (∀ text, 1 ≤ leadingRun a text →
        runNFA nfa 0 text false true = { start := 0, length := (leadingRun a text : Int) }) ∧
      ∀ search greedy, runNFA nfa 0 [] search greedy = { start := -1, length := 0 }) :=
  ⟨⟨starNFA a, constructNFA_star a h, fun text hk => runNFA_star_greedy a text hk⟩,
   ⟨plusNFA a, constructNFA_plus a h, fun text hk => runNFA_plus_greedy a text hk,
    fun _ _ => runNFA_nil _ _ _ _⟩⟩

/-- Both patterns on `aaa` give length 3. -/
theorem runNFA_star_plus_greedy_witness :
    (∃ nfa, constructNFA ['a', '*'] = .ok nfa ∧
      runNFA nfa 0 ['a', 'a', 'a'] false true = { start := 0, length := 3 }) ∧
    (∃ nfa, constructNFA ['a', '+'] = .ok nfa ∧
      runNFA nfa 0 ['a', 'a', 'a'] false true = { start := 0, length := 3 } ∧
      runNFA nfa 0 [] false true = { start := -1, length := 0 }) := by
  obtain ⟨⟨n1, h1, h2⟩, ⟨n2, h3, h4, h5⟩⟩ := runNFA_star_plus_greedy 'a' (by decide)
  exact ⟨⟨n1, h1, h2 ['a', 'a', 'a'] (by decide)⟩,
    ⟨n2, h3, h4 ['a', 'a', 'a'] (by decide), h5 false true⟩⟩

end Pda

namespace Pda

/-! ### `(ab)+` and `a+` in search mode (C7, C8) -/

/-- The greedy search loop on `a+` after the lock on start `s`. -/
theorem runLoop_plus_locked (a : Char) (text : List Char) :
    ∀ (pos s s1 : Nat) (cur : List (Nat × Nat)), cur = [(1, s)] ∨ cur = [(1, s), (0, s1)] →
      s < pos →
      runLoop (plusNFA a).states 0 true true text pos cur
          { bestMatchStart := s, bestMatchLength := (pos : Int) - (s : Int), firstMatchStart := s } =
        { start := s, length := (pos : Int) - (s : Int) + (leadingRun a text : Int) } := by
  induction text with
  | nil =>
    intro pos s s1 cur _ _
    have : (s : Int) ≠ -1 := by omega
    simp [runLoop, finalResult, leadingRun, this]
  | cons c cs ih =>
    intro pos s s1 cur hcur hs
    have hlock : (s : Int) ≠ -1 := by omega
    by_cases hc : c = a
    · subst hc
      have hstep : epsilonClosure (plusNFA c).states
          (reinject 0 true true pos
            { bestMatchStart := s, bestMatchLength := (pos : Int) - (s : Int), firstMatchStart := s }
            (stepAll (plusNFA c).states c cur [])) = [(1, s)] := by
        rw [epsilonClosure_noEps _ (plusNFA_noEps c)]
        rcases hcur with h | h <;> subst h <;>
        simp [reinject, stepAll, stepState, transitionsOf, plusNFA, transitionMatches,
          newTransition, inSet, hlock]
      have hacc : checkAccept (plusNFA c).states true true pos [(1, s)]
          { bestMatchStart := s, bestMatchLength := (pos : Int) - (s : Int), firstMatchStart := s } =
          .inr { bestMatchStart := s, bestMatchLength := ((pos + 1 : Nat) : Int) - (s : Int),
                 firstMatchStart := s } := by
        have h1 : (pos : Int) - (s : Int) < (pos : Int) + 1 - (s : Int) := by omega
        simp [checkAccept, isAccept, plusNFA, hlock, h1]
      rw [runLoop]
      simp only [hstep, hacc]
      simp only [List.length_singleton, one_ne_zero, if_false]
      rw [ih (pos + 1) s 0 _ (Or.inl rfl) (by omega)]
      simp [leadingRun]
      omega
    · have hstep : epsilonClosure (plusNFA a).states
          (reinject 0 true true pos
            { bestMatchStart := s, bestMatchLength := (pos : Int) - (s : Int), firstMatchStart := s }
            (stepAll (plusNFA a).states c cur [])) = [] := by
        rw [epsilonClosure_noEps _ (plusNFA_noEps a)]
        rcases hcur with h | h <;> subst h <;>
        simp [reinject, stepAll, stepState, transitionsOf, plusNFA, transitionMatches,
          newTransition, inSet, hlock, hc]
      rw [runLoop]
      simp only [hstep, List.length_nil, if_true]
      simp [finalResult, hlock, leadingRun, hc]

/-- The greedy search loop on `a+` before any `a` has been met. -/
theorem runLoop_plus_search (a : Char) (text : List Char) :
    ∀ (pos : Nat), a ∈ text →
      runLoop (plusNFA a).states 0 true true text pos [(0, pos)]
          { bestMatchStart := -1, bestMatchLength := 0, firstMatchStart := -1 } =
        { start := ((pos + firstIndex a text : Nat) : Int),
          length := (leadingRun a (text.drop (firstIndex a text)) : Int) } := by
  induction text with
  | nil => intro pos h; simp at h
  | cons c cs ih =>
    intro pos hmem
    by_cases hc : c = a
    · subst hc
      have hstep : epsilonClosure (plusNFA c).states
          (reinject 0 true true pos
            { bestMatchStart := -1, bestMatchLength := 0, firstMatchStart := -1 }
            (stepAll (plusNFA c).states c [(0, pos)] [])) = [(1, pos), (0, pos + 1)] := by
        rw [epsilonClosure_noEps _ (plusNFA_noEps c)]
        simp [reinject, stepAll, stepState, transitionsOf, plusNFA, transitionMatches,
          newTransition, inSet]
      have hacc : checkAccept (plusNFA c).states true true pos [(1, pos), (0, pos + 1)]
          { bestMatchStart := -1, bestMatchLength := 0, firstMatchStart := -1 } =
          .inr { bestMatchStart := pos, bestMatchLength := ((pos + 1 : Nat) : Int) - (pos : Int),
                 firstMatchStart := pos } := by
        simp [checkAccept, isAccept, plusNFA]
      rw [runLoop]
      simp only [hstep, hacc]
      simp only [List.length_cons, List.length_nil]
      rw [if_neg (by omega)]
      rw [runLoop_plus_locked c cs (pos + 1) pos (pos + 1) _ (Or.inr rfl) (by omega)]
      simp [firstIndex, leadingRun]
      omega
    · have hmem1 : a ∈ cs := by
        rcases List.mem_cons.1 hmem with h | h
        · exact absurd h.symm hc
        · exact h
      have hstep : epsilonClosure (plusNFA a).states
          (reinject 0 true true pos
            { bestMatchStart := -1, bestMatchLength := 0, firstMatchStart := -1 }
            (stepAll (plusNFA a).states c [(0, pos)] [])) = [(0, pos + 1)] := by
        rw [epsilonClosure_noEps _ (plusNFA_noEps a)]
        simp [reinject, stepAll, stepState, transitionsOf, plusNFA, transitionMatches,
          newTransition, inSet, hc]
      have hacc : checkAccept (plusNFA a).states true true pos [(0, pos + 1)]
          { bestMatchStart := -1, bestMatchLength := 0, firstMatchStart := -1 } =
          .inr { bestMatchStart := -1, bestMatchLength := 0, firstMatchStart := -1 } := by
        simp [checkAccept, isAccept, plusNFA]
      rw [runLoop]
      simp only [hstep, hacc]
      simp only [List.length_singleton, one_ne_zero, if_false]
      rw [ih (pos + 1) hmem1]
      simp [firstIndex, hc]
      omega

/-- C8: lock onto the first start. For every literal `a` and every text that contains `a`,
greedy search `runNFA` of `constructNFA("a+")` returns the index of the first `a` as start
and the length of the maximal run of `a` that begins there, whatever follows. -/
theorem runNFA_plus_search_lock (a : Char) (h : isMeta a = false) (text : List Char)
    (hmem : a ∈ text) :
    ∃ nfa, constructNFA [a, '+'] = .ok nfa ∧
      runNFA nfa 0 text true true =
        { start := (firstIndex a text : Int),
          length := (leadingRun a (text.drop (firstIndex a text)) : Int) } := by
  refine ⟨plusNFA a, constructNFA_plus a h, ?_⟩
  have hinit : epsilonClosure (plusNFA a).states [(0, 0)] = [(0, 0)] :=
    epsilonClosure_noEps _ (plusNFA_noEps a) _
  rw [runNFA, hinit, runLoop_plus_search a text 0 hmem]
  simp

/-- The text `xaaxaaa` gives start 1, length 2, although a longer run begins at offset 4. -/
theorem runNFA_plus_search_lock_witness :
    ∃ nfa, constructNFA ['a', '+'] = .ok nfa ∧
      runNFA nfa 0 ['x', 'a', 'a', 'x', 'a', 'a', 'a'] true true = { start := 1, length := 2 } :=
  runNFA_plus_search_lock 'a' (by decide) ['x', 'a', 'a', 'x', 'a', 'a', 'a'] (by decide)

end Pda

namespace Pda

/-- The greedy search loop on `(ab)+` after the lock on start 0, over further pairs `ab`. -/
theorem runLoop_groupPlus_locked (a b : Char) (hab : a ≠ b) (n : Nat) :
    ∀ (pos s1 : Nat) (cur : List (Nat × Nat)), cur = [(2, 0)] ∨ cur = [(2, 0), (0, s1)] →
      runLoop (groupPlusNFA a b).states 0 true true (repeatPair a b n) pos cur
          { bestMatchStart := 0, bestMatchLength := (pos : Int), firstMatchStart := 0 } =
        { start := 0, length := (pos : Int) + 2 * (n : Int) } := by
  induction n with
  | zero =>
    intro pos s1 cur _
    simp [runLoop, finalResult, repeatPair]
  | succ n ih =>
    intro pos s1 cur hcur
    have hba : b ≠ a := fun h => hab h.symm
    have hstep1 : epsilonClosure (groupPlusNFA a b).states
        (reinject 0 true true pos
          { bestMatchStart := 0, bestMatchLength := (pos : Int), firstMatchStart := 0 }
          (stepAll (groupPlusNFA a b).states a cur [])) = [(1, 0)] := by
      rw [epsilonClosure_noEps _ (groupPlusNFA_noEps a b)]
      rcases hcur with h | h <;> subst h <;>
      simp [reinject, stepAll, stepState, transitionsOf, groupPlusNFA, transitionMatches,
        newTransition, inSet]
    have hacc1 : checkAccept (groupPlusNFA a b).states true true pos [(1, 0)]
        { bestMatchStart := 0, bestMatchLength := (pos : Int), firstMatchStart := 0 } =
        .inr { bestMatchStart := 0, bestMatchLength := (pos : Int), firstMatchStart := 0 } := by
      simp [checkAccept, isAccept, groupPlusNFA]
    have hstep2 : epsilonClosure (groupPlusNFA a b).states
        (reinject 0 true true (pos + 1)
          { bestMatchStart := 0, bestMatchLength := (pos : Int), firstMatchStart := 0 }
          (stepAll (groupPlusNFA a b).states b [(1, 0)] [])) = [(2, 0)] := by
      rw [epsilonClosure_noEps _ (groupPlusNFA_noEps a b)]
      simp [reinject, stepAll, stepState, transitionsOf, groupPlusNFA, transitionMatches,
        newTransition, inSet]
    have hacc2 : checkAccept (groupPlusNFA a b).states true true (pos + 1) [(2, 0)]
        { bestMatchStart := 0, bestMatchLength := (pos : Int), firstMatchStart := 0 } =
        .inr { bestMatchStart := 0, bestMatchLength := ((pos + 2 : Nat) : Int),
               firstMatchStart := 0 } := by
      have h1 : (pos : Int) < (pos : Int) + 1 + 1 := by omega
      simp [checkAccept, isAccept, groupPlusNFA, h1]
      omega
    rw [repeatPair, runLoop]
    simp only [hstep1, hacc1]
    simp only [List.length_singleton, one_ne_zero, if_false]
    rw [runLoop]
    simp only [hstep2, hacc2]
    simp only [List.length_singleton, one_ne_zero, if_false]
    rw [ih (pos + 2) 0 _ (Or.inl rfl)]
    simp
    omega

/-- The first two steps of the search on `(ab)+` over a text that begins with `ab`. -/
theorem groupPlus_first_steps (a b : Char) (hab : a ≠ b) (greedy : Bool) (b0 : Best)
    (h0 : b0.firstMatchStart = -1) :
    epsilonClosure (groupPlusNFA a b).states
        (reinject 0 true greedy 0 b0 (stepAll (groupPlusNFA a b).states a [(0, 0)] [])) =
      [(1, 0), (0, 1)] ∧
    epsilonClosure (groupPlusNFA a b).states
        (reinject 0 true greedy 1 b0
          (stepAll (groupPlusNFA a b).states b [(1, 0), (0, 1)] [])) =
      [(2, 0), (0, 2)] := by
  have hba : b ≠ a := fun h => hab h.symm
  constructor
  · rw [epsilonClosure_noEps _ (groupPlusNFA_noEps a b)]
    simp [reinject, stepAll, stepState, transitionsOf, groupPlusNFA, transitionMatches,
      newTransition, inSet, h0]
  · rw [epsilonClosure_noEps _ (groupPlusNFA_noEps a b)]
    simp [reinject, stepAll, stepState, transitionsOf, groupPlusNFA, transitionMatches,
      newTransition, inSet, h0, hba]

/-- C7: for all distinct literal characters `a`, `b` and every `n ≥ 1`, search `runNFA` of
`constructNFA("(ab)+")` on the text `(ab)^n` returns start 0, length `2n` when greedy and
start 0, length 2 when non-greedy. -/
theorem runNFA_groupPlus_search (a b : Char) (ha : isMeta a = false) (hb : isMeta b = false)
    (hab : a ≠ b) (n : Nat) (hn : 1 ≤ n) :
    ∃ nfa, constructNFA ['(', a, b, ')', '+'] = .ok nfa ∧
      runNFA nfa 0 (repeatPair a b n) true true = { start := 0, length := 2 * (n : Int) } ∧
      runNFA nfa 0 (repeatPair a b n) true false = { start := 0, length := 2 } := by
  refine ⟨groupPlusNFA a b, constructNFA_groupPlus a b ha hb, ?_, ?_⟩
  · have hinit : epsilonClosure (groupPlusNFA a b).states [(0, 0)] = [(0, 0)] :=
      epsilonClosure_noEps _ (groupPlusNFA_noEps a b) _
    obtain ⟨m, rfl⟩ : ∃ m, n = m + 1 := ⟨n - 1, by omega⟩
    obtain ⟨h1, h2⟩ := groupPlus_first_steps a b hab true
      { bestMatchStart := -1, bestMatchLength := 0, firstMatchStart := -1 } rfl
    have hacc1 : checkAccept (groupPlusNFA a b).states true true 0 [(1, 0), (0, 1)]
        { bestMatchStart := -1, bestMatchLength := 0, firstMatchStart := -1 } =
        .inr { bestMatchStart := -1, bestMatchLength := 0, firstMatchStart := -1 } := by
      simp [checkAccept, isAccept, groupPlusNFA]
    have hacc2 : checkAccept (groupPlusNFA a b).states true true 1 [(2, 0), (0, 2)]
        { bestMatchStart := -1, bestMatchLength := 0, firstMatchStart := -1 } =
        .inr { bestMatchStart := 0, bestMatchLength := ((2 : Nat) : Int), firstMatchStart := 0 } := by
      simp [checkAccept, isAccept, groupPlusNFA]
    rw [runNFA, hinit, repeatPair, runLoop]
    simp only [h1, hacc1]
    simp only [List.length_cons, List.length_nil]
    rw [if_neg (by omega), runLoop]
    simp only [Nat.zero_add, h2, hacc2]
    simp only [List.length_cons, List.length_nil]
    rw [if_neg (by omega)]
    rw [runLoop_groupPlus_locked a b hab m 2 2 _ (Or.inr rfl)]
    simp
    omega
  · have hinit : epsilonClosure (groupPlusNFA a b).states [(0, 0)] = [(0, 0)] :=
      epsilonClosure_noEps _ (groupPlusNFA_noEps a b) _
    obtain ⟨m, rfl⟩ : ∃ m, n = m + 1 := ⟨n - 1, by omega⟩
    obtain ⟨h1, h2⟩ := groupPlus_first_steps a b hab false
      { bestMatchStart := -1, bestMatchLength := 0, firstMatchStart := -1 } rfl
    have hacc1 : checkAccept (groupPlusNFA a b).states true false 0 [(1, 0), (0, 1)]
        { bestMatchStart := -1, bestMatchLength := 0, firstMatchStart := -1 } =
        .inr { bestMatchStart := -1, bestMatchLength := 0, firstMatchStart := -1 } := by
      simp [checkAccept, isAccept, groupPlusNFA]
    have hacc2 : checkAccept (groupPlusNFA a b).states true false 1 [(2, 0), (0, 2)]
        { bestMatchStart := -1, bestMatchLength := 0, firstMatchStart := -1 } =
        .inl { start := 0, length := 2 } := by
      simp [checkAccept, isAccept, groupPlusNFA]
    rw [runNFA, hinit, repeatPair, runLoop]
    simp only [h1, hacc1]
    simp only [List.length_cons, List.length_nil]
    rw [if_neg (by omega), runLoop]
    simp only [Nat.zero_add, h2, hacc2]
    simp only [List.length_cons, List.length_nil]
    rw [if_neg (by omega)]

/-- The text `ababab` gives length 6 greedy and a single `ab` non-greedy. -/
theorem runNFA_groupPlus_search_witness :
    ∃ nfa, constructNFA ['(', 'a', 'b', ')', '+'] = .ok nfa ∧
      runNFA nfa 0 ['a', 'b', 'a', 'b', 'a', 'b'] true true = { start := 0, length := 6 } ∧
      runNFA nfa 0 ['a', 'b', 'a', 'b', 'a', 'b'] true false = { start := 0, length := 2 } :=
  runNFA_groupPlus_search 'a' 'b' (by decide) (by decide) (by decide) 3 (by decide)

end Pda

namespace Pda

/-! ### Paths -/

theorem Reach.trans {states : List State} {q r r1 : Nat} {u v : List Char}
    (h1 : Reach states q u r) (h2 : Reach states r v r1) : Reach states q (u ++ v) r1 := by
  induction h1 with
  | refl q => simpa using h2
  | eps t ht he _ ih => exact Reach.eps t ht he (ih h2)
  | step t ht hm _ ih => exact Reach.step t ht hm (ih h2)

theorem Reach.snoc_eps {states : List State} {q r : Nat} {u : List Char} (t : Transition)
    (h1 : Reach states q u r) (ht : t ∈ transitionsOf states r) (he : isEpsilon t = true) :
    Reach states q u t.next := by
  simpa using h1.trans (Reach.eps t ht he (Reach.refl t.next))

theorem Reach.snoc_step {states : List State} {q r : Nat} {u : List Char} {c : Char}
    (t : Transition) (h1 : Reach states q u r) (ht : t ∈ transitionsOf states r)
    (hm : transitionMatches t c = true) : Reach states q (u ++ [c]) t.next :=
  h1.trans (Reach.step t ht hm (Reach.refl t.next))

/-- A path over `u ++ v` passes through a state between `u` and `v`. -/
theorem Reach.split {states : List State} {q r : Nat} {w : List Char}
    (h : Reach states q w r) :
    ∀ u v, w = u ++ v → ∃ m, Reach states q u m ∧ Reach states m v r := by
  induction h with
  | refl q =>
    intro u v huv
    have hu : u = [] := by
      cases u with
      | nil => rfl
      | cons x u => simp at huv
    have hv : v = [] := by
      subst hu
      simpa using huv.symm
    subst hu; subst hv
    exact ⟨q, Reach.refl q, Reach.refl q⟩
  | eps t ht he _ ih =>
    intro u v huv
    obtain ⟨m, h1, h2⟩ := ih u v huv
    exact ⟨m, Reach.eps t ht he h1, h2⟩
  | @step q c w r t ht hm hr ih =>
    intro u v huv
    cases u with
    | nil =>
      simp only [List.nil_append] at huv
      subst huv
      exact ⟨q, Reach.refl q, Reach.step t ht hm hr⟩
    | cons x u =>
      simp only [List.cons_append, List.cons.injEq] at huv
      obtain ⟨hx, hw⟩ := huv
      subst hx
      obtain ⟨m, h1, h2⟩ := ih u v hw
      exact ⟨m, Reach.step t ht hm h1, h2⟩

/-- The last character of a path is consumed by one transition, followed by epsilons. -/
theorem Reach.last {states : List State} {q r : Nat} {w : List Char}
    (h : Reach states q w r) :
    ∀ u c, w = u ++ [c] → ∃ q1 t, Reach states q u q1 ∧ t ∈ transitionsOf states q1 ∧
      transitionMatches t c = true ∧ Reach states t.next [] r := by
  induction h with
  | refl q => intro u c huc; simp at huc
  | eps t ht he _ ih =>
    intro u c huc
    obtain ⟨q1, t1, h1, h2, h3, h4⟩ := ih u c huc
    exact ⟨q1, t1, Reach.eps t ht he h1, h2, h3, h4⟩
  | @step q c0 w r t ht hm hr ih =>
    intro u c huc
    cases u with
    | nil =>
      simp only [List.nil_append, List.cons.injEq] at huc
      obtain ⟨hc, hw⟩ := huc
      subst hc; subst hw
      exact ⟨q, t, Reach.refl q, ht, hm, hr⟩
    | cons x u =>
      simp only [List.cons_append, List.cons.injEq] at huc
      obtain ⟨hx, hw⟩ := huc
      subst hx
      obtain ⟨q1, t1, h1, h2, h3, h4⟩ := ih u c hw
      exact ⟨q1, t1, Reach.step t ht hm h1, h2, h3, h4⟩

/-! ### State sets -/

theorem inSet_iff (set : List (Nat × Nat)) (q : Nat) :
    inSet set q = true ↔ ∃ sp, (q, sp) ∈ set := by
  simp only [inSet, List.any_eq_true, beq_iff_eq]
  constructor
  · rintro ⟨⟨q1, sp⟩, hmem, rfl⟩
    exact ⟨sp, hmem⟩
  · rintro ⟨sp, hmem⟩
    exact ⟨(q, sp), hmem, rfl⟩

theorem inSet_iff_mem_map (set : List (Nat × Nat)) (q : Nat) :
    inSet set q = true ↔ q ∈ set.map Prod.fst := by
  rw [inSet_iff]
  simp

theorem inSet_append (s1 s2 : List (Nat × Nat)) (q : Nat) :
    inSet (s1 ++ s2) q = (inSet s1 q || inSet s2 q) := by
  simp [inSet]

theorem nodup_snoc {set : List (Nat × Nat)} {q sp : Nat} (h : (set.map Prod.fst).Nodup)
    (hq : inSet set q = false) : ((set ++ [(q, sp)]).map Prod.fst).Nodup := by
  have hq1 : q ∉ set.map Prod.fst := by
    rw [← inSet_iff_mem_map]
    simp [hq]
  rw [List.map_append, List.nodup_append]
  refine ⟨h, by simp, ?_⟩
  intro x hx hx1
  simp only [List.map_cons, List.map_nil, List.mem_singleton] at hx1
  subst hx1
  exact hq1 hx

theorem mem_allTargets {states : List State} {q : Nat} {t : Transition}
    (h : t ∈ transitionsOf states q) : t.next ∈ allTargets states := by
  obtain ⟨s, hs, hts⟩ := transitionsOf_mem h
  simp only [allTargets, List.mem_flatMap, List.mem_map]
  exact ⟨s, hs, t, hts, rfl⟩

end Pda

namespace Pda

/-! ### The epsilon closure -/

/-- The inner loop of the closure appends epsilon targets of the scanned state, keeps the
set free of duplicates and leaves every epsilon target of the state in the set. -/
theorem closeState_spec (sp : Nat) (ts : List Transition) :
    ∀ set : List (Nat × Nat),
      (∃ added, closeState ts sp set = set ++ added ∧
        ∀ e ∈ added, e.2 = sp ∧ ∃ t ∈ ts, isEpsilon t = true ∧ t.next = e.1) ∧
      ((set.map Prod.fst).Nodup → ((closeState ts sp set).map Prod.fst).Nodup) ∧
      (∀ t ∈ ts, isEpsilon t = true → inSet (closeState ts sp set) t.next = true) := by
  induction ts with
  | nil =>
    intro set
    exact ⟨⟨[], by simp [closeState]⟩, by simp [closeState], by simp⟩
  | cons t ts ih =>
    intro set
    by_cases hc : (isEpsilon t && !inSet set t.next) = true
    · obtain ⟨⟨added, hadd, hprop⟩, hnd, hin⟩ := ih (set ++ [(t.next, sp)])
      have heq : closeState (t :: ts) sp set = closeState ts sp (set ++ [(t.next, sp)]) := by
        simp only [closeState, hc, if_true]
      simp only [Bool.and_eq_true, Bool.not_eq_true'] at hc
      rw [heq]
      refine ⟨⟨(t.next, sp) :: added, by simp [hadd], ?_⟩, ?_, ?_⟩
      · intro e he
        rcases List.mem_cons.1 he with h | h
        · subst h
          exact ⟨rfl, t, by simp, hc.1, rfl⟩
        · obtain ⟨h1, t1, ht1, h2, h3⟩ := hprop e h
          exact ⟨h1, t1, List.mem_cons_of_mem _ ht1, h2, h3⟩
      · intro hset
        exact hnd (nodup_snoc hset hc.2)
      · intro t1 ht1 he1
        rcases List.mem_cons.1 ht1 with h | h
        · subst h
          rw [hadd]
          simp [inSet_append, inSet]
        · exact hin t1 h he1
    · obtain ⟨⟨added, hadd, hprop⟩, hnd, hin⟩ := ih set
      have heq : closeState (t :: ts) sp set = closeState ts sp set := by
        simp only [closeState, hc]
        simp
      rw [heq]
      refine ⟨⟨added, hadd, ?_⟩, hnd, ?_⟩
      · intro e he
        obtain ⟨h1, t1, ht1, h2, h3⟩ := hprop e he
        exact ⟨h1, t1, List.mem_cons_of_mem _ ht1, h2, h3⟩
      · intro t1 ht1 he1
        rcases List.mem_cons.1 ht1 with h | h
        · subst h
          have : inSet set t1.next = true := by
            simp only [Bool.and_eq_true, Bool.not_eq_true', not_and, Bool.not_eq_false] at hc
            exact hc he1
          rw [hadd, inSet_append, this]
          rfl
        · exact hin t1 h he1

/-- A duplicate-free list of states drawn from `U` is no longer than `U`. -/
theorem length_le_of_nodup_subset {set : List (Nat × Nat)} {U : List Nat}
    (hnd : (set.map Prod.fst).Nodup) (hsub : ∀ e ∈ set, e.1 ∈ U) : set.length ≤ U.length := by
  have h1 : set.map Prod.fst ⊆ U := by
    intro x hx
    obtain ⟨e, he, rfl⟩ := List.mem_map.1 hx
    exact hsub e he
  have := (List.Nodup.subperm hnd h1).length_le
  simpa using this

/-- The outer loop of the closure: with enough iterations allowed for the states of `U`, it
ends with a set that is closed under epsilon transitions, free of duplicates, and whose
new entries carry the start position of an entry they are reached from. -/
theorem closureLoop_spec (states : List State) (set0 : List (Nat × Nat)) (U : List Nat)
    (hU : ∀ q t, t ∈ transitionsOf states q → t.next ∈ U) (fuel : Nat) :
    ∀ (i : Nat) (set : List (Nat × Nat)),
      (set.map Prod.fst).Nodup → (∀ e ∈ set, e.1 ∈ U) → i ≤ set.length → U.length ≤ fuel + i →
      (∀ k e, k < i → set[k]? = some e →
        ∀ t ∈ transitionsOf states e.1, isEpsilon t = true → inSet set t.next = true) →
      (∀ e ∈ set, ∃ e0 ∈ set0, e0.2 = e.2 ∧ Reach states e0.1 [] e.1) →
      (∃ added, closureLoop states fuel i set = set ++ added) ∧
      ((closureLoop states fuel i set).map Prod.fst).Nodup ∧
      (∀ e ∈ closureLoop states fuel i set, ∀ t ∈ transitionsOf states e.1,
        isEpsilon t = true → inSet (closureLoop states fuel i set) t.next = true) ∧
      (∀ e ∈ closureLoop states fuel i set,
        ∃ e0 ∈ set0, e0.2 = e.2 ∧ Reach states e0.1 [] e.1) := by
  have done : ∀ (i : Nat) (set : List (Nat × Nat)), i = set.length →
      (∀ k e, k < i → set[k]? = some e →
        ∀ t ∈ transitionsOf states e.1, isEpsilon t = true → inSet set t.next = true) →
      ∀ e ∈ set, ∀ t ∈ transitionsOf states e.1, isEpsilon t = true →
        inSet set t.next = true := by
    intro i set hi hproc e he
    obtain ⟨k, hk⟩ := List.mem_iff_getElem?.1 he
    have hlt : k < set.length := by
      by_contra hge
      have : set[k]? = none := by simp; omega
      simp [this] at hk
    exact hproc k e (by omega) hk
  induction fuel with
  | zero =>
    intro i set hnd hsub hi hfuel hproc hsound
    have hlen := length_le_of_nodup_subset hnd hsub
    simp only [closureLoop]
    exact ⟨⟨[], by simp⟩, hnd, done i set (by omega) hproc, hsound⟩
  | succ fuel ih =>
    intro i set hnd hsub hi hfuel hproc hsound
    cases hget : set[i]? with
    | none =>
      have hlen : set.length ≤ i := by simpa using hget
      have heq : closureLoop states (fuel + 1) i set = set := by
        simp only [closureLoop, hget]
      rw [heq]
      exact ⟨⟨[], by simp⟩, hnd, done i set (by omega) hproc, hsound⟩
    | some e =>
      obtain ⟨q, sp⟩ := e
      have heq : closureLoop states (fuel + 1) i set =
          closureLoop states fuel (i + 1) (closeState (transitionsOf states q) sp set) := by
        simp only [closureLoop, hget]
      have hmem : (q, sp) ∈ set := List.getElem?_mem hget
      have hilt : i < set.length := by
        by_contra hge
        have : set[i]? = none := by simp; omega
        simp [this] at hget
      obtain ⟨⟨added, hadd, hprop⟩, hnd1, hin⟩ := closeState_spec sp (transitionsOf states q) set
      rw [heq]
      have hres := ih (i + 1) (closeState (transitionsOf states q) sp set) (hnd1 hnd)
        (by
          intro e he
          rw [hadd] at he
          rcases List.mem_append.1 he with h | h
          · exact hsub e h
          · obtain ⟨_, t, ht, _, h3⟩ := hprop e h
            rw [← h3]
            exact hU q t ht)
        (by rw [hadd]; simp; omega)
        (by omega)
        (by
          intro k e hk hke t ht he
          by_cases hki : k = i
          · subst hki
            have hke1 : set[k]? = some e := by
              rw [hadd, List.getElem?_append_left hilt] at hke
              exact hke
            rw [hget] at hke1
            cases hke1
            exact hin t ht he
          · have hklt : k < set.length := by omega
            have hke1 : set[k]? = some e := by
              rw [hadd, List.getElem?_append_left hklt] at hke
              exact hke
            have := hproc k e (by omega) hke1 t ht he
            rw [hadd, inSet_append, this]
            rfl)
        (by
          intro e he
          rw [hadd] at he
          rcases List.mem_append.1 he with h | h
          · exact hsound e h
          · obtain ⟨h1, t, ht, h2, h3⟩ := hprop e h
            obtain ⟨e0, he0, h4, h5⟩ := hsound (q, sp) hmem
            refine ⟨e0, he0, by rw [h4, h1], ?_⟩
            rw [← h3]
            exact h5.snoc_eps t ht h2)
      obtain ⟨⟨added1, hadd1⟩, h2, h3, h4⟩ := hres
      exact ⟨⟨added ++ added1, by rw [hadd1, hadd, List.append_assoc]⟩, h2, h3, h4⟩

/-- The specification of `epsilonClosure` on a duplicate-free set: the set is kept as the
beginning of the result, the result is free of duplicates and closed under epsilon
transitions, and each entry carries the start position of an entry of the given set from
which it is reached by epsilon transitions. The iteration bound of `epsilonClosure` is not
what stops the loop. -/
theorem closureLoop_fuel (states : List State) (set : List (Nat × Nat))
    (hnd : (set.map Prod.fst).Nodup) :
    (∃ added, epsilonClosure states set = set ++ added) ∧
    ((epsilonClosure states set).map Prod.fst).Nodup ∧
    (∀ e ∈ epsilonClosure states set, ∀ t ∈ transitionsOf states e.1,
      isEpsilon t = true → inSet (epsilonClosure states set) t.next = true) ∧
    (∀ e ∈ epsilonClosure states set,
      ∃ e0 ∈ set, e0.2 = e.2 ∧ Reach states e0.1 [] e.1) := by
  refine closureLoop_spec states set (set.map Prod.fst ++ allTargets states) ?_ _ 0 set hnd
    ?_ (Nat.zero_le _) (by simp) (fun k e hk => absurd hk (Nat.not_lt_zero k)) ?_
  · intro q t ht
    exact List.mem_append_right _ (mem_allTargets ht)
  · intro e he
    exact List.mem_append_left _ (List.mem_map_of_mem _ he)
  · intro e he
    exact ⟨e, he, rfl, Reach.refl e.1⟩

/-- Every state reached by epsilon transitions from a state of the closure is in it. -/
theorem epsilonClosure_complete (states : List State) (set : List (Nat × Nat))
    (hnd : (set.map Prod.fst).Nodup) {q r : Nat} {w : List Char} (h : Reach states q w r) :
    w = [] → inSet (epsilonClosure states set) q = true →
      inSet (epsilonClosure states set) r = true := by
  induction h with
  | refl q => intro _ h; exact h
  | eps t ht he _ ih =>
    intro hw hq
    obtain ⟨sp, hmem⟩ := (inSet_iff _ _).1 hq
    exact ih hw ((closureLoop_fuel states set hnd).2.2.1 _ hmem t ht he)
  | step t ht hm _ _ => intro hw; simp at hw

end Pda

namespace Pda

/-! ### One step on a character -/

/-- The loop over the transitions of one current state appends targets of enabled
transitions, keeps the next set free of duplicates and leaves every enabled target in it. -/
theorem stepState_spec (c : Char) (sp : Nat) (ts : List Transition) :
    ∀ next : List (Nat × Nat),
      (∃ added, stepState c ts sp next = next ++ added ∧
        ∀ e ∈ added, e.2 = sp ∧ ∃ t ∈ ts, transitionMatches t c = true ∧ t.next = e.1) ∧
      ((next.map Prod.fst).Nodup → ((stepState c ts sp next).map Prod.fst).Nodup) ∧
      (∀ t ∈ ts, transitionMatches t c = true → inSet (stepState c ts sp next) t.next = true) := by
  induction ts with
  | nil =>
    intro next
    exact ⟨⟨[], by simp [stepState]⟩, by simp [stepState], by simp⟩
  | cons t ts ih =>
    intro next
    by_cases hc : (transitionMatches t c && !inSet next t.next) = true
    · obtain ⟨⟨added, hadd, hprop⟩, hnd, hin⟩ := ih (next ++ [(t.next, sp)])
      have heq : stepState c (t :: ts) sp next = stepState c ts sp (next ++ [(t.next, sp)]) := by
        simp only [stepState, hc, if_true]
      simp only [Bool.and_eq_true, Bool.not_eq_true'] at hc
      rw [heq]
      refine ⟨⟨(t.next, sp) :: added, by simp [hadd], ?_⟩, ?_, ?_⟩
      · intro e he
        rcases List.mem_cons.1 he with h | h
        · subst h
          exact ⟨rfl, t, by simp, hc.1, rfl⟩
        · obtain ⟨h1, t1, ht1, h2, h3⟩ := hprop e h
          exact ⟨h1, t1, List.mem_cons_of_mem _ ht1, h2, h3⟩
      · intro hset
        exact hnd (nodup_snoc hset hc.2)
      · intro t1 ht1 he1
        rcases List.mem_cons.1 ht1 with h | h
        · subst h
          rw [hadd]
          simp [inSet_append, inSet]
        · exact hin t1 h he1
    · obtain ⟨⟨added, hadd, hprop⟩, hnd, hin⟩ := ih next
      have heq : stepState c (t :: ts) sp next = stepState c ts sp next := by
        simp only [stepState, hc]
        simp
      rw [heq]
      refine ⟨⟨added, hadd, ?_⟩, hnd, ?_⟩
      · intro e he
        obtain ⟨h1, t1, ht1, h2, h3⟩ := hprop e he
        exact ⟨h1, t1, List.mem_cons_of_mem _ ht1, h2, h3⟩
      · intro t1 ht1 he1
        rcases List.mem_cons.1 ht1 with h | h
        · subst h
          have : inSet next t1.next = true := by
            simp only [Bool.and_eq_true, Bool.not_eq_true', not_and, Bool.not_eq_false] at hc
            exact hc he1
          rw [hadd, inSet_append, this]
          rfl
        · exact hin t1 h he1

/-- The loop over the current states: the next set is extended by targets of enabled
transitions of current states, each with the start position of the state it comes from. -/
theorem stepAll_spec (states : List State) (c : Char) (cur : List (Nat × Nat)) :
    ∀ next : List (Nat × Nat),
      (∃ added, stepAll states c cur next = next ++ added ∧
        ∀ e ∈ added, ∃ q, (q, e.2) ∈ cur ∧ ∃ t ∈ transitionsOf states q,
          transitionMatches t c = true ∧ t.next = e.1) ∧
      ((next.map Prod.fst).Nodup → ((stepAll states c cur next).map Prod.fst).Nodup) ∧
      (∀ q sp, (q, sp) ∈ cur → ∀ t ∈ transitionsOf states q, transitionMatches t c = true →
        inSet (stepAll states c cur next) t.next = true) := by
  induction cur with
  | nil =>
    intro next
    exact ⟨⟨[], by simp [stepAll]⟩, by simp [stepAll], by simp⟩
  | cons e0 cur ih =>
    intro next
    obtain ⟨q0, sp0⟩ := e0
    obtain ⟨⟨add1, hadd1, hprop1⟩, hnd1, hin1⟩ :=
      stepState_spec c sp0 (transitionsOf states q0) next
    obtain ⟨⟨add2, hadd2, hprop2⟩, hnd2, hin2⟩ :=
      ih (stepState c (transitionsOf states q0) sp0 next)
    have heq : stepAll states c ((q0, sp0) :: cur) next =
        stepAll states c cur (stepState c (transitionsOf states q0) sp0 next) := by
      simp only [stepAll]
    rw [heq]
    refine ⟨⟨add1 ++ add2, by rw [hadd2, hadd1, List.append_assoc], ?_⟩, ?_, ?_⟩
    · intro e he
      rcases List.mem_append.1 he with h | h
      · obtain ⟨h1, t, ht, h2, h3⟩ := hprop1 e h
        exact ⟨q0, by rw [h1]; simp, t, ht, h2, h3⟩
      · obtain ⟨q, hq, t, ht, h2, h3⟩ := hprop2 e h
        exact ⟨q, List.mem_cons_of_mem _ hq, t, ht, h2, h3⟩
    · intro hset
      exact hnd2 (hnd1 hset)
    · intro q sp hq t ht hm
      rcases List.mem_cons.1 hq with h | h
      · cases h
        have := hin1 t ht hm
        rw [hadd2, inSet_append, this]
        rfl
      · exact hin2 q sp h t ht hm

/-! ### The anchored run -/

theorem setOK_init (states : List State) (start : Nat) :
    SetOK states start (epsilonClosure states [(start, 0)]) [] := by
  have hnd : (([(start, 0)] : List (Nat × Nat)).map Prod.fst).Nodup := by simp
  obtain ⟨⟨added, hadd⟩, h2, h3, h4⟩ := closureLoop_fuel states [(start, 0)] hnd
  refine ⟨h2, ?_, fun q => ⟨?_, ?_⟩⟩
  · intro e he
    obtain ⟨e0, he0, h5, _⟩ := h4 e he
    simp only [List.mem_singleton] at he0
    subst he0
    exact h5.symm
  · intro hq
    obtain ⟨sp, hmem⟩ := (inSet_iff _ _).1 hq
    obtain ⟨e0, he0, _, h6⟩ := h4 _ hmem
    simp only [List.mem_singleton] at he0
    subst he0
    exact h6
  · intro hr
    refine epsilonClosure_complete states _ hnd hr rfl ?_
    rw [hadd, inSet_append]
    simp [inSet]

/-- One character of the anchored loop keeps the description of the state set. -/
theorem setOK_step (states : List State) (start : Nat) (greedy : Bool) (pos : Nat) (b : Best)
    (c : Char) {cur : List (Nat × Nat)} {pre : List Char} (h : SetOK states start cur pre) :
    SetOK states start
      (epsilonClosure states (reinject start false greedy pos b (stepAll states c cur [])))
      (pre ++ [c]) := by
  obtain ⟨_, hzero, hset⟩ := h
  have hre : reinject start false greedy pos b (stepAll states c cur []) =
      stepAll states c cur [] := by simp [reinject]
  rw [hre]
  obtain ⟨⟨add, hadd, hprop⟩, hnd1, hin⟩ := stepAll_spec states c cur []
  have hnd : ((stepAll states c cur []).map Prod.fst).Nodup := hnd1 (by simp)
  simp only [List.nil_append] at hadd
  obtain ⟨⟨added, hadded⟩, h2, h3, h4⟩ := closureLoop_fuel states _ hnd
  refine ⟨h2, ?_, fun q => ⟨?_, ?_⟩⟩
  · intro e he
    obtain ⟨e0, he0, h5, _⟩ := h4 e he
    rw [hadd] at he0
    obtain ⟨q1, hq1, _⟩ := hprop e0 he0
    rw [← h5]
    exact hzero (q1, e0.2) hq1
  · intro hq
    obtain ⟨sp, hmem⟩ := (inSet_iff _ _).1 hq
    obtain ⟨e0, he0, _, h6⟩ := h4 _ hmem
    rw [hadd] at he0
    obtain ⟨q1, hq1, t, ht, hm, hnext⟩ := hprop e0 he0
    have hr1 : Reach states start pre q1 := (hset q1).1 ((inSet_iff _ _).2 ⟨_, hq1⟩)
    have := (hr1.snoc_step t ht hm).trans (hnext ▸ h6)
    simpa using this
  · intro hr
    obtain ⟨q1, t, hr1, ht, hm, hr2⟩ := hr.last pre c rfl
    obtain ⟨sp, hmem⟩ := (inSet_iff _ _).1 ((hset q1).2 hr1)
    have hin1 := hin q1 sp hmem t ht hm
    refine epsilonClosure_complete states _ hnd hr2 rfl ?_
    rw [hadded, inSet_append, hin1]
    rfl

/-! ### The best match of the anchored greedy run -/

theorem take_append_le {pre : List Char} {k : Nat} (c : List Char) (hk : k ≤ pre.length) :
    (pre ++ c).take k = pre.take k := by
  rw [List.take_append_of_le_length hk]

/-- The best match stays the answer when the longer text is not accepted. -/
theorem longestAccepted_snoc (states : List State) (start : Nat) (pre : List Char) (c : Char)
    (s len : Int) (h : LongestAccepted states start pre s len)
    (hno : ¬ AcceptsFrom states start (pre ++ [c])) :
    LongestAccepted states start (pre ++ [c]) s len := by
  have key : ∀ k, pre.length < k → k ≤ (pre ++ [c]).length →
      ¬ AcceptsFrom states start ((pre ++ [c]).take k) := by
    intro k h1 _
    rw [List.take_of_length_le (by simp; omega)]
    exact hno
  rcases h with ⟨h1, h2, h3⟩ | ⟨h1, n, h2, h3, h4, h5, h6⟩
  · refine Or.inl ⟨h1, h2, fun k hk1 hk2 => ?_⟩
    by_cases hk : k ≤ pre.length
    · rw [take_append_le _ hk]
      exact h3 k hk1 hk
    · exact key k (by omega) hk2
  · refine Or.inr ⟨h1, n, h2, h3, by simp; omega, by rw [take_append_le _ h4]; exact h5,
      fun k hk1 hk2 => ?_⟩
    by_cases hk : k ≤ pre.length
    · rw [take_append_le _ hk]
      exact h6 k hk1 hk
    · exact key k (by omega) hk2

/-- An accepted text is its own longest accepted beginning. -/
theorem longestAccepted_full (states : List State) (start : Nat) (pre : List Char) (c : Char)
    (hacc : AcceptsFrom states start (pre ++ [c])) :
    LongestAccepted states start (pre ++ [c]) 0 ((pre.length + 1 : Nat) : Int) := by
  refine Or.inr ⟨rfl, pre.length + 1, rfl, by omega, by simp,
    by rw [List.take_of_length_le (by simp)]; exact hacc, fun k hk1 hk2 => ?_⟩
  simp at hk2
  omega

/-- When no state is reached over `pre ++ [c]`, nothing longer is accepted either. -/
theorem longestAccepted_dead (states : List State) (start : Nat) (pre : List Char) (c : Char)
    (cs : List Char) (s len : Int) (h : LongestAccepted states start pre s len)
    (hdead : ∀ m, ¬ Reach states start (pre ++ [c]) m) :
    LongestAccepted states start (pre ++ c :: cs) s len := by
  have key : ∀ k, pre.length < k → ¬ AcceptsFrom states start ((pre ++ c :: cs).take k) := by
    intro k hk ⟨f, hf, _⟩
    have hsplit : (pre ++ c :: cs).take k = (pre ++ [c]) ++ cs.take (k - (pre.length + 1)) := by
      have : pre ++ c :: cs = (pre ++ [c]) ++ cs := by simp
      rw [this, List.take_append_eq_append_take]
      have hl : (pre ++ [c]).length ≤ k := by simp; omega
      rw [List.take_of_length_le hl]
      simp
    obtain ⟨m, hm, _⟩ := hf.split _ _ hsplit
    exact hdead m hm
  rcases h with ⟨h1, h2, h3⟩ | ⟨h1, n, h2, h3, h4, h5, h6⟩
  · refine Or.inl ⟨h1, h2, fun k hk1 _ => ?_⟩
    by_cases hk : k ≤ pre.length
    · rw [take_append_le _ hk]
      exact h3 k hk1 hk
    · exact key k (by omega)
  · refine Or.inr ⟨h1, n, h2, h3, by simp; omega, by rw [take_append_le _ h4]; exact h5,
      fun k hk1 _ => ?_⟩
    by_cases hk : k ≤ pre.length
    · rw [take_append_le _ hk]
      exact h6 k hk1 hk
    · exact key k (by omega)

end Pda

namespace Pda

/-- The accept scan of the anchored greedy mode leaves a best match of the current length
as it is. -/
theorem checkAccept_anchored_keep (states : List State) (pos : Nat) (set : List (Nat × Nat)) :
    ∀ b : Best, (∀ e ∈ set, e.2 = 0) → b.bestMatchStart ≠ -1 →
      ((pos + 1 : Nat) : Int) ≤ b.bestMatchLength →
      checkAccept states false true pos set b = .inr b := by
  induction set with
  | nil => intro b _ _ _; simp [checkAccept]
  | cons e set ih =>
    intro b hzero hs hl
    obtain ⟨q, sp⟩ := e
    have hsp : sp = 0 := hzero (q, sp) (by simp)
    subst hsp
    have hrest := ih b (fun e he => hzero e (List.mem_cons_of_mem _ he)) hs hl
    have hnot : ¬ (((pos + 1 : Nat) : Int) - ((0 : Nat) : Int) > b.bestMatchLength ∨
        b.bestMatchStart = -1) := by
      push_neg
      exact ⟨by simpa using hl, hs⟩
    by_cases hacc : isAccept states q = true
    · simp only [checkAccept, hacc, if_true, Bool.false_eq_true, if_false, hnot]
      exact hrest
    · simp only [checkAccept, hacc, Bool.false_eq_true, if_false]
      exact hrest

/-- The accept scan of the anchored greedy mode: when some state of the set accepts, the
best match becomes the text consumed so far; otherwise it is unchanged. -/
theorem checkAccept_anchored (states : List State) (pos : Nat) (set : List (Nat × Nat)) :
    ∀ b : Best, (∀ e ∈ set, e.2 = 0) →
      (b.bestMatchStart = -1 ∨ b.bestMatchLength < ((pos + 1 : Nat) : Int)) →
      checkAccept states false true pos set b =
        .inr (if set.any (fun e => isAccept states e.1) = true then
          { b with bestMatchStart := 0, bestMatchLength := ((pos + 1 : Nat) : Int) } else b) := by
  induction set with
  | nil => intro b _ _; simp [checkAccept]
  | cons e set ih =>
    intro b hzero hb
    obtain ⟨q, sp⟩ := e
    have hsp : sp = 0 := hzero (q, sp) (by simp)
    subst hsp
    have hz : ∀ e ∈ set, e.2 = 0 := fun e he => hzero e (List.mem_cons_of_mem _ he)
    by_cases hacc : isAccept states q = true
    · have hyes : ((pos + 1 : Nat) : Int) - ((0 : Nat) : Int) > b.bestMatchLength ∨
          b.bestMatchStart = -1 := by
        rcases hb with h | h
        · exact Or.inr h
        · exact Or.inl (by simpa using h)
      have hkeep := checkAccept_anchored_keep states pos set
        { b with bestMatchStart := ((0 : Nat) : Int),
                 bestMatchLength := ((pos + 1 : Nat) : Int) - ((0 : Nat) : Int) }
        hz (by simp) (by simp)
      simp only [checkAccept, hacc, if_true, Bool.false_eq_true, if_false, hyes]
      rw [hkeep]
      simp [hacc]
    · simp only [checkAccept, hacc, Bool.false_eq_true, if_false]
      rw [ih b hz hb]
      have hq : isAccept states q = false := by simpa using hacc
      simp only [List.any_cons, hq, Bool.false_or]

theorem finalResult_longest {states : List State} {start : Nat} {text : List Char} {b : Best}
    (h : LongestAccepted states start text b.bestMatchStart b.bestMatchLength) :
    (finalResult b).start = b.bestMatchStart ∧ (finalResult b).length = b.bestMatchLength := by
  rcases h with ⟨h1, h2, _⟩ | ⟨h1, _⟩
  · simp [finalResult, h1, h2]
  · simp [finalResult, h1]

/-- The anchored greedy loop returns the longest accepted beginning of the text. -/
theorem runLoop_anchored_greedy (states : List State) (start : Nat) (rest : List Char) :
    ∀ (pre : List Char) (cur : List (Nat × Nat)) (b : Best), SetOK states start cur pre →
      LongestAccepted states start pre b.bestMatchStart b.bestMatchLength →
      LongestAccepted states start (pre ++ rest)
        (runLoop states start false true rest pre.length cur b).start
        (runLoop states start false true rest pre.length cur b).length := by
  induction rest with
  | nil =>
    intro pre cur b _ hb
    obtain ⟨h1, h2⟩ := finalResult_longest hb
    simp only [runLoop, List.append_nil, h1, h2]
    exact hb
  | cons c cs ih =>
    intro pre cur b hset hb
    have hnext := setOK_step states start true pre.length b c hset
    rw [runLoop]
    split_ifs with hempty
    · obtain ⟨h1, h2⟩ := finalResult_longest hb
      rw [h1, h2]
      refine longestAccepted_dead states start pre c cs _ _ hb (fun m hm => ?_)
      have hin := (hnext.2.2 m).2 hm
      obtain ⟨sp, hmem⟩ := (inSet_iff _ _).1 hin
      have := List.length_pos_of_mem hmem
      omega
    · have hpre : b.bestMatchStart = -1 ∨ b.bestMatchLength < ((pre.length + 1 : Nat) : Int) := by
        rcases hb with ⟨h1, _⟩ | ⟨_, n, h2, _, h4, _⟩
        · exact Or.inl h1
        · right; rw [h2]; omega
      rw [checkAccept_anchored states pre.length _ b hnext.2.1 hpre]
      simp only
      have hlen : (pre ++ [c]).length = pre.length + 1 := by simp
      have happ : pre ++ c :: cs = (pre ++ [c]) ++ cs := by simp
      have key := ih (pre ++ [c]) _
        (if (List.any (epsilonClosure states
            (reinject start false true pre.length b (stepAll states c cur [])))
            (fun e => isAccept states e.1)) = true then
          { b with bestMatchStart := 0, bestMatchLength := ((pre.length + 1 : Nat) : Int) }
        else b) hnext (by
          split_ifs with hany
          · obtain ⟨e, he, hacc⟩ := List.any_eq_true.1 hany
            have hr := (hnext.2.2 e.1).1 ((inSet_iff _ _).2 ⟨e.2, he⟩)
            exact longestAccepted_full states start pre c ⟨e.1, hr, hacc⟩
          · refine longestAccepted_snoc states start pre c _ _ hb ?_
            rintro ⟨f, hf, hacc⟩
            apply hany
            obtain ⟨sp, hmem⟩ := (inSet_iff _ _).1 ((hnext.2.2 f).2 hf)
            exact List.any_eq_true.2 ⟨(f, sp), hmem, hacc⟩)
      rw [hlen] at key
      rw [happ]
      exact key

/-- The anchored greedy run from `start` returns the longest accepted beginning. -/
theorem runNFA_anchored_greedy (nfa : NFA) (start : Nat) (text : List Char) :
    LongestAccepted nfa.states start text (runNFA nfa start text false true).start
      (runNFA nfa start text false true).length := by
  have h := runLoop_anchored_greedy nfa.states start text [] _
    { bestMatchStart := -1, bestMatchLength := 0, firstMatchStart := -1 }
    (setOK_init nfa.states start) (Or.inl ⟨rfl, rfl, fun k h1 h2 => by simp at h2; omega⟩)
  simpa [runNFA] using h

end Pda

namespace Pda

/-! ### Greedy matching: anchored and search mode (C9, C10) -/

/-- C10: anchored greedy simulation is exact. For every well-formed automaton and every
text, `runNFA` with `search = false`, `greedy = true` returns start 0 and length `n`, where
`n` is the largest `n ≥ 1` such that the first `n` characters of the text are accepted, and
returns no match (start -1) when no non-empty beginning of the text is accepted. -/
theorem runNFA_anchored_greedy_exact (nfa : NFA) (_hwf : WellFormed nfa) (text : List Char) :
    (∃ n : Nat, 1 ≤ n ∧ n ≤ text.length ∧
      runNFA nfa 0 text false true = { start := 0, length := (n : Int) } ∧
      Accepts nfa (text.take n) ∧
      ∀ k, n < k → k ≤ text.length → ¬ Accepts nfa (text.take k)) ∨
    (runNFA nfa 0 text false true = { start := -1, length := 0 } ∧
      ∀ k, 1 ≤ k → k ≤ text.length → ¬ Accepts nfa (text.take k)) := by
  have h := runNFA_anchored_greedy nfa 0 text
  generalize runNFA nfa 0 text false true = r at h
  obtain ⟨rs, rl⟩ := r
  rcases h with ⟨h1, h2, h3⟩ | ⟨h1, n, h2, h3, h4, h5, h6⟩
  · simp only at h1 h2
    subst h1; subst h2
    exact Or.inr ⟨rfl, h3⟩
  · simp only at h1 h2
    subst h1; subst h2
    exact Or.inl ⟨n, h3, h4, rfl, h5, h6⟩

/-- The automaton of `a+` on `aab`: the longest accepted beginning is `aa`. -/
theorem runNFA_anchored_greedy_exact_witness :
    WellFormed (plusNFA 'a') ∧
    ((∃ n : Nat, 1 ≤ n ∧ n ≤ ['a', 'a', 'b'].length ∧
      runNFA (plusNFA 'a') 0 ['a', 'a', 'b'] false true = { start := 0, length := (n : Int) } ∧
      Accepts (plusNFA 'a') (['a', 'a', 'b'].take n) ∧
      ∀ k, n < k → k ≤ ['a', 'a', 'b'].length → ¬ Accepts (plusNFA 'a') (['a', 'a', 'b'].take k)) ∨
    (runNFA (plusNFA 'a') 0 ['a', 'a', 'b'] false true = { start := -1, length := 0 } ∧
      ∀ k, 1 ≤ k → k ≤ ['a', 'a', 'b'].length →
        ¬ Accepts (plusNFA 'a') (['a', 'a', 'b'].take k))) :=
  ⟨by simp [WellFormed, plusNFA, newTransition],
   runNFA_anchored_greedy_exact (plusNFA 'a') (by simp [WellFormed, plusNFA, newTransition])
     ['a', 'a', 'b']⟩

end Pda

namespace Pda

/-! ### Literal patterns in search mode (C2) -/

theorem startsWith_iff (p : List Char) :
    ∀ text, startsWith p text = true ↔ ∃ v, text = p ++ v := by
  induction p with
  | nil => intro text; simp [startsWith]
  | cons a p ih =>
    intro text
    cases text with
    | nil => simp [startsWith]
    | cons c text =>
      simp only [startsWith, Bool.and_eq_true, beq_iff_eq, ih, List.cons_append,
        List.cons.injEq]
      constructor
      · rintro ⟨rfl, v, hv⟩
        exact ⟨v, rfl, hv⟩
      · rintro ⟨v, rfl, hv⟩
        exact ⟨rfl, v, hv⟩

/-- The first occurrence, when `p` occurs: the occurrence with the shortest text before. -/
theorem firstOccurrenceFrom_some (p : List Char) :
    ∀ (text : List Char) (i0 : Nat) (u v : List Char), text = u ++ p ++ v →
      (∀ u1 v1, text = u1 ++ p ++ v1 → u.length ≤ u1.length) →
      firstOccurrenceFrom p i0 text = some (i0 + u.length) := by
  intro text
  induction text with
  | nil =>
    intro i0 u v h _
    have hu : u = [] := by
      cases u with
      | nil => rfl
      | cons x u => simp at h
    subst hu
    have hp : p = [] := by
      cases p with
      | nil => rfl
      | cons x p => simp at h
    subst hp
    simp [firstOccurrenceFrom, startsWith]
  | cons c cs ih =>
    intro i0 u v h hmin
    by_cases hs : startsWith p (c :: cs) = true
    · obtain ⟨v1, hv1⟩ := (startsWith_iff p _).1 hs
      have := hmin [] v1 (by simpa using hv1)
      have hu : u = [] := List.length_eq_zero.1 (Nat.le_zero.1 this)
      subst hu
      simp [firstOccurrenceFrom, hs]
    · cases u with
      | nil =>
        exfalso
        apply hs
        exact (startsWith_iff p _).2 ⟨v, by simpa using h⟩
      | cons x u1 =>
        simp only [List.cons_append, List.cons.injEq] at h
        obtain ⟨_, hcs⟩ := h
        have := ih (i0 + 1) u1 v hcs (fun u2 v2 h2 => by
          have := hmin (c :: u2) v2 (by simp [h2])
          simpa using this)
        simp only [firstOccurrenceFrom, hs, Bool.false_eq_true, if_false, this, List.length_cons]
        congr 1
        omega

/-- There is no first occurrence when `p` does not occur. -/
theorem firstOccurrenceFrom_none (p : List Char) :
    ∀ (text : List Char) (i0 : Nat), (∀ u v, text ≠ u ++ p ++ v) →
      firstOccurrenceFrom p i0 text = none := by
  intro text
  induction text with
  | nil =>
    intro i0 h
    have hs : ¬ startsWith p [] = true := by
      intro hs
      obtain ⟨v, hv⟩ := (startsWith_iff p _).1 hs
      exact h [] v (by simpa using hv)
    simp [firstOccurrenceFrom, hs]
  | cons c cs ih =>
    intro i0 h
    have hs : ¬ startsWith p (c :: cs) = true := by
      intro hs
      obtain ⟨v, hv⟩ := (startsWith_iff p _).1 hs
      exact h [] v (by simpa using hv)
    have := ih (i0 + 1) (fun u v huv => h (c :: u) v (by simp [huv]))
    simp [firstOccurrenceFrom, hs, this]

/-! #### Facts about chains -/

theorem isChain_noEps {states : List State} {p : List Char} (h : IsChain states p) :
    ∀ s ∈ states, ∀ t ∈ s.transitions, isEpsilon t = false := by
  intro s hs t ht
  obtain ⟨i, hi⟩ := List.mem_iff_getElem?.1 hs
  have hmem : t ∈ transitionsOf states i := by
    simp only [transitionsOf, hi]
    exact ht
  obtain ⟨c, _, rfl⟩ := isChain_mem h hmem
  simp [isEpsilon, newTransition]

theorem isChain_accept {states : List State} {p : List Char} (h : IsChain states p) (j : Nat) :
    isAccept states j = true ↔ j = p.length := by
  simp [h.2 j]

/-- An entry of the next set of a chain comes from the state before it, on the character
of that state. -/
theorem stepAll_chain_mem {states : List State} {p : List Char} (h : IsChain states p)
    (c : Char) (cur : List (Nat × Nat)) {e : Nat × Nat} (he : e ∈ stepAll states c cur []) :
    ∃ j, e.1 = j + 1 ∧ (j, e.2) ∈ cur ∧ p[j]? = some c := by
  obtain ⟨⟨add, hadd, hprop⟩, _, _⟩ := stepAll_spec states c cur []
  simp only [List.nil_append] at hadd
  rw [hadd] at he
  obtain ⟨q, hq, t, ht, hm, hnext⟩ := hprop e he
  obtain ⟨x, hx, rfl⟩ := isChain_mem h ht
  have hcx : c = x := by simpa [transitionMatches, newTransition] using hm
  subst hcx
  exact ⟨q, by rw [← hnext]; rfl, hq, hx⟩

theorem take_succ_of_getElem? {p : List Char} {j : Nat} {c : Char} (h : p[j]? = some c) :
    p.take (j + 1) = p.take j ++ [c] := by
  rw [List.take_succ, h]
  rfl

end Pda

namespace Pda

/-- One character of the search on a chain, while the start state is re-injected. -/
theorem chainSet_step {states : List State} {p : List Char} (h : IsChain states p)
    {cur : List (Nat × Nat)} {pre : List Char} (hc : ChainSet p cur pre) (c : Char)
    (greedy : Bool) (b : Best) (hb : (!greedy || decide (b.firstMatchStart = -1)) = true) :
    ChainSet p
      (epsilonClosure states (reinject 0 true greedy pre.length b (stepAll states c cur [])))
      (pre ++ [c]) := by
  rw [epsilonClosure_noEps _ (isChain_noEps h)]
  have hzero : inSet (stepAll states c cur []) 0 = false := by
    cases hz : inSet (stepAll states c cur []) 0 with
    | false => rfl
    | true =>
      obtain ⟨sp, hmem⟩ := (inSet_iff _ _).1 hz
      obtain ⟨j, hj, _⟩ := stepAll_chain_mem h c cur hmem
      simp at hj
  have hre : reinject 0 true greedy pre.length b (stepAll states c cur []) =
      stepAll states c cur [] ++ [(0, pre.length + 1)] := by
    simp only [reinject, Bool.true_and, hb, if_true, hzero, Bool.false_eq_true, if_false]
  rw [hre]
  intro j s
  constructor
  · intro hmem
    rcases List.mem_append.1 hmem with hm | hm
    · obtain ⟨j0, hj, hcur, hx⟩ := stepAll_chain_mem h c cur hm
      simp only at hj hcur
      subst hj
      obtain ⟨_, u, hu, hpre⟩ := (hc j0 s).1 hcur
      have hlt : j0 < p.length := by
        by_contra hge
        have : p[j0]? = none := by simp; omega
        simp [this] at hx
      exact ⟨hlt, u, hu, by rw [take_succ_of_getElem? hx, hpre]; simp⟩
    · simp only [List.mem_singleton, Prod.mk.injEq] at hm
      obtain ⟨rfl, rfl⟩ := hm
      exact ⟨Nat.zero_le _, pre ++ [c], by simp, by simp⟩
  · rintro ⟨hj, u, hu, hpre⟩
    cases j with
    | zero =>
      simp only [List.take_zero, List.append_nil] at hpre
      subst hpre
      apply List.mem_append_right
      simp at hu
      simp [hu]
    | succ j0 =>
      have hlt : j0 < p.length := hj
      have hx : p[j0]? = some p[j0] := List.getElem?_eq_getElem hlt
      rw [take_succ_of_getElem? hx, ← List.append_assoc] at hpre
      obtain ⟨h1, h2⟩ := List.append_inj' hpre rfl
      simp only [List.cons.injEq, and_true] at h2
      have hcur : (j0, s) ∈ cur := (hc j0 s).2 ⟨by omega, u, hu, h1⟩
      obtain ⟨_, _, hin⟩ := stepAll_spec states c cur []
      have ht : newTransition [p[j0]] (j0 + 1) ∈ transitionsOf states j0 := by
        rw [isChain_transitions_some h hx]
        simp
      have hin1 := hin j0 s hcur _ ht (by simp [transitionMatches, newTransition, h2])
      obtain ⟨s1, hs1⟩ := (inSet_iff _ _).1 hin1
      obtain ⟨j1, hj1, hcur1, _⟩ := stepAll_chain_mem h c cur hs1
      simp only [newTransition] at hj1 hcur1
      have hj10 : j1 = j0 := by omega
      subst hj10
      obtain ⟨_, u1, hu1, hpre1⟩ := (hc j1 s1).1 hcur1
      have hss : s1 = s := by
        have hl := congrArg List.length (h1.symm.trans hpre1)
        simp only [List.length_append] at hl
        omega
      subst hss
      exact List.mem_append_left _ hs1

/-! #### The accept scan -/

theorem checkAccept_none (states : List State) (search greedy : Bool) (pos : Nat)
    (set : List (Nat × Nat)) (b : Best) (h : ∀ e ∈ set, isAccept states e.1 = false) :
    checkAccept states search greedy pos set b = .inr b := by
  induction set with
  | nil => simp [checkAccept]
  | cons e set ih =>
    obtain ⟨q, sp⟩ := e
    have hq : isAccept states q = false := h (q, sp) (by simp)
    simp only [checkAccept, hq, Bool.false_eq_true, if_false]
    exact ih (fun e he => h e (List.mem_cons_of_mem _ he))

/-- The non-greedy scan returns the first accepting entry. -/
theorem checkAccept_nongreedy (states : List State) (search : Bool) (pos : Nat) (s : Nat)
    (set : List (Nat × Nat)) (b : Best) (e0 : Nat × Nat) (he0 : e0 ∈ set)
    (hacc : isAccept states e0.1 = true)
    (hall : ∀ e ∈ set, isAccept states e.1 = true → e.2 = s) :
    checkAccept states search false pos set b =
      .inl { start := (s : Int), length := ((pos + 1 : Nat) : Int) - (s : Int) } := by
  induction set with
  | nil => simp at he0
  | cons e set ih =>
    obtain ⟨q, sp⟩ := e
    by_cases hq : isAccept states q = true
    · have hsp : sp = s := hall (q, sp) (by simp) hq
      subst hsp
      simp [checkAccept, hq]
    · have hq1 : isAccept states q = false := by simpa using hq
      simp only [checkAccept, hq1, Bool.false_eq_true, if_false]
      rcases List.mem_cons.1 he0 with h | h
      · subst h
        simp [hacc] at hq1
      · exact ih h (fun e he => hall e (List.mem_cons_of_mem _ he))

/-- After the lock, accepts that are not longer than the best match change nothing. -/
theorem checkAccept_search_keep (states : List State) (pos : Nat) (set : List (Nat × Nat))
    (b : Best) (hb : b.firstMatchStart ≠ -1)
    (hall : ∀ e ∈ set, isAccept states e.1 = true →
      ((pos + 1 : Nat) : Int) - (e.2 : Int) ≤ b.bestMatchLength) :
    checkAccept states true true pos set b = .inr b := by
  induction set with
  | nil => simp [checkAccept]
  | cons e set ih =>
    obtain ⟨q, sp⟩ := e
    have hrest := ih (fun e he => hall e (List.mem_cons_of_mem _ he))
    by_cases hq : isAccept states q = true
    · have hle := hall (q, sp) (by simp) hq
      have hnot : ¬ (((pos + 1 : Nat) : Int) - (sp : Int) > b.bestMatchLength) := by
        simp only at hle
        omega
      simp only [checkAccept, hq, if_true, hb, if_false, hnot]
      split_ifs <;> exact hrest
    · have hq1 : isAccept states q = false := by simpa using hq
      simp only [checkAccept, hq1, Bool.false_eq_true, if_false]
      exact hrest

/-- The first accept of the greedy search locks its start. -/
theorem checkAccept_search_lock (states : List State) (pos : Nat) (s : Nat)
    (set : List (Nat × Nat)) (b : Best) (hb : b.firstMatchStart = -1) (e0 : Nat × Nat)
    (he0 : e0 ∈ set) (hacc : isAccept states e0.1 = true)
    (hall : ∀ e ∈ set, isAccept states e.1 = true → e.2 = s) :
    checkAccept states true true pos set b =
      .inr { bestMatchStart := (s : Int),
             bestMatchLength := ((pos + 1 : Nat) : Int) - (s : Int),
             firstMatchStart := (s : Int) } := by
  induction set with
  | nil => simp at he0
  | cons e set ih =>
    obtain ⟨q, sp⟩ := e
    by_cases hq : isAccept states q = true
    · have hsp : sp = s := hall (q, sp) (by simp) hq
      subst hsp
      simp only [checkAccept, hq, if_true, hb]
      apply checkAccept_search_keep
      · simp only
        omega
      · intro e he hae
        have := hall e (List.mem_cons_of_mem _ he) hae
        simp only [this]
        omega
    · have hq1 : isAccept states q = false := by simpa using hq
      simp only [checkAccept, hq1, Bool.false_eq_true, if_false]
      rcases List.mem_cons.1 he0 with h | h
      · subst h
        simp [hacc] at hq1
      · exact ih h (fun e he => hall e (List.mem_cons_of_mem _ he))

end Pda

namespace Pda

/-- The greedy search loop on a chain after the lock: the best match stays as it is. -/
theorem runLoop_chain_locked {states : List State} {p : List Char} (h : IsChain states p)
    (s0 : Nat) (rest : List Char) :
    ∀ (pos : Nat) (cur : List (Nat × Nat)), (∀ e ∈ cur, e.2 + e.1 = pos) →
      runLoop states 0 true true rest pos cur
          { bestMatchStart := (s0 : Int), bestMatchLength := (p.length : Int),
            firstMatchStart := (s0 : Int) } =
        { start := (s0 : Int), length := (p.length : Int) } := by
  have hs0 : (s0 : Int) ≠ -1 := by omega
  induction rest with
  | nil =>
    intro pos cur _
    simp [runLoop, finalResult, hs0]
  | cons c cs ih =>
    intro pos cur hcur
    have hnext : epsilonClosure states (reinject 0 true true pos
        { bestMatchStart := (s0 : Int), bestMatchLength := (p.length : Int),
          firstMatchStart := (s0 : Int) } (stepAll states c cur [])) =
        stepAll states c cur [] := by
      rw [epsilonClosure_noEps _ (isChain_noEps h)]
      simp [reinject, hs0]
    have hsum : ∀ e ∈ stepAll states c cur [], e.2 + e.1 = pos + 1 := by
      intro e he
      obtain ⟨j, hj, hmem, _⟩ := stepAll_chain_mem h c cur he
      have := hcur _ hmem
      simp only at this
      omega
    rw [runLoop]
    simp only [hnext]
    split_ifs with hempty
    · simp [finalResult, hs0]
    · rw [checkAccept_search_keep states pos _ _ hs0 (by
        intro e he hacc
        have h1 := (isChain_accept h e.1).1 hacc
        have h2 := hsum e he
        simp only
        omega)]
      exact ih (pos + 1) _ hsum

/-- The search loop on the chain of `p`, before `p` has occurred: it returns
the first occurrence of `p`, or no match. -/
theorem runLoop_chain_search {states : List State} {p : List Char} (h : IsChain states p)
    (greedy : Bool) (rest : List Char) :
    ∀ (pre : List Char) (cur : List (Nat × Nat)), ChainSet p cur pre →
      (∀ u v, pre ≠ u ++ p ++ v) →
      (∃ u v, pre ++ rest = u ++ p ++ v ∧
        (∀ u1 v1, pre ++ rest = u1 ++ p ++ v1 → u.length ≤ u1.length) ∧
        runLoop states 0 true greedy rest pre.length cur
            { bestMatchStart := -1, bestMatchLength := 0, firstMatchStart := -1 } =
          { start := (u.length : Int), length := (p.length : Int) }) ∨
      ((∀ u v, pre ++ rest ≠ u ++ p ++ v) ∧
        runLoop states 0 true greedy rest pre.length cur
            { bestMatchStart := -1, bestMatchLength := 0, firstMatchStart := -1 } =
          { start := -1, length := 0 }) := by
  induction rest with
  | nil =>
    intro pre cur _ hno
    exact Or.inr ⟨by simpa using hno, by simp [runLoop, finalResult]⟩
  | cons c cs ih =>
    intro pre cur hcur hno
    have hnxt := chainSet_step h hcur c greedy
      { bestMatchStart := -1, bestMatchLength := 0, firstMatchStart := -1 } (by simp)
    have hne : ¬ (epsilonClosure states (reinject 0 true greedy pre.length
        { bestMatchStart := -1, bestMatchLength := 0, firstMatchStart := -1 }
        (stepAll states c cur []))).length = 0 := by
      have hmem := (hnxt 0 (pre.length + 1)).2 ⟨Nat.zero_le _, pre ++ [c], by simp, by simp⟩
      have := List.length_pos_of_mem hmem
      omega
    have hsum : ∀ e ∈ epsilonClosure states (reinject 0 true greedy pre.length
        { bestMatchStart := -1, bestMatchLength := 0, firstMatchStart := -1 }
        (stepAll states c cur [])), e.2 + e.1 = pre.length + 1 := by
      intro e he
      obtain ⟨hj, u, hu, hpre⟩ := (hnxt e.1 e.2).1 he
      have hl := congrArg List.length hpre
      simp only [List.length_append, List.length_singleton, List.length_take] at hl
      omega
    rw [runLoop]
    simp only [hne, if_false]
    by_cases hsuf : ∃ u, pre ++ [c] = u ++ p
    · obtain ⟨u, hu⟩ := hsuf
      have hlen : pre.length + 1 = u.length + p.length := by
        have := congrArg List.length hu
        simpa using this
      have hmem := (hnxt p.length u.length).2 ⟨le_rfl, u, rfl, by simpa using hu⟩
      have hall : ∀ e ∈ epsilonClosure states (reinject 0 true greedy pre.length
          { bestMatchStart := -1, bestMatchLength := 0, firstMatchStart := -1 }
          (stepAll states c cur [])), isAccept states e.1 = true → e.2 = u.length := by
        intro e he hacc
        have h1 := (isChain_accept h e.1).1 hacc
        have h2 := hsum e he
        omega
      have hmatch : ((pre.length + 1 : Nat) : Int) - (u.length : Int) = (p.length : Int) := by
        omega
      left
      refine ⟨u, cs, ?_, ?_, ?_⟩
      · have : pre ++ c :: cs = (pre ++ [c]) ++ cs := by simp
        rw [this, hu]
      · intro u1 v1 h1
        by_contra hlt
        push_neg at hlt
        have hle : (u1 ++ p).length ≤ pre.length := by
          simp only [List.length_append]
          omega
        rw [List.append_assoc u1 p v1, ← List.append_assoc] at h1
        rcases List.append_eq_append_iff.1 h1 with ⟨a, ha, _⟩ | ⟨a, ha, _⟩
        · have hl := congrArg List.length ha
          simp only [List.length_append] at hl hle
          have ha0 : a = [] := List.length_eq_zero.1 (by omega)
          subst ha0
          exact hno u1 [] (by simpa using ha.symm)
        · exact hno u1 a (by simpa using ha)
      · cases greedy with
        | false =>
          rw [checkAccept_nongreedy states true pre.length u.length _ _ _ hmem
            ((isChain_accept h _).2 rfl) hall]
          simp only [hmatch]
        | true =>
          rw [checkAccept_search_lock states pre.length u.length _ _ rfl _ hmem
            ((isChain_accept h _).2 rfl) hall]
          simp only [hmatch]
          exact runLoop_chain_locked h u.length cs (pre.length + 1) _ hsum
    · have hnone : ∀ e ∈ epsilonClosure states (reinject 0 true greedy pre.length
          { bestMatchStart := -1, bestMatchLength := 0, firstMatchStart := -1 }
          (stepAll states c cur [])), isAccept states e.1 = false := by
        intro e he
        cases hacc : isAccept states e.1 with
        | false => rfl
        | true =>
          exfalso
          have h1 := (isChain_accept h e.1).1 hacc
          obtain ⟨_, u, _, hpre⟩ := (hnxt e.1 e.2).1 he
          rw [h1, List.take_length] at hpre
          exact hsuf ⟨u, hpre⟩
      rw [checkAccept_none states true greedy pre.length _ _ hnone]
      have hno1 : ∀ u v, pre ++ [c] ≠ u ++ p ++ v := by
        intro u v huv
        rcases List.eq_nil_or_concat v with hv | ⟨v1, x, hv⟩
        · subst hv
          exact hsuf ⟨u, by simpa using huv⟩
        · subst hv
          rw [List.concat_eq_append, ← List.append_assoc] at huv
          obtain ⟨h1, _⟩ := List.append_inj' huv rfl
          exact hno u v1 h1
      have hlen : (pre ++ [c]).length = pre.length + 1 := by simp
      have happ : pre ++ c :: cs = (pre ++ [c]) ++ cs := by simp
      have key := ih (pre ++ [c]) _ hnxt hno1
      rw [hlen] at key
      rw [happ]
      exact key

theorem chainSet_init (p : List Char) : ChainSet p [(0, 0)] [] := by
  intro j s
  simp only [List.mem_singleton, Prod.mk.injEq]
  constructor
  · rintro ⟨rfl, rfl⟩
    exact ⟨Nat.zero_le _, [], rfl, by simp⟩
  · rintro ⟨_, u, hu, hpre⟩
    have hl := congrArg List.length hpre
    simp only [List.length_nil, List.length_append, List.length_take] at hl
    have h1 : u.length = 0 := by omega
    have h2 : min j p.length = 0 := by omega
    refine ⟨?_, by omega⟩
    rcases Nat.min_eq_zero_iff.1 h2 with h3 | h3
    · exact h3
    · have hu0 : u = [] := List.length_eq_zero.1 h1
      subst hu0
      cases j with
      | zero => rfl
      | succ j =>
        exfalso
        have hp0 : p = [] := List.length_eq_zero.1 h3
        subst hp0
        omega

theorem unescapedDotOrParen_literal : ∀ p : List Char, (∀ c ∈ p, isMeta c = false) →
    unescapedDotOrParen p = false
  | [], _ => by simp [unescapedDotOrParen]
  | [c], h => by
    obtain ⟨h1, _, _, _, h5, h6, _⟩ := isMeta_false (h c (by simp))
    simp [unescapedDotOrParen, h1, h5, h6]
  | c :: d :: rest, h => by
    obtain ⟨h1, _, _, _, h5, h6, h7⟩ := isMeta_false (h c (by simp))
    have ih := unescapedDotOrParen_literal (d :: rest)
      (fun x hx => h x (List.mem_cons_of_mem _ hx))
    simp [unescapedDotOrParen, h1, h5, h6, h7, ih]

theorem trailingBackslash_literal : ∀ p : List Char, (∀ c ∈ p, isMeta c = false) →
    trailingBackslash p = false
  | [], _ => by simp [trailingBackslash]
  | [c], h => by
    obtain ⟨_, _, _, _, _, _, h7⟩ := isMeta_false (h c (by simp))
    simp [trailingBackslash, h7]
  | c :: d :: rest, h => by
    obtain ⟨_, _, _, _, _, _, h7⟩ := isMeta_false (h c (by simp))
    have ih := trailingBackslash_literal (d :: rest)
      (fun x hx => h x (List.mem_cons_of_mem _ hx))
    simp [trailingBackslash, h7, ih]

theorem decode_literal : ∀ p : List Char, (∀ c ∈ p, isMeta c = false) → decode p = p
  | [], _ => by simp [decode]
  | [c], _ => by simp [decode]
  | c :: d :: rest, h => by
    obtain ⟨_, _, _, _, _, _, h7⟩ := isMeta_false (h c (by simp))
    have ih := decode_literal (d :: rest) (fun x hx => h x (List.mem_cons_of_mem _ hx))
    simp [decode, h7, ih]

theorem isQuantifier_literal {c : Char} (h : isMeta c = false) : isQuantifier c = false := by
  obtain ⟨_, h2, h3, h4, _⟩ := isMeta_false h
  simp [isQuantifier, h2, h3, h4]

/-- Search for a short literal pattern. For every non-empty pattern `p` of at most 15
literal characters (none of `. ? * + ( ) \`), for which the state array is never grown, and
every text, `runNFA` on `constructNFA(p)` in search mode, greedy or not, returns the index
of the first occurrence of `p` in the text as start and the length of `p` as length, and
returns no match (start -1) when `p` does not occur in the text. -/
theorem runNFA_literal_search (p : List Char) (hp : p ≠ []) (hlit : ∀ c ∈ p, isMeta c = false)
    (hlen : p.length ≤ 15) (text : List Char) (greedy : Bool) :
    ∃ nfa, constructNFA p = .ok nfa ∧
      runNFA nfa 0 text true greedy =
        match firstOccurrence p text with
        | some i => { start := (i : Int), length := (p.length : Int) }
        | none => { start := -1, length := 0 } := by
  obtain ⟨nfa, hnfa, hchain, _⟩ := constructNFA_plain p
    (fun c hc => isQuantifier_literal (hlit c hc)) (unescapedDotOrParen_literal p hlit)
    (trailingBackslash_literal p hlit) (by rw [decode_literal p hlit]; exact hlen)
  rw [decode_literal p hlit] at hchain
  refine ⟨nfa, hnfa, ?_⟩
  have hinit : epsilonClosure nfa.states [(0, 0)] = [(0, 0)] :=
    epsilonClosure_noEps _ (isChain_noEps hchain) _
  have hno : ∀ u v : List Char, ([] : List Char) ≠ u ++ p ++ v := by
    intro u v huv
    have hl := congrArg List.length huv
    simp only [List.length_nil, List.length_append] at hl
    exact hp (List.length_eq_zero.1 (by omega))
  rw [runNFA, hinit]
  rcases runLoop_chain_search hchain greedy text [] [(0, 0)] (chainSet_init p) hno with
    ⟨u, v, h1, h2, h3⟩ | ⟨h1, h3⟩
  · simp only [List.nil_append, List.length_nil] at h1 h2 h3
    rw [h3, firstOccurrence, firstOccurrenceFrom_some p text 0 u v h1 h2]
    simp
  · simp only [List.nil_append, List.length_nil] at h1 h3
    rw [h3, firstOccurrence, firstOccurrenceFrom_none p text 0 h1]

/-- The pattern `abc` over `xxabcxx` gives start 2, length 3. -/
theorem runNFA_literal_search_witness :
    ∃ nfa, constructNFA ['a', 'b', 'c'] = .ok nfa ∧
      runNFA nfa 0 ['x', 'x', 'a', 'b', 'c', 'x', 'x'] true false =
        { start := 2, length := 3 } :=
  runNFA_literal_search ['a', 'b', 'c'] (by decide) (by decide) (by decide)
    ['x', 'x', 'a', 'b', 'c', 'x', 'x'] false

end Pda

namespace Pda

/-! ### Wildcard and optional atom (C15, C16) -/

theorem constructNFA_wild (a c : Char) (ha : isMeta a = false) (hc : isMeta c = false) :
    constructNFA [a, '.', c] = .ok (wildNFA a c) := by
  have hab := (isMeta_false ha).2.2.2.2.2.2
  have hcb := (isMeta_false hc).2.2.2.2.2.2
  have h1 := @switchCase_of_not_meta ' ' a Compiler.init ha
  have h2 : switchCase a '.' (literalCase a Compiler.init) =
      .ok (wildcardCase (literalCase a Compiler.init)) := by
    simp [switchCase]
  have h3 := @switchCase_of_not_meta '.' c (wildcardCase (literalCase a Compiler.init)) hc
  rw [constructNFA, scan_cons_ok _ hab h1, scan_cons_ok _ (by decide) h2,
    scan_cons_ok _ hcb h3, scan_nil]
  simp [finish, relabel, toIndex, growIfFull, wildNFA, literalCase, wildcardCase, Compiler.init,
    setState, addTransitionAt, addTransition, newState, newTransition, newWildcardTransition]

theorem constructNFA_opt (a b c : Char) (ha : isMeta a = false) (hb : isMeta b = false)
    (hc : isMeta c = false) : constructNFA [a, b, '?', c] = .ok (optNFA a b c) := by
  have hab := (isMeta_false ha).2.2.2.2.2.2
  have hbb := (isMeta_false hb).2.2.2.2.2.2
  have hcb := (isMeta_false hc).2.2.2.2.2.2
  have h1 := @switchCase_of_not_meta ' ' a Compiler.init ha
  have h2 := @switchCase_of_not_meta a b (literalCase a Compiler.init) hb
  have h3 : switchCase b '?' (literalCase b (literalCase a Compiler.init)) =
      .ok { states := [{ transitions := [newTransition [a] 1], accept := false },
                       { transitions := [newTransition [b] 2, newTransition [] 2],
                         accept := false },
                       newState false],
            numStates := 3, maxStates := 16, base := 0, groupStack := [], lastWasGroup := false,
            lastCharWasOperator := true } := by
    simp [switchCase, questionCase, literalCase, growIfFull, Compiler.init, setState,
      addTransitionAt, addTransition, newState, newTransition]
  have h4 := @switchCase_of_not_meta '?' c
    { states := [{ transitions := [newTransition [a] 1], accept := false },
                 { transitions := [newTransition [b] 2, newTransition [] 2], accept := false },
                 newState false],
      numStates := 3, maxStates := 16, base := 0, groupStack := [], lastWasGroup := false,
      lastCharWasOperator := true } hc
  rw [constructNFA, scan_cons_ok _ hab h1, scan_cons_ok _ hbb h2,
    scan_cons_ok _ (by decide) h3, scan_cons_ok _ hcb h4, scan_nil]
  simp [finish, relabel, toIndex, growIfFull, optNFA, literalCase, setState, addTransitionAt,
    addTransition, newState, newTransition]

/-! #### One iteration of the character loop -/

theorem runLoop_cons_inr {states : List State} {start : Nat} {search greedy : Bool} {c : Char}
    {pos : Nat} {cur next : List (Nat × Nat)} {b b1 : Best} (cs : List Char)
    (hnext : epsilonClosure states (reinject start search greedy pos b
      (stepAll states c cur [])) = next)
    (hne : next ≠ []) (hacc : checkAccept states search greedy pos next b = .inr b1) :
    runLoop states start search greedy (c :: cs) pos cur b =
      runLoop states start search greedy cs (pos + 1) next b1 := by
  have hlen : ¬ next.length = 0 := fun h => hne (List.length_eq_zero.1 h)
  rw [runLoop]
  simp only [hnext, hlen, if_false, hacc]

theorem runLoop_cons_inl {states : List State} {start : Nat} {search greedy : Bool} {c : Char}
    {pos : Nat} {cur next : List (Nat × Nat)} {b : Best} {r : MatchResult} (cs : List Char)
    (hnext : epsilonClosure states (reinject start search greedy pos b
      (stepAll states c cur [])) = next)
    (hne : next ≠ []) (hacc : checkAccept states search greedy pos next b = .inl r) :
    runLoop states start search greedy (c :: cs) pos cur b = r := by
  have hlen : ¬ next.length = 0 := fun h => hne (List.length_eq_zero.1 h)
  rw [runLoop]
  simp only [hnext, hlen, if_false, hacc]

theorem runLoop_cons_empty {states : List State} {start : Nat} {search greedy : Bool}
    {c : Char} {pos : Nat} {cur : List (Nat × Nat)} {b : Best} (cs : List Char)
    (hnext : epsilonClosure states (reinject start search greedy pos b
      (stepAll states c cur [])) = []) :
    runLoop states start search greedy (c :: cs) pos cur b = finalResult b := by
  rw [runLoop]
  simp only [hnext, List.length_nil, if_true]

theorem runLoop_nil (states : List State) (start : Nat) (search greedy : Bool) (pos : Nat)
    (cur : List (Nat × Nat)) (b : Best) :
    runLoop states start search greedy [] pos cur b = finalResult b := by
  simp [runLoop]

theorem reinject_anchored (start : Nat) (greedy : Bool) (pos : Nat) (b : Best)
    (next : List (Nat × Nat)) : reinject start false greedy pos b next = next := by
  simp [reinject]

/-- C15: the wildcard consumes exactly one character. For all literal characters `a`, `c`
and every character `x`, anchored non-greedy `runNFA` of `constructNFA("a.c")` on the text
`a x c` returns start 0, length 3, and on the two-character text `a c` returns no match. -/
theorem runNFA_wildcard_one_char (a c : Char) (ha : isMeta a = false) (hc : isMeta c = false)
    (x : Char) :
    ∃ nfa, constructNFA [a, '.', c] = .ok nfa ∧
      runNFA nfa 0 [a, x, c] false false = { start := 0, length := 3 } ∧
      runNFA nfa 0 [a, c] false false = { start := -1, length := 0 } := by
  have hno : ∀ set, epsilonClosure (wildNFA a c).states set = set :=
    epsilonClosure_noEps _ (by simp [wildNFA, isEpsilon, newTransition, newWildcardTransition])
  have s0 : stepAll (wildNFA a c).states a [(0, 0)] [] = [(1, 0)] := by
    simp [stepAll, stepState, transitionsOf, wildNFA, transitionMatches, newTransition, inSet]
  have s1 : ∀ y, stepAll (wildNFA a c).states y [(1, 0)] [] = [(2, 0)] := by
    intro y
    simp [stepAll, stepState, transitionsOf, wildNFA, transitionMatches,
      newWildcardTransition, inSet]
  have s2 : stepAll (wildNFA a c).states c [(2, 0)] [] = [(3, 0)] := by
    simp [stepAll, stepState, transitionsOf, wildNFA, transitionMatches, newTransition, inSet]
  have a1 : ∀ pos b, checkAccept (wildNFA a c).states false false pos [(1, 0)] b = .inr b := by
    intro pos b; simp [checkAccept, isAccept, wildNFA]
  have a2 : ∀ pos b, checkAccept (wildNFA a c).states false false pos [(2, 0)] b = .inr b := by
    intro pos b; simp [checkAccept, isAccept, wildNFA]
  have a3 : ∀ b, checkAccept (wildNFA a c).states false false 2 [(3, 0)] b =
      .inl { start := 0, length := 3 } := by
    intro b; simp [checkAccept, isAccept, wildNFA]
  refine ⟨wildNFA a c, constructNFA_wild a c ha hc, ?_, ?_⟩
  · rw [runNFA, hno,
      runLoop_cons_inr _ (by rw [hno, reinject_anchored, s0]) (by simp) (a1 _ _),
      runLoop_cons_inr _ (by rw [hno, reinject_anchored, s1]) (by simp) (a2 _ _),
      runLoop_cons_inl _ (by rw [hno, reinject_anchored, s2]) (by simp) (a3 _)]
  · rw [runNFA, hno,
      runLoop_cons_inr _ (by rw [hno, reinject_anchored, s0]) (by simp) (a1 _ _),
      runLoop_cons_inr _ (by rw [hno, reinject_anchored, s1]) (by simp) (a2 _ _),
      runLoop_nil]
    simp [finalResult]

/-- The pattern `a.c` on `aXc` and on `ac`. -/
theorem runNFA_wildcard_one_char_witness :
    ∃ nfa, constructNFA ['a', '.', 'c'] = .ok nfa ∧
      runNFA nfa 0 ['a', 'X', 'c'] false false = { start := 0, length := 3 } ∧
      runNFA nfa 0 ['a', 'c'] false false = { start := -1, length := 0 } :=
  runNFA_wildcard_one_char 'a' 'c' (by decide) (by decide) 'X'

theorem optNFA_closure (a b c : Char) :
    epsilonClosure (optNFA a b c).states [(0, 0)] = [(0, 0)] ∧
    epsilonClosure (optNFA a b c).states [(1, 0)] = [(1, 0), (2, 0)] ∧
    epsilonClosure (optNFA a b c).states [(2, 0)] = [(2, 0)] ∧
    epsilonClosure (optNFA a b c).states [(3, 0)] = [(3, 0)] := by
  refine ⟨?_, ?_, ?_, ?_⟩ <;>
  simp [epsilonClosure, closureLoop, closeState, allTargets, transitionsOf, optNFA, isEpsilon,
    inSet, newTransition]

/-- C16: optional atom. For all pairwise distinct literal characters `a`, `b`, `c`, anchored
non-greedy `runNFA` of `constructNFA("ab?c")` returns start 0, length 2 on the text `ac` and
start 0, length 3 on the text `abc`. -/
theorem runNFA_optional_atom (a b c : Char) (ha : isMeta a = false) (hb : isMeta b = false)
    (hc : isMeta c = false) (_hab : a ≠ b) (_hac : a ≠ c) (hbc : b ≠ c) :
    ∃ nfa, constructNFA [a, b, '?', c] = .ok nfa ∧
      runNFA nfa 0 [a, c] false false = { start := 0, length := 2 } ∧
      runNFA nfa 0 [a, b, c] false false = { start := 0, length := 3 } := by
  obtain ⟨h0, h1, h2, h3⟩ := optNFA_closure a b c
  have hcb : c ≠ b := fun h => hbc h.symm
  have s0 : stepAll (optNFA a b c).states a [(0, 0)] [] = [(1, 0)] := by
    simp [stepAll, stepState, transitionsOf, optNFA, transitionMatches, newTransition, inSet]
  have s1c : stepAll (optNFA a b c).states c [(1, 0), (2, 0)] [] = [(3, 0)] := by
    simp [stepAll, stepState, transitionsOf, optNFA, transitionMatches, newTransition, inSet,
      hcb]
  have s1b : stepAll (optNFA a b c).states b [(1, 0), (2, 0)] [] = [(2, 0)] := by
    simp [stepAll, stepState, transitionsOf, optNFA, transitionMatches, newTransition, inSet,
      hbc]
  have s2c : stepAll (optNFA a b c).states c [(2, 0)] [] = [(3, 0)] := by
    simp [stepAll, stepState, transitionsOf, optNFA, transitionMatches, newTransition, inSet]
  have a1 : ∀ pos bb, checkAccept (optNFA a b c).states false false pos [(1, 0), (2, 0)] bb =
      .inr bb := by
    intro pos bb; simp [checkAccept, isAccept, optNFA]
  have a2 : ∀ pos bb, checkAccept (optNFA a b c).states false false pos [(2, 0)] bb = .inr bb := by
    intro pos bb; simp [checkAccept, isAccept, optNFA]
  have a3 : ∀ bb, checkAccept (optNFA a b c).states false false 1 [(3, 0)] bb =
      .inl { start := 0, length := 2 } := by
    intro bb; simp [checkAccept, isAccept, optNFA]
  have a4 : ∀ bb, checkAccept (optNFA a b c).states false false 2 [(3, 0)] bb =
      .inl { start := 0, length := 3 } := by
    intro bb; simp [checkAccept, isAccept, optNFA]
  refine ⟨optNFA a b c, constructNFA_opt a b c ha hb hc, ?_, ?_⟩
  · rw [runNFA, h0,
      runLoop_cons_inr _ (by rw [reinject_anchored, s0, h1]) (by simp) (a1 _ _),
      runLoop_cons_inl _ (by rw [reinject_anchored, s1c, h3]) (by simp) (a3 _)]
  · rw [runNFA, h0,
      runLoop_cons_inr _ (by rw [reinject_anchored, s0, h1]) (by simp) (a1 _ _),
      runLoop_cons_inr _ (by rw [reinject_anchored, s1b, h2]) (by simp) (a2 _ _),
      runLoop_cons_inl _ (by rw [reinject_anchored, s2c, h3]) (by simp) (a4 _)]

/-- The pattern `ab?c` on `ac` and on `abc`. -/
theorem runNFA_optional_atom_witness :
    ∃ nfa, constructNFA ['a', 'b', '?', 'c'] = .ok nfa ∧
      runNFA nfa 0 ['a', 'c'] false false = { start := 0, length := 2 } ∧
      runNFA nfa 0 ['a', 'b', 'c'] false false = { start := 0, length := 3 } :=
  runNFA_optional_atom 'a' 'b' 'c' (by decide) (by decide) (by decide) (by decide) (by decide)
    (by decide)

end Pda

namespace Pda

/-! ### Defects of the quantifier cases (C12, C13, C14) -/

/-- C12 fails on the code. In `(a(b)c)+` the `)` of the inner group pops nothing, so at the
`+` the top of the group stack is the anchor 1 pushed at the inner `(`, not the anchor 0
pushed at the `(` that matches the last `)`. The loop-back copies the transitions of state 1:
the accepting state 3 is left on `b` to state 2, and not on `a` to state 1. Anchored greedy
`runNFA` on `abcabc` returns start 0, length 3, and `abcabc` is not accepted while `abcbc`
is. -/
theorem constructNFA_nested_group_anchor :
    (∃ st, scan ' ' ['(', 'a', '(', 'b', ')', 'c', ')'] Compiler.init = .ok st ∧
      st.groupStack = [1, 0] ∧ st.numStates = 4) ∧
    ∃ nfa, constructNFA ['(', 'a', '(', 'b', ')', 'c', ')', '+'] = .ok nfa ∧
      transitionsOf nfa.states 3 = [newTransition ['b'] 2] ∧
      runNFA nfa 0 ['a', 'b', 'c', 'a', 'b', 'c'] false true = { start := 0, length := 3 } ∧
      runNFA nfa 0 ['a', 'b', 'c', 'b', 'c'] false true = { start := 0, length := 5 } :=
  ⟨⟨_, rfl, rfl, rfl⟩, _, rfl, rfl, by decide, by decide⟩

/-- C13 fails on the code. For `a*b*` each single-atom `*` turns the transition of its atom
into a loop on state 0 and drops the state after it: the automaton has the single state 0
with loops on `a` and on `b`, and anchored greedy `runNFA` matches the text `ba` in full. -/
theorem constructNFA_star_star_merges :
    ∃ nfa, constructNFA ['a', '*', 'b', '*'] = .ok nfa ∧
      nfa = { states := [{ transitions := [newTransition ['a'] 0, newTransition ['b'] 0],
                           accept := true }],
              numStates := 1 } ∧
      runNFA nfa 0 ['b', 'a'] false true = { start := 0, length := 2 } :=
  ⟨_, rfl, rfl, by decide⟩

/-- C14 fails on the code. The patterns `a*b*` and `(ab)?c` compile, but `(a*)+`, in which the
`+` follows a `)` that closes a non-empty group, fails `assert(numStates > 1)`: the single-atom
`*` has dropped the only state after state 0. In `x(a*)+` the same drop makes the anchor of
the group its last state, and the loop-back loop never ends. -/
theorem constructNFA_group_after_star_fails :
    balanced ['(', 'a', '*', ')', '+'] = true ∧
    (∃ nfa, constructNFA ['a', '*', 'b', '*'] = .ok nfa) ∧
    (∃ nfa, constructNFA ['(', 'a', 'b', ')', '?', 'c'] = .ok nfa) ∧
    constructNFA ['(', 'a', '*', ')', '+'] = .error .assertNumStates ∧
    constructNFA ['x', '(', 'a', '*', ')', '+'] = .error .copyLoopDiverges :=
  ⟨by decide, ⟨_, rfl⟩, ⟨_, rfl⟩, rfl, rfl⟩

end Pda

namespace Pda

/-! ### The accepting state (C17) -/

theorem setState_length (states : List State) (idx : Nat) (s : State) :
    states.length ≤ (setState states idx s).length := by
  unfold setState
  split_ifs <;> simp

theorem setState_accept {states : List State} (idx : Nat)
    (h : ∀ s ∈ states, s.accept = false) :
    ∀ s ∈ setState states idx (newState false), s.accept = false := by
  intro s hs
  unfold setState at hs
  split_ifs at hs
  · rcases List.mem_or_eq_of_mem_set hs with h1 | h1
    · exact h s h1
    · subst h1; rfl
  · rcases List.mem_append.1 hs with h1 | h1
    · exact h s h1
    · simp only [List.mem_singleton] at h1
      subst h1; rfl

theorem addTransitionAt_length (states : List State) (idx : Nat) (tr : Transition) :
    (addTransitionAt states idx tr).length = states.length := by
  unfold addTransitionAt
  split <;> simp

theorem addTransitionAt_accept {states : List State} (idx : Nat) (tr : Transition)
    (h : ∀ s ∈ states, s.accept = false) :
    ∀ s ∈ addTransitionAt states idx tr, s.accept = false := by
  intro s hs
  unfold addTransitionAt at hs
  split at hs
  · next st hst =>
    rcases List.mem_or_eq_of_mem_set hs with h1 | h1
    · exact h s h1
    · subst h1
      exact h st (List.getElem?_mem hst)
  · exact h s hs

theorem copyLoop_inv {states states1 : List State} {groupStart groupEnd : Nat}
    (h : copyLoop states groupStart groupEnd = .ok states1)
    (hacc : ∀ s ∈ states, s.accept = false) :
    states1.length = states.length ∧ ∀ s ∈ states1, s.accept = false := by
  unfold copyLoop at h
  split_ifs at h
  have key : ∀ (ts : List Transition) (acc : List State),
      (∀ s ∈ acc, s.accept = false) →
      (ts.foldl (fun acc t => addTransitionAt acc groupEnd (copyTransition t)) acc).length =
          acc.length ∧
        ∀ s ∈ ts.foldl (fun acc t => addTransitionAt acc groupEnd (copyTransition t)) acc,
          s.accept = false := by
    intro ts
    induction ts with
    | nil => intro acc hacc1; exact ⟨rfl, hacc1⟩
    | cons t ts ih =>
      intro acc hacc1
      obtain ⟨h1, h2⟩ := ih (addTransitionAt acc groupEnd (copyTransition t))
        (addTransitionAt_accept _ _ hacc1)
      exact ⟨by simpa [addTransitionAt_length] using h1, h2⟩
  cases h
  exact key _ _ hacc

theorem literalCase_inv (c : Char) {st : Compiler} (h : CompilerInv st) :
    CompilerInv (literalCase c st) := by
  obtain ⟨h1, h2, h3⟩ := h
  refine ⟨by simp [literalCase], ?_, ?_⟩
  · simp only [literalCase, addTransitionAt_length]
    unfold setState
    split_ifs with hlt
    · simp; omega
    · simp; omega
  · exact addTransitionAt_accept _ _ (setState_accept _ h3)

theorem wildcardCase_inv {st : Compiler} (h : CompilerInv st) :
    CompilerInv (wildcardCase st) := by
  obtain ⟨h1, h2, h3⟩ := h
  refine ⟨by simp [wildcardCase], ?_, ?_⟩
  · simp only [wildcardCase, addTransitionAt_length]
    unfold setState
    split_ifs with hlt
    · simp; omega
    · simp; omega
  · exact addTransitionAt_accept _ _ (setState_accept _ h3)

theorem questionCase_inv {st st1 : Compiler} (h : CompilerInv st)
    (hq : questionCase st = .ok st1) : CompilerInv st1 := by
  obtain ⟨h1, h2, h3⟩ := h
  unfold questionCase at hq
  split_ifs at hq
  · split at hq
    · cases hq
    · cases hq
      exact ⟨h1, by simpa [addTransitionAt_length] using h2, addTransitionAt_accept _ _ h3⟩
  · cases hq
    exact ⟨h1, by simpa [addTransitionAt_length] using h2, addTransitionAt_accept _ _ h3⟩

theorem starCase_inv {st st1 : Compiler} (h : CompilerInv st)
    (hq : starCase st = .ok st1) : CompilerInv st1 := by
  obtain ⟨h1, h2, h3⟩ := h
  unfold starCase at hq
  split_ifs at hq with hn hop hgrp
  · split at hq
    · cases hq
    · split at hq
      · cases hq
      · next states1 hcopy =>
        cases hq
        obtain ⟨hl, ha⟩ := copyLoop_inv hcopy h3
        exact ⟨h1, by simpa [addTransitionAt_length, hl] using h2,
          addTransitionAt_accept _ _ ha⟩
  · cases hq
    refine ⟨by simp only; omega, ?_, ?_⟩
    · simp only
      split
      · simp; omega
      · omega
    · intro s hs
      simp only at hs
      split at hs
      · next s0 hs0 =>
        rcases List.mem_or_eq_of_mem_set hs with h4 | h4
        · exact h3 s h4
        · subst h4
          exact h3 s0 (List.getElem?_mem hs0)
      · exact h3 s hs

theorem plusCase_inv {prev : Char} {st st1 : Compiler} (h : CompilerInv st)
    (hq : plusCase prev st = .ok st1) : CompilerInv st1 := by
  obtain ⟨h1, h2, h3⟩ := h
  unfold plusCase at hq
  split_ifs at hq with hn hop hgrp
  · split at hq
    · cases hq
    · split at hq
      · cases hq
      · next states1 hcopy =>
        cases hq
        obtain ⟨hl, ha⟩ := copyLoop_inv hcopy h3
        exact ⟨h1, by simpa [hl] using h2, ha⟩
  · cases hq
    refine ⟨h1, ?_, ?_⟩
    · simp only
      split_ifs <;> simpa [addTransitionAt_length] using h2
    · simp only
      split_ifs <;> exact addTransitionAt_accept _ _ h3

theorem switchCase_inv {prev c : Char} {st st1 : Compiler} (h : CompilerInv st)
    (hs : switchCase prev c st = .ok st1) : CompilerInv st1 := by
  unfold switchCase at hs
  split_ifs at hs
  · cases hs; exact wildcardCase_inv h
  · unfold openCase at hs
    split_ifs at hs
    cases hs
    exact h
  · cases hs; exact h
  · exact questionCase_inv h hs
  · exact starCase_inv h hs
  · exact plusCase_inv h hs
  · cases hs; exact literalCase_inv c h

/-- The scan keeps `CompilerInv`. -/
theorem scan_inv (n : Nat) :
    ∀ (p : List Char) (prev : Char) (st st1 : Compiler), p.length ≤ n → CompilerInv st →
      scan prev p st = .ok st1 → CompilerInv st1 := by
  induction n with
  | zero =>
    intro p prev st st1 hlen h hs
    have : p = [] := List.length_eq_zero.1 (Nat.le_zero.1 hlen)
    subst this
    rw [scan_nil] at hs
    cases hs
    exact h
  | succ n ih =>
    intro p prev st st1 hlen h hs
    cases p with
    | nil =>
      rw [scan_nil] at hs
      cases hs
      exact h
    | cons c rest =>
      by_cases hb : c = '\\'
      · subst hb
        cases rest with
        | nil => rw [scan_backslash_end] at hs; cases hs
        | cons x rest1 =>
          rw [scan_escape] at hs
          exact ih rest1 x _ st1 (by simp at hlen; omega) (literalCase_inv x h) hs
      · cases hq : switchCase prev c st with
        | error e => rw [scan_cons_error _ hb hq] at hs; cases hs
        | ok st2 =>
          rw [scan_cons_ok _ hb hq] at hs
          exact ih rest c st2 st1 (by simp at hlen; omega) (switchCase_inv h hq) hs

theorem compilerInv_init : CompilerInv Compiler.init := by
  simp [CompilerInv, Compiler.init, newState]

/-- The automaton that `finish` returns: `numStates` states, the last one accepting and no
other. -/
theorem finish_accept {st : Compiler} (h : CompilerInv st) :
    (finish st).numStates = st.numStates ∧ (finish st).states.length = st.numStates ∧
      ∀ i, isAccept (finish st).states i = true ↔ i = st.numStates - 1 := by
  obtain ⟨h1, h2, h3⟩ := h
  generalize hL : (st.states.take st.numStates).map (relabel st.base st.maxStates) = L
  have hacc : ∀ s ∈ L, s.accept = false := by
    intro s hs
    rw [← hL] at hs
    obtain ⟨s0, hs0, rfl⟩ := List.mem_map.1 hs
    exact h3 s0 (List.mem_of_mem_take hs0)
  have hlen : L.length = st.numStates := by
    rw [← hL]; simp; omega
  have hlast : st.numStates - 1 < L.length := by omega
  have hget : L[st.numStates - 1]? = some L[st.numStates - 1] := List.getElem?_eq_getElem hlast
  have hfin : (finish st).states = L.set (st.numStates - 1)
      { L[st.numStates - 1] with accept := true } := by
    simp only [finish, hL, hget]
  refine ⟨rfl, by rw [hfin]; simpa using hlen, fun i => ?_⟩
  rw [hfin]
  unfold isAccept
  by_cases hi : i = st.numStates - 1
  · subst hi
    rw [List.getElem?_set_self hlast]
    simp
  · rw [List.getElem?_set_ne (Ne.symm hi)]
    simp only [hi, iff_false]
    cases hg : L[i]? with
    | none => simp
    | some s => simp [hacc s (List.getElem?_mem hg)]

/-- C17: for every pattern that `constructNFA` compiles, the returned automaton has at least
one state, state 0 (the state on which `main` starts `runNFA`) is one of its `numStates`
states, and exactly one of these states has `accept = true`: the last one. -/
theorem constructNFA_single_accept (p : List Char) (nfa : NFA)
    (h : constructNFA p = .ok nfa) :
    1 ≤ nfa.numStates ∧ nfa.states.length = nfa.numStates ∧
      (∃ s0, nfa.states[0]? = some s0) ∧
      (∃! i, i < nfa.numStates ∧ isAccept nfa.states i = true) ∧
      isAccept nfa.states (nfa.numStates - 1) = true := by
  unfold constructNFA at h
  split at h
  · cases h
  · next st hscan =>
    cases h
    have hinv := scan_inv p.length p ' ' _ st le_rfl compilerInv_init hscan
    obtain ⟨h1, h2, h3⟩ := finish_accept hinv
    have hone := hinv.1
    rw [h1]
    refine ⟨hone, h2, ?_, ⟨st.numStates - 1, ⟨by omega, (h3 _).2 rfl⟩, ?_⟩, (h3 _).2 rfl⟩
    · have : 0 < (finish st).states.length := by omega
      exact ⟨_, List.getElem?_eq_getElem this⟩
    · rintro j ⟨_, hj⟩
      exact (h3 j).1 hj

/-- The pattern `ab?c` compiles to four states of which only state 3 accepts. -/
theorem constructNFA_single_accept_witness :
    constructNFA ['a', 'b', '?', 'c'] = .ok (optNFA 'a' 'b' 'c') ∧
    1 ≤ (optNFA 'a' 'b' 'c').numStates ∧
      (optNFA 'a' 'b' 'c').states.length = (optNFA 'a' 'b' 'c').numStates ∧
      (∃ s0, (optNFA 'a' 'b' 'c').states[0]? = some s0) ∧
      (∃! i, i < (optNFA 'a' 'b' 'c').numStates ∧ isAccept (optNFA 'a' 'b' 'c').states i = true) ∧
      isAccept (optNFA 'a' 'b' 'c').states ((optNFA 'a' 'b' 'c').numStates - 1) = true :=
  ⟨rfl, constructNFA_single_accept ['a', 'b', '?', 'c'] (optNFA 'a' 'b' 'c') rfl⟩

end Pda

namespace Pda

/-! ### Every reported match is genuine (C19) -/

theorem reinject_mem {start : Nat} {search greedy : Bool} {pos : Nat} {b : Best}
    {next : List (Nat × Nat)} {e : Nat × Nat}
    (h : e ∈ reinject start search greedy pos b next) :
    e ∈ next ∨ (search = true ∧ e = (start, pos + 1)) := by
  unfold reinject at h
  split_ifs at h with h1 h2
  · exact Or.inl h
  · rcases List.mem_append.1 h with h3 | h3
    · exact Or.inl h3
    · simp only [Bool.and_eq_true] at h1
      exact Or.inr ⟨h1.1, by simpa using h3⟩
  · exact Or.inl h

theorem reinject_nodup {start : Nat} {search greedy : Bool} {pos : Nat} {b : Best}
    {next : List (Nat × Nat)} (h : (next.map Prod.fst).Nodup) :
    ((reinject start search greedy pos b next).map Prod.fst).Nodup := by
  unfold reinject
  split_ifs with h1 h2
  · exact h
  · exact nodup_snoc h (by simpa using h2)
  · exact h

theorem soundSet_init (states : List State) (start : Nat) (search : Bool) :
    SoundSet states start search (epsilonClosure states [(start, 0)]) [] := by
  have hnd : (([(start, 0)] : List (Nat × Nat)).map Prod.fst).Nodup := by simp
  obtain ⟨_, h2, _, h4⟩ := closureLoop_fuel states [(start, 0)] hnd
  refine ⟨h2, fun e he => ?_⟩
  obtain ⟨e0, he0, h5, h6⟩ := h4 e he
  simp only [List.mem_singleton] at he0
  subst he0
  simp only at h5 h6
  rw [← h5]
  exact ⟨Nat.zero_le _, Or.inr rfl, by simpa using h6⟩

/-- One character of the loop keeps every entry justified, in every mode. -/
theorem soundSet_step (states : List State) (start : Nat) (search greedy : Bool) (b : Best)
    (c : Char) {cur : List (Nat × Nat)} {pre : List Char}
    (h : SoundSet states start search cur pre) :
    SoundSet states start search
      (epsilonClosure states (reinject start search greedy pre.length b
        (stepAll states c cur [])))
      (pre ++ [c]) := by
  obtain ⟨_, hsound⟩ := h
  obtain ⟨⟨add, hadd, hprop⟩, hnd1, _⟩ := stepAll_spec states c cur []
  simp only [List.nil_append] at hadd
  have hnd : ((reinject start search greedy pre.length b
      (stepAll states c cur [])).map Prod.fst).Nodup := reinject_nodup (hnd1 (by simp))
  obtain ⟨_, h2, _, h4⟩ := closureLoop_fuel states _ hnd
  refine ⟨h2, fun e he => ?_⟩
  obtain ⟨e0, he0, h5, h6⟩ := h4 e he
  rw [← h5]
  rcases reinject_mem he0 with hin | ⟨hs, heq⟩
  · rw [hadd] at hin
    obtain ⟨q, hq, t, ht, hm, hnext⟩ := hprop e0 hin
    obtain ⟨h7, h8, h9⟩ := hsound (q, e0.2) hq
    simp only at h7 h8 h9
    refine ⟨by simp; omega, h8, ?_⟩
    rw [List.drop_append_of_le_length h7]
    have := (h9.snoc_step t ht hm).trans (hnext ▸ h6)
    simpa using this
  · subst heq
    simp only at h6 ⊢
    refine ⟨by simp, Or.inl hs, ?_⟩
    have hd : (pre ++ [c]).drop (pre.length + 1) = [] := by
      apply List.drop_eq_nil_of_le
      simp
    rw [hd]
    exact h6

theorem genuine_append {states : List State} {start : Nat} {pre : List Char} {s len : Int}
    (rest : List Char) (h : Genuine states start pre s len) :
    Genuine states start (pre ++ rest) s len := by
  rcases h with h | ⟨i, n, h1, h2, h3, h4⟩
  · exact Or.inl h
  · refine Or.inr ⟨i, n, h1, h2, by simp; omega, ?_⟩
    have : ((pre ++ rest).drop i).take n = (pre.drop i).take n := by
      rw [List.drop_append_of_le_length (by omega)]
      rw [List.take_append_of_le_length (by simp; omega)]
    rw [this]
    exact h4

/-- An accepting entry of a justified set is a genuine match that ends at the current
position. -/
theorem genuine_entry {states : List State} {start : Nat} {pre : List Char} {q sp : Nat}
    (h1 : sp ≤ pre.length) (h2 : Reach states start (pre.drop sp) q)
    (hacc : isAccept states q = true) (pos : Nat) (hpos : pre.length = pos + 1) :
    Genuine states start pre (sp : Int) (((pos + 1 : Nat) : Int) - (sp : Int)) := by
  refine Or.inr ⟨sp, pos + 1 - sp, rfl, by omega, by omega, ?_⟩
  have : (pre.drop sp).take (pos + 1 - sp) = pre.drop sp := by
    apply List.take_of_length_le
    simp
    omega
  rw [this]
  exact ⟨q, h2, hacc⟩

/-- The accept scan keeps the best match genuine; an immediate return is genuine. -/
theorem checkAccept_sound (states : List State) (start : Nat) (search greedy : Bool)
    (pos : Nat) (pre : List Char) (hpos : pre.length = pos + 1) (set : List (Nat × Nat)) :
    ∀ b : Best,
      (∀ e ∈ set, e.2 ≤ pre.length ∧ Reach states start (pre.drop e.2) e.1) →
      BestSound states start search b pre →
      match checkAccept states search greedy pos set b with
      | .inl r => Genuine states start pre r.start r.length
      | .inr b1 => BestSound states start search b1 pre := by
  induction set with
  | nil => intro b _ hb; simpa [checkAccept] using hb
  | cons e set ih =>
    intro b hset hb
    obtain ⟨q, sp⟩ := e
    have hrest : ∀ e ∈ set, e.2 ≤ pre.length ∧ Reach states start (pre.drop e.2) e.1 :=
      fun e he => hset e (List.mem_cons_of_mem _ he)
    by_cases hacc : isAccept states q = true
    · obtain ⟨h1, h2⟩ := hset (q, sp) (by simp)
      have hgen := genuine_entry h1 h2 hacc pos hpos
      simp only [checkAccept, hacc, if_true]
      cases greedy with
      | false => simpa using hgen
      | true =>
        simp only [if_true]
        cases search with
        | true =>
          simp only [if_true]
          split_ifs with hf hm hl
          · exact ih _ hrest ⟨Or.inr ⟨rfl, rfl⟩, hgen⟩
          · refine ih _ hrest ⟨hb.1, ?_⟩
            rcases hb.1 with h3 | ⟨_, h3⟩
            · exact absurd h3 hf
            · simp only
              rw [← h3, ← hm]
              exact hgen
          · exact ih _ hrest hb
          · exact ih _ hrest hb
        | false =>
          simp only [Bool.false_eq_true, if_false]
          have hfirst : b.firstMatchStart = -1 := by
            rcases hb.1 with h3 | ⟨h3, _⟩
            · exact h3
            · cases h3
          split_ifs with hl
          · exact ih _ hrest ⟨Or.inl hfirst, hgen⟩
          · exact ih _ hrest hb
    · have hq : isAccept states q = false := by simpa using hacc
      simp only [checkAccept, hq, Bool.false_eq_true, if_false]
      exact ih _ hrest hb

theorem finalResult_genuine {states : List State} {start : Nat} {search : Bool} {b : Best}
    {pre : List Char} (h : BestSound states start search b pre) :
    Genuine states start pre (finalResult b).start (finalResult b).length := by
  unfold finalResult
  split_ifs with hs
  · exact h.2
  · exact Or.inl rfl

/-- The character loop returns no match or a genuine match, in every mode. -/
theorem runLoop_sound (states : List State) (start : Nat) (search greedy : Bool)
    (rest : List Char) :
    ∀ (pre : List Char) (cur : List (Nat × Nat)) (b : Best),
      SoundSet states start search cur pre → BestSound states start search b pre →
      Genuine states start (pre ++ rest)
        (runLoop states start search greedy rest pre.length cur b).start
        (runLoop states start search greedy rest pre.length cur b).length := by
  induction rest with
  | nil =>
    intro pre cur b _ hb
    rw [runLoop_nil, List.append_nil]
    exact finalResult_genuine hb
  | cons c cs ih =>
    intro pre cur b hset hb
    have hnext := soundSet_step states start search greedy b c hset
    have hlen : (pre ++ [c]).length = pre.length + 1 := by simp
    have happ : pre ++ c :: cs = (pre ++ [c]) ++ cs := by simp
    have hb1 : BestSound states start search b (pre ++ [c]) := ⟨hb.1, genuine_append _ hb.2⟩
    have hacc := checkAccept_sound states start search greedy pre.length (pre ++ [c]) hlen _ b
      (fun e he => ⟨(hnext.2 e he).1, (hnext.2 e he).2.2⟩) hb1
    rw [runLoop]
    split_ifs with hempty
    · exact genuine_append _ (finalResult_genuine hb)
    · split
      · next r hr =>
        rw [hr] at hacc
        rw [happ]
        exact genuine_append _ hacc
      · next b1 hr =>
        rw [hr] at hacc
        have key := ih (pre ++ [c]) _ b1 hnext hacc
        rw [hlen] at key
        rw [happ]
        exact key

/-- The result of `runNFA` is no match or a genuine match, in every mode. -/
theorem runNFA_sound (nfa : NFA) (start : Nat) (text : List Char) (search greedy : Bool) :
    Genuine nfa.states start text (runNFA nfa start text search greedy).start
      (runNFA nfa start text search greedy).length := by
  have h := runLoop_sound nfa.states start search greedy text [] _
    { bestMatchStart := -1, bestMatchLength := 0, firstMatchStart := -1 }
    (soundSet_init nfa.states start search) ⟨Or.inl rfl, Or.inl rfl⟩
  simpa [runNFA] using h

/-- C19: every match `runNFA` returns is genuine. For every well-formed automaton, every
text and every combination of `search` and `greedy`, if `runNFA` returns `(s, n)` with
`s ≠ -1`, then `0 ≤ s`, `0 ≤ n`, `s + n` is at most the length of the text, and the substring
of the text at `[s, s + n)` is accepted by the automaton. -/
theorem runNFA_match_genuine (nfa : NFA) (_hwf : WellFormed nfa) (text : List Char)
    (search greedy : Bool) (s n : Int)
    (h : runNFA nfa 0 text search greedy = { start := s, length := n }) (hs : s ≠ -1) :
    0 ≤ s ∧ 0 ≤ n ∧ s + n ≤ (text.length : Int) ∧
      Accepts nfa ((text.drop s.toNat).take n.toNat) := by
  have hg := runNFA_sound nfa 0 text search greedy
  rw [h] at hg
  rcases hg with h1 | ⟨i, m, h1, h2, h3, h4⟩
  · exact absurd h1 hs
  · simp only at h1 h2
    subst h1; subst h2
    refine ⟨by omega, by omega, by omega, ?_⟩
    simpa [Accepts] using h4

/-- The automaton of `a+` in greedy search on `xaaxaaa`: the match `(1, 2)` is `aa`. -/
theorem runNFA_match_genuine_witness :
    WellFormed (plusNFA 'a') ∧
    runNFA (plusNFA 'a') 0 ['x', 'a', 'a', 'x', 'a', 'a', 'a'] true true =
      { start := 1, length := 2 } ∧
    ((0 : Int) ≤ 1 ∧ (0 : Int) ≤ 2 ∧
      (1 : Int) + 2 ≤ ((['x', 'a', 'a', 'x', 'a', 'a', 'a'] : List Char).length : Int) ∧
      Accepts (plusNFA 'a')
        (((['x', 'a', 'a', 'x', 'a', 'a', 'a'] : List Char).drop (1 : Int).toNat).take
          (2 : Int).toNat)) :=
  ⟨by simp [WellFormed, plusNFA, newTransition], by decide,
   runNFA_match_genuine (plusNFA 'a') (by simp [WellFormed, plusNFA, newTransition])
     ['x', 'a', 'a', 'x', 'a', 'a', 'a'] true true 1 2 (by decide) (by decide)⟩

end Pda

namespace Pda

/-! ### The find-all loop (C18) -/

/-- One iteration moves the offset forward, stays within the contents, and a printed match
is non-empty, begins at or after the old offset and ends at the new one. -/
theorem findStep_progress (nfa : NFA) (greedy : Bool) (contents : List Char) (offset : Nat)
    (m : Option (Nat × Nat)) (next : Nat)
    (h : findStep nfa greedy contents offset = some (m, next)) :
    offset < next ∧ next ≤ contents.length ∧
      ∀ i l, m = some (i, l) → 1 ≤ l ∧ offset ≤ i ∧ next = i + l := by
  by_cases hlt : offset < contents.length
  swap
  · simp [findStep, hlt] at h
  by_cases hno : (runNFA nfa 0 (contents.drop offset) true greedy).start = -1
  · simp [findStep, hlt, hno] at h
  have hg := runNFA_sound nfa 0 (contents.drop offset) true greedy
  rcases hg with hg | ⟨i, n, h3, h4, h5, _⟩
  · exact absurd hg hno
  simp only [List.length_drop] at h5
  by_cases hzero : (runNFA nfa 0 (contents.drop offset) true greedy).length = 0
  · simp only [findStep, hlt, hno, hzero, if_true, if_false, Option.some.injEq,
      Prod.mk.injEq] at h
    obtain ⟨h1, h2⟩ := h
    subst h1; subst h2
    exact ⟨by omega, by omega, fun i l hm => by cases hm⟩
  · simp only [findStep, hlt, hno, hzero, if_true, if_false, Option.some.injEq,
      Prod.mk.injEq] at h
    obtain ⟨h1, h2⟩ := h
    rw [h3, h4] at h1 h2
    rw [h4] at hzero
    have hn : n ≠ 0 := fun h0 => hzero (by simp [h0])
    refine ⟨by omega, by omega, fun i1 l1 hm => ?_⟩
    rw [← h1] at hm
    simp only [Option.some.injEq, Prod.mk.injEq] at hm
    omega

/-- The printed matches: each is non-empty, lies within the contents at or after the offset
the loop starts from, and begins at or after the end of every match printed before it. -/
theorem findAll_spec (nfa : NFA) (greedy : Bool) (contents : List Char) (fuel : Nat) :
    ∀ offset,
      (∀ m ∈ findAll nfa greedy contents fuel offset,
        1 ≤ m.2 ∧ offset ≤ m.1 ∧ m.1 + m.2 ≤ contents.length) ∧
      (findAll nfa greedy contents fuel offset).Pairwise (fun m1 m2 => m1.1 + m1.2 ≤ m2.1) := by
  induction fuel with
  | zero => intro offset; simp [findAll]
  | succ fuel ih =>
    intro offset
    cases hstep : findStep nfa greedy contents offset with
    | none => simp [findAll, hstep]
    | some v =>
      obtain ⟨m, next⟩ := v
      obtain ⟨h1, h2, h3⟩ := findStep_progress nfa greedy contents offset m next hstep
      obtain ⟨ih1, ih2⟩ := ih next
      cases m with
      | none =>
        simp only [findAll, hstep]
        exact ⟨fun m hm => ⟨(ih1 m hm).1, by have := (ih1 m hm).2.1; omega, (ih1 m hm).2.2⟩,
          ih2⟩
      | some m =>
        obtain ⟨i, l⟩ := m
        obtain ⟨h4, h5, h6⟩ := h3 i l rfl
        simp only [findAll, hstep]
        refine ⟨fun m hm => ?_, List.pairwise_cons.2 ⟨fun m hm => ?_, ih2⟩⟩
        · rcases List.mem_cons.1 hm with h7 | h7
          · subst h7
            exact ⟨h4, h5, by simp only; omega⟩
          · exact ⟨(ih1 m h7).1, by have := (ih1 m h7).2.1; omega, (ih1 m h7).2.2⟩
        · have := (ih1 m hm).2.1
          simp only
          omega

/-- The loop ends by itself within one iteration per remaining character: more iterations
allowed give the same matches. -/
theorem findAll_fuel (nfa : NFA) (greedy : Bool) (contents : List Char) (fuel : Nat) :
    ∀ (offset fuel1 : Nat), contents.length ≤ fuel + offset → contents.length ≤ fuel1 + offset →
      findAll nfa greedy contents fuel offset = findAll nfa greedy contents fuel1 offset := by
  induction fuel with
  | zero =>
    intro offset fuel1 h1 _
    have hstep : findStep nfa greedy contents offset = none := by
      unfold findStep
      rw [if_neg (by omega)]
    cases fuel1 with
    | zero => rfl
    | succ fuel1 => simp [findAll, hstep]
  | succ fuel ih =>
    intro offset fuel1 h1 h2
    cases hstep : findStep nfa greedy contents offset with
    | none =>
      cases fuel1 with
      | zero => simp [findAll, hstep]
      | succ fuel1 => simp [findAll, hstep]
    | some v =>
      obtain ⟨m, next⟩ := v
      obtain ⟨h3, h4, _⟩ := findStep_progress nfa greedy contents offset m next hstep
      cases fuel1 with
      | zero => omega
      | succ fuel1 =>
        have key := ih next fuel1 (by omega) (by omega)
        cases m with
        | none => simp only [findAll, hstep, key]
        | some m => simp only [findAll, hstep, key]

/-- C18: match enumeration makes progress and reports non-overlapping matches. In every
iteration of the find-all loop of `main` the scan offset strictly increases and stays within
the contents, and a match that is printed is non-empty and begins at or after the offset of
the iteration; in the list of printed matches every match begins at or after the end
(index + length) of every match printed before it; and the loop ends by itself within one
iteration per character. -/
theorem findMatches_progress (nfa : NFA) (greedy : Bool) (contents : List Char) :
    (∀ offset m next, findStep nfa greedy contents offset = some (m, next) →
      offset < next ∧ next ≤ contents.length ∧
        ∀ i l, m = some (i, l) → 1 ≤ l ∧ offset ≤ i ∧ next = i + l) ∧
    (∀ m ∈ findMatches nfa greedy contents, 1 ≤ m.2 ∧ m.1 + m.2 ≤ contents.length) ∧
    (findMatches nfa greedy contents).Pairwise (fun m1 m2 => m1.1 + m1.2 ≤ m2.1) ∧
    (∀ fuel, contents.length ≤ fuel →
      findAll nfa greedy contents fuel 0 = findMatches nfa greedy contents) := by
  refine ⟨fun offset m next h => findStep_progress nfa greedy contents offset m next h,
    fun m hm => ?_, (findAll_spec nfa greedy contents _ 0).2, fun fuel hf => ?_⟩
  · have := (findAll_spec nfa greedy contents _ 0).1 m hm
    exact ⟨this.1, this.2.2⟩
  · exact findAll_fuel nfa greedy contents fuel 0 _ (by omega) (by omega)

/-- The pattern `a+` over `xaaxaaa`, greedy: the matches `aa` at 1 and `aaa` at 4. -/
theorem findMatches_progress_witness :
    findMatches (plusNFA 'a') true ['x', 'a', 'a', 'x', 'a', 'a', 'a'] = [(1, 2), (4, 3)] ∧
    findStep (plusNFA 'a') true ['x', 'a', 'a', 'x', 'a', 'a', 'a'] 0 = some (some (1, 2), 3) ∧
    ((0 : Nat) < 3 ∧ 3 ≤ (['x', 'a', 'a', 'x', 'a', 'a', 'a'] : List Char).length ∧
      ∀ i l, (some (1, 2) : Option (Nat × Nat)) = some (i, l) → 1 ≤ l ∧ 0 ≤ i ∧ 3 = i + l) :=
  ⟨by decide, by decide,
   (findMatches_progress (plusNFA 'a') true ['x', 'a', 'a', 'x', 'a', 'a', 'a']).1 0
     (some (1, 2)) 3 (by decide)⟩

end Pda

namespace Pda

/-! ### The epsilon closure is the transitive closure (C20) -/

/-- Every entry of the closure is an entry of the given set or was appended while an entry
of the closure with the same start position and an epsilon transition to it was scanned. -/
theorem closureLoop_pred (states : List State) (set0 : List (Nat × Nat)) (fuel : Nat) :
    ∀ (i : Nat) (set : List (Nat × Nat)),
      (∀ e ∈ set, e ∈ set0 ∨ ∃ e1 ∈ set, e1.2 = e.2 ∧
        ∃ t ∈ transitionsOf states e1.1, isEpsilon t = true ∧ t.next = e.1) →
      ∀ e ∈ closureLoop states fuel i set, e ∈ set0 ∨
        ∃ e1 ∈ closureLoop states fuel i set, e1.2 = e.2 ∧
          ∃ t ∈ transitionsOf states e1.1, isEpsilon t = true ∧ t.next = e.1 := by
  induction fuel with
  | zero => intro i set h; simpa [closureLoop] using h
  | succ fuel ih =>
    intro i set h
    cases hget : set[i]? with
    | none => simpa [closureLoop, hget] using h
    | some e0 =>
      obtain ⟨q, sp⟩ := e0
      have heq : closureLoop states (fuel + 1) i set =
          closureLoop states fuel (i + 1) (closeState (transitionsOf states q) sp set) := by
        simp only [closureLoop, hget]
      rw [heq]
      have hmem : (q, sp) ∈ set := List.getElem?_mem hget
      obtain ⟨⟨added, hadd, hprop⟩, _, _⟩ := closeState_spec sp (transitionsOf states q) set
      apply ih
      intro e he
      rw [hadd] at he ⊢
      rcases List.mem_append.1 he with h1 | h1
      · rcases h e h1 with h2 | ⟨e1, h2, h3⟩
        · exact Or.inl h2
        · exact Or.inr ⟨e1, List.mem_append_left _ h2, h3⟩
      · obtain ⟨h2, t, ht, h3, h4⟩ := hprop e h1
        exact Or.inr ⟨(q, sp), List.mem_append_left _ hmem, h2.symm, t, ht, h3, h4⟩

/-- C20: `epsilonClosure` computes the transitive epsilon closure. For every well-formed
automaton and every duplicate-free state list with start offsets, the result keeps the given
entries as its beginning; each appended entry carries the start offset of an entry of the
result that has an epsilon transition to it; no state occurs twice; and the states of the
result are exactly the states reached from states of the given list by zero or more epsilon
transitions, each with the start offset of such a state of the given list. -/
theorem epsilonClosure_transitive (nfa : NFA) (_hwf : WellFormed nfa)
    (set : List (Nat × Nat)) (hnd : (set.map Prod.fst).Nodup) :
    (∃ added, epsilonClosure nfa.states set = set ++ added ∧
      ∀ e ∈ added, ∃ e1 ∈ epsilonClosure nfa.states set, e1.2 = e.2 ∧
        ∃ t ∈ transitionsOf nfa.states e1.1, isEpsilon t = true ∧ t.next = e.1) ∧
    ((epsilonClosure nfa.states set).map Prod.fst).Nodup ∧
    (∀ q, inSet (epsilonClosure nfa.states set) q = true ↔
      ∃ e0 ∈ set, Reach nfa.states e0.1 [] q) ∧
    (∀ e ∈ epsilonClosure nfa.states set,
      ∃ e0 ∈ set, e0.2 = e.2 ∧ Reach nfa.states e0.1 [] e.1) := by
  obtain ⟨⟨added, hadd⟩, h2, h3, h4⟩ := closureLoop_fuel nfa.states set hnd
  have hpred := closureLoop_pred nfa.states set (set.length + (allTargets nfa.states).length) 0
    set (fun e he => Or.inl he)
  refine ⟨⟨added, hadd, fun e he => ?_⟩, h2, fun q => ⟨fun hq => ?_, ?_⟩, h4⟩
  · have hin : e ∈ epsilonClosure nfa.states set := by
      rw [hadd]
      exact List.mem_append_right _ he
    rcases hpred e hin with h5 | h5
    · exfalso
      rw [hadd, List.map_append, List.nodup_append] at h2
      exact h2.2.2 (List.mem_map_of_mem _ h5) (List.mem_map_of_mem _ he)
    · exact h5
  · obtain ⟨sp, hmem⟩ := (inSet_iff _ _).1 hq
    obtain ⟨e0, he0, _, h6⟩ := h4 _ hmem
    exact ⟨e0, he0, h6⟩
  · rintro ⟨e0, he0, hr⟩
    refine epsilonClosure_complete nfa.states set hnd hr rfl ?_
    rw [hadd, inSet_append]
    have : inSet set e0.1 = true := (inSet_iff _ _).2 ⟨e0.2, he0⟩
    rw [this]
    rfl

/-- The closure of `[(0, 5)]` in an automaton with epsilon transitions `0 → 1 → 2` is
`[(0, 5), (1, 5), (2, 5)]`: state 2, two hops away, is reached. -/
theorem epsilonClosure_transitive_witness :
    epsilonClosure twoHopNFA.states [(0, 5)] = [(0, 5), (1, 5), (2, 5)] ∧
    WellFormed twoHopNFA ∧ (([(0, 5)] : List (Nat × Nat)).map Prod.fst).Nodup ∧
    (∀ q, inSet (epsilonClosure twoHopNFA.states [(0, 5)]) q = true ↔
      ∃ e0 ∈ ([(0, 5)] : List (Nat × Nat)), Reach twoHopNFA.states e0.1 [] q) :=
  ⟨by decide, by simp [WellFormed, twoHopNFA, newTransition], by simp,
   (epsilonClosure_transitive twoHopNFA (by simp [WellFormed, twoHopNFA, newTransition])
     [(0, 5)] (by simp)).2.2.1⟩

end Pda

namespace Pda

/-! ### Non-greedy returns the shortest match for its start (C11) -/

theorem inSet_closure_of_inSet (states : List State) {set : List (Nat × Nat)}
    (hnd : (set.map Prod.fst).Nodup) {q : Nat} (h : inSet set q = true) :
    inSet (epsilonClosure states set) q = true := by
  obtain ⟨⟨added, hadd⟩, _⟩ := closureLoop_fuel states set hnd
  rw [hadd, inSet_append, h]
  rfl

theorem inSet_reinject_of_inSet {start : Nat} {search greedy : Bool} {pos : Nat} {b : Best}
    {next : List (Nat × Nat)} {q : Nat} (h : inSet next q = true) :
    inSet (reinject start search greedy pos b next) q = true := by
  unfold reinject
  split_ifs
  · exact h
  · rw [inSet_append, h]; rfl
  · exact h

theorem inSet_reinject_start (start : Nat) (pos : Nat) (b : Best) (next : List (Nat × Nat)) :
    inSet (reinject start true false pos b next) start = true := by
  unfold reinject
  simp only [Bool.not_false, Bool.true_or, Bool.and_self, if_true]
  split_ifs with h
  · exact h
  · rw [inSet_append]
    simp [inSet]

theorem completeSet_init (states : List State) (start : Nat) (search : Bool) :
    CompleteSet states start search (epsilonClosure states [(start, 0)]) [] := by
  intro s _ _ q hr
  have hnd : (([(start, 0)] : List (Nat × Nat)).map Prod.fst).Nodup := by simp
  simp only [List.drop_nil] at hr
  exact epsilonClosure_complete states _ hnd hr rfl
    (inSet_closure_of_inSet states hnd (by simp [inSet]))

/-- One character of the non-greedy loop keeps the state set complete. -/
theorem completeSet_step (states : List State) (start : Nat) (search : Bool) (b : Best)
    (c : Char) {cur : List (Nat × Nat)} {pre : List Char}
    (h : CompleteSet states start search cur pre) :
    CompleteSet states start search
      (epsilonClosure states (reinject start search false pre.length b
        (stepAll states c cur [])))
      (pre ++ [c]) := by
  obtain ⟨_, hnd1, hin⟩ := stepAll_spec states c cur []
  have hnd : ((reinject start search false pre.length b
      (stepAll states c cur [])).map Prod.fst).Nodup := reinject_nodup (hnd1 (by simp))
  intro s hs hadm q hr
  by_cases hle : s ≤ pre.length
  · rw [List.drop_append_of_le_length hle] at hr
    obtain ⟨q1, t, hr1, ht, hm, hr2⟩ := hr.last _ c rfl
    obtain ⟨sp, hmem⟩ := (inSet_iff _ _).1 (h s hle hadm q1 hr1)
    have h1 := hin q1 sp hmem t ht hm
    exact epsilonClosure_complete states _ hnd hr2 rfl
      (inSet_closure_of_inSet states hnd (inSet_reinject_of_inSet h1))
  · have hs1 : s = pre.length + 1 := by simp at hs; omega
    have hsearch : search = true := by
      rcases hadm with h1 | h1
      · exact h1
      · omega
    subst hsearch
    have hd : (pre ++ [c]).drop s = [] := by
      apply List.drop_eq_nil_of_le
      simp; omega
    rw [hd] at hr
    exact epsilonClosure_complete states _ hnd hr rfl
      (inSet_closure_of_inSet states hnd (inSet_reinject_start start _ b _))

/-- What the non-greedy accept scan does: it returns at the first accepting entry, with the
start position of that entry, or changes nothing when no entry accepts. -/
theorem checkAccept_nongreedy_cases (states : List State) (search : Bool) (pos : Nat)
    (set : List (Nat × Nat)) (b : Best) :
    (∃ e ∈ set, isAccept states e.1 = true ∧
      checkAccept states search false pos set b =
        .inl { start := (e.2 : Int), length := ((pos + 1 : Nat) : Int) - (e.2 : Int) }) ∨
    ((∀ e ∈ set, isAccept states e.1 = false) ∧
      checkAccept states search false pos set b = .inr b) := by
  induction set with
  | nil => exact Or.inr ⟨by simp, by simp [checkAccept]⟩
  | cons e set ih =>
    obtain ⟨q, sp⟩ := e
    by_cases hq : isAccept states q = true
    · exact Or.inl ⟨(q, sp), by simp, hq, by simp [checkAccept, hq]⟩
    · have hq1 : isAccept states q = false := by simpa using hq
      rcases ih with ⟨e, he, h1, h2⟩ | ⟨h1, h2⟩
      · refine Or.inl ⟨e, List.mem_cons_of_mem _ he, h1, ?_⟩
        simp only [checkAccept, hq1, Bool.false_eq_true, if_false]
        exact h2
      · refine Or.inr ⟨fun e he => ?_, ?_⟩
        · rcases List.mem_cons.1 he with h3 | h3
          · subst h3; exact hq1
          · exact h1 e h3
        · simp only [checkAccept, hq1, Bool.false_eq_true, if_false]
          exact h2

theorem take_drop_append {pre : List Char} (rest : List Char) {s m : Nat}
    (h : s + m ≤ pre.length) : ((pre ++ rest).drop s).take m = (pre.drop s).take m := by
  rw [List.drop_append_of_le_length (by omega)]
  rw [List.take_append_of_le_length (by simp; omega)]

/-- When no entry of a complete set accepts, nothing that ends at the current position is
accepted. -/
theorem noAcceptWithin_snoc (states : List State) (start : Nat) (search : Bool)
    {pre : List Char} (c : Char) {next : List (Nat × Nat)}
    (hold : NoAcceptWithin states start search pre)
    (hcomplete : CompleteSet states start search next (pre ++ [c]))
    (hnone : ∀ e ∈ next, isAccept states e.1 = false) :
    NoAcceptWithin states start search (pre ++ [c]) := by
  intro t s h1 h2 h3 h4
  by_cases ht : t ≤ pre.length
  · rw [take_drop_append _ (by omega)]
    exact hold t s h1 ht h3 h4
  · have ht1 : t = pre.length + 1 := by simp at h2; omega
    rintro ⟨f, hf, hacc⟩
    have hfull : ((pre ++ [c]).drop s).take (t - s) = (pre ++ [c]).drop s := by
      apply List.take_of_length_le
      simp; omega
    rw [hfull] at hf
    have hin := hcomplete s (by simp; omega) h4 f hf
    obtain ⟨sp, hmem⟩ := (inSet_iff _ _).1 hin
    have := hnone _ hmem
    simp only at this
    rw [this] at hacc
    cases hacc

/-- The non-greedy loop: a returned match has no accepted shorter beginning at its start. -/
theorem runLoop_nongreedy_shortest (states : List State) (start : Nat) (search : Bool)
    (rest : List Char) :
    ∀ (pre : List Char) (cur : List (Nat × Nat)) (b : Best),
      SoundSet states start search cur pre → CompleteSet states start search cur pre →
      NoAcceptWithin states start search pre → b.bestMatchStart = -1 →
      ∀ s n : Nat,
        runLoop states start search false rest pre.length cur b =
          { start := (s : Int), length := (n : Int) } →
        ∀ m, 1 ≤ m → m < n → ¬ AcceptsFrom states start (((pre ++ rest).drop s).take m) := by
  induction rest with
  | nil =>
    intro pre cur b _ _ _ hb s n hrun
    rw [runLoop_nil] at hrun
    simp only [finalResult, hb, ne_eq, not_true_eq_false, if_false] at hrun
    have := congrArg MatchResult.start hrun
    simp only at this
    omega
  | cons c cs ih =>
    intro pre cur b hsound hcomplete hno hb s n hrun
    have hsound1 := soundSet_step states start search false b c hsound
    have hcomplete1 := completeSet_step states start search b c hcomplete
    have hlen : (pre ++ [c]).length = pre.length + 1 := by simp
    have happ : pre ++ c :: cs = (pre ++ [c]) ++ cs := by simp
    rw [runLoop] at hrun
    split_ifs at hrun with hempty
    · simp only [finalResult, hb, ne_eq, not_true_eq_false, if_false] at hrun
      have := congrArg MatchResult.start hrun
      simp only at this
      omega
    · rcases checkAccept_nongreedy_cases states search pre.length _ b with
        ⟨e, he, _, hret⟩ | ⟨hnone, hret⟩
      · rw [hret] at hrun
        simp only [MatchResult.mk.injEq] at hrun
        obtain ⟨hs1, hn1⟩ := hrun
        obtain ⟨h1, h2, _⟩ := hsound1.2 e he
        rw [hlen] at h1
        intro m hm1 hm2
        have hse : e.2 = s := by omega
        have hsm : s + m ≤ pre.length := by omega
        rw [take_drop_append _ hsm]
        have := hno (s + m) s (by omega) hsm (by omega) (hse ▸ h2)
        simpa using this
      · rw [hret] at hrun
        have hno1 := noAcceptWithin_snoc states start search c hno hcomplete1 hnone
        have key := ih (pre ++ [c]) _ b hsound1 hcomplete1 hno1 hb s n
        rw [hlen] at key
        rw [happ]
        exact key hrun

/-- C11: non-greedy returns the smallest length for its start. For every well-formed
automaton and every text, in search mode and in anchored mode, if non-greedy `runNFA`
returns start `s`, length `n`, then no substring of the text that begins at offset `s` and
has a length `m` with `1 ≤ m < n` is accepted by the automaton. -/
theorem runNFA_nongreedy_shortest (nfa : NFA) (_hwf : WellFormed nfa) (text : List Char)
    (search : Bool) (s n : Nat)
    (h : runNFA nfa 0 text search false = { start := (s : Int), length := (n : Int) }) :
    ∀ m, 1 ≤ m → m < n → ¬ Accepts nfa ((text.drop s).take m) := by
  have key := runLoop_nongreedy_shortest nfa.states 0 search text [] _
    { bestMatchStart := -1, bestMatchLength := 0, firstMatchStart := -1 }
    (soundSet_init nfa.states 0 search) (completeSet_init nfa.states 0 search)
    (fun t s h1 h2 => by simp at h2; omega) rfl s n h
  simpa [Accepts] using key

/-- The pattern `(ab)+` over `xababab` in non-greedy search: the match `(1, 2)` is `ab`, and
its one-character beginning `a` is not accepted. -/
theorem runNFA_nongreedy_shortest_witness :
    WellFormed (groupPlusNFA 'a' 'b') ∧
    runNFA (groupPlusNFA 'a' 'b') 0 ['x', 'a', 'b', 'a', 'b', 'a', 'b'] true false =
      { start := ((1 : Nat) : Int), length := ((2 : Nat) : Int) } ∧
    ∀ m, 1 ≤ m → m < 2 →
      ¬ Accepts (groupPlusNFA 'a' 'b')
        (((['x', 'a', 'b', 'a', 'b', 'a', 'b'] : List Char).drop 1).take m) :=
  ⟨by simp [WellFormed, groupPlusNFA, newTransition], by decide,
   runNFA_nongreedy_shortest (groupPlusNFA 'a' 'b')
     (by simp [WellFormed, groupPlusNFA, newTransition])
     ['x', 'a', 'b', 'a', 'b', 'a', 'b'] true 1 2 (by decide)⟩

end Pda

namespace Pda

/-! ### The state set of a run holds no state twice (C21) -/

theorem stepState_keeps (c : Char) (ts : List Transition) (sp : Nat)
    (next : List (Nat × Nat)) : next <+: stepState c ts sp next := by
  obtain ⟨⟨added, h, _⟩, _⟩ := stepState_spec c sp ts next
  exact ⟨added, h.symm⟩

theorem stepAll_keeps (states : List State) (c : Char) (cur next : List (Nat × Nat)) :
    next <+: stepAll states c cur next := by
  obtain ⟨⟨added, h, _⟩, _⟩ := stepAll_spec states c cur next
  exact ⟨added, h.symm⟩

theorem stepAll_append (states : List State) (c : Char) (l1 l2 : List (Nat × Nat)) :
    ∀ next, stepAll states c (l1 ++ l2) next = stepAll states c l2 (stepAll states c l1 next) := by
  induction l1 with
  | nil => intro next; rfl
  | cons e l1 ih =>
    intro next
    obtain ⟨q, sp⟩ := e
    simp only [List.cons_append, stepAll]
    exact ih _

theorem reinject_keeps (start : Nat) (search greedy : Bool) (pos : Nat) (b : Best)
    (next : List (Nat × Nat)) : next <+: reinject start search greedy pos b next := by
  unfold reinject
  split_ifs
  · exact List.prefix_refl _
  · exact List.prefix_append _ _
  · exact List.prefix_refl _

theorem closeState_keeps (ts : List Transition) (sp : Nat) (set : List (Nat × Nat)) :
    set <+: closeState ts sp set := by
  obtain ⟨⟨added, h, _⟩, _⟩ := closeState_spec sp ts set
  exact ⟨added, h.symm⟩

theorem closureLoop_keeps (states : List State) (fuel : Nat) :
    ∀ (i : Nat) (set : List (Nat × Nat)), set <+: closureLoop states fuel i set := by
  induction fuel with
  | zero => intro i set; exact List.prefix_refl _
  | succ fuel ih =>
    intro i set
    rw [closureLoop]
    cases h : set[i]? with
    | none => exact List.prefix_refl _
    | some e =>
      obtain ⟨q, sp⟩ := e
      exact (closeState_keeps _ sp set).trans (ih _ _)

theorem reach_lt {states : List State} {n : Nat}
    (hT : ∀ q t, t ∈ transitionsOf states q → t.next < n) {q r : Nat} {w : List Char}
    (h : Reach states q w r) : q < n → r < n := by
  induction h with
  | refl q => exact id
  | eps t ht _ _ ih => exact fun _ => ih (hT _ t ht)
  | step t ht _ _ ih => exact fun _ => ih (hT _ t ht)

theorem wellFormed_targets {nfa : NFA} (hwf : WellFormed nfa) :
    ∀ q t, t ∈ transitionsOf nfa.states q → t.next < nfa.numStates := by
  intro q t ht
  obtain ⟨s, hs, hts⟩ := transitionsOf_mem ht
  exact hwf.2 s hs t hts

/-- One pass of the character loop keeps the set free of repeated states, and within the
states of the automaton when every transition targets one of them. -/
theorem step_sets_inv (states : List State) (start : Nat) (search greedy : Bool) (n : Nat)
    (c : Char) (pos : Nat) (b : Best) (cur : List (Nat × Nat)) :
    let stepped := stepAll states c cur []
    let injected := reinject start search greedy pos b stepped
    let next := epsilonClosure states injected
    ((stepped.map Prod.fst).Nodup ∧ (injected.map Prod.fst).Nodup ∧
      (next.map Prod.fst).Nodup) ∧
    ((∀ q t, t ∈ transitionsOf states q → t.next < n) → start < n →
      (∀ e ∈ stepped, e.1 < n) ∧ (∀ e ∈ injected, e.1 < n) ∧ (∀ e ∈ next, e.1 < n)) := by
  intro stepped injected next
  obtain ⟨⟨added, hadd, hsrc⟩, hnd, _⟩ := stepAll_spec states c cur []
  have h1 : (stepped.map Prod.fst).Nodup := hnd (by simp)
  have h2 : (injected.map Prod.fst).Nodup := reinject_nodup h1
  obtain ⟨_, h3, _, horigin⟩ := closureLoop_fuel states injected h2
  refine ⟨⟨h1, h2, h3⟩, fun hT hstart => ?_⟩
  have r1 : ∀ e ∈ stepped, e.1 < n := by
    intro e he
    have he1 : e ∈ added := by
      have : stepped = added := by simpa using hadd
      exact this ▸ he
    obtain ⟨q, _, t, ht, _, hte⟩ := hsrc e he1
    exact hte ▸ hT q t ht
  have r2 : ∀ e ∈ injected, e.1 < n := by
    intro e he
    rcases reinject_mem he with h | ⟨_, h⟩
    · exact r1 e h
    · rw [h]; exact hstart
  refine ⟨r1, r2, fun e he => ?_⟩
  obtain ⟨e0, he0, _, hreach⟩ := horigin e he
  exact reach_lt hT hreach (r2 e0 he0)

theorem loopSets_inv (states : List State) (start : Nat) (search greedy : Bool) (n : Nat)
    (input : List Char) :
    ∀ (pos : Nat) (cur : List (Nat × Nat)) (b : Best),
      ∀ set ∈ loopSets states start search greedy input pos cur b,
        (set.map Prod.fst).Nodup ∧
        ((∀ q t, t ∈ transitionsOf states q → t.next < n) → start < n →
          ∀ e ∈ set, e.1 < n) := by
  induction input with
  | nil => intro pos cur b set hset; simp [loopSets] at hset
  | cons c cs ih =>
    intro pos cur b set hset
    obtain ⟨⟨h1, h2, h3⟩, hr⟩ := step_sets_inv states start search greedy n c pos b cur
    simp only [loopSets, List.mem_cons] at hset
    rcases hset with h | h | h | h
    · subst h; exact ⟨h1, fun hT hs => (hr hT hs).1⟩
    · subst h; exact ⟨h2, fun hT hs => (hr hT hs).2.1⟩
    · subst h; exact ⟨h3, fun hT hs => (hr hT hs).2.2⟩
    · split_ifs at h with hempty
      · simp at h
      · cases hacc : checkAccept states search greedy pos
            (epsilonClosure states (reinject start search greedy pos b
              (stepAll states c cur []))) b with
        | inl r => rw [hacc] at h; simp at h
        | inr b1 => rw [hacc] at h; exact ih _ _ _ set h

theorem runSets_inv (nfa : NFA) (start : Nat) (input : List Char) (search greedy : Bool) :
    ∀ set ∈ runSets nfa start input search greedy,
      (set.map Prod.fst).Nodup ∧
      ((∀ q t, t ∈ transitionsOf nfa.states q → t.next < nfa.numStates) →
        start < nfa.numStates → ∀ e ∈ set, e.1 < nfa.numStates) := by
  intro set hset
  have hnd0 : (([(start, 0)] : List (Nat × Nat)).map Prod.fst).Nodup := by simp
  obtain ⟨_, hnd1, _, horigin⟩ := closureLoop_fuel nfa.states [(start, 0)] hnd0
  simp only [runSets, List.mem_cons] at hset
  rcases hset with h | h | h
  · subst h
    exact ⟨hnd0, fun _ hs e he => by simp at he; rw [he]; exact hs⟩
  · subst h
    refine ⟨hnd1, fun hT hs e he => ?_⟩
    obtain ⟨e0, he0, _, hreach⟩ := horigin e he
    simp at he0
    exact reach_lt hT hreach (by rw [he0]; exact hs)
  · exact loopSets_inv nfa.states start search greedy nfa.numStates input _ _ _ set h

/-- The run-state set invariant. In every state set of a run of `runNFA` (the set at
entry, its epsilon closure, and for each consumed character the set after the transition
loop, after the re-injection of the start state and after the epsilon closure) no state
occurs twice; when the automaton is well formed and `start` is one of its states, the set
has at most `numStates` entries. A state that is reached again keeps the start offset with
which it was first added: every loop that adds to a set (the transition loop for one state
and for all states, the re-injection, the closure loop for one state and the whole closure)
leaves the entries that are already there in place, so what the earlier current states
added is the beginning of the next set. -/
theorem runNFA_state_set_invariant (nfa : NFA) (start : Nat) (input : List Char)
    (search greedy : Bool) :
    (∀ set ∈ runSets nfa start input search greedy,
      (set.map Prod.fst).Nodup ∧
      (WellFormed nfa → start < nfa.numStates → set.length ≤ nfa.numStates)) ∧
    (∀ c ts sp next, next <+: stepState c ts sp next) ∧
    (∀ c cur next, next <+: stepAll nfa.states c cur next) ∧
    (∀ c l1 l2, stepAll nfa.states c l1 [] <+: stepAll nfa.states c (l1 ++ l2) []) ∧
    (∀ pos b next, next <+: reinject start search greedy pos b next) ∧
    (∀ ts sp set, set <+: closeState ts sp set) ∧
    (∀ set, set <+: epsilonClosure nfa.states set) := by
  refine ⟨fun set hset => ?_, stepState_keeps, stepAll_keeps nfa.states, ?_,
    reinject_keeps start search greedy, closeState_keeps,
    fun set => closureLoop_keeps nfa.states _ 0 set⟩
  · obtain ⟨hnd, hr⟩ := runSets_inv nfa start input search greedy set hset
    refine ⟨hnd, fun hwf hs => ?_⟩
    have := @length_le_of_nodup_subset set (List.range nfa.numStates) hnd
      (fun e he => List.mem_range.2 (hr (wellFormed_targets hwf) hs e he))
    simpa using this
  · intro c l1 l2
    rw [stepAll_append]
    exact stepAll_keeps nfa.states c l2 _

/-- The pattern `ab?c` over `xac` in greedy search: the eleven sets of the run, none with a
repeated state and none with more than four entries. -/
theorem runNFA_state_set_invariant_witness :
    WellFormed (optNFA 'a' 'b' 'c') ∧ 0 < (optNFA 'a' 'b' 'c').numStates ∧
    runSets (optNFA 'a' 'b' 'c') 0 ['x', 'a', 'c'] true true =
      [[(0, 0)], [(0, 0)], [], [(0, 1)], [(0, 1)], [(1, 1)], [(1, 1), (0, 2)],
       [(1, 1), (0, 2), (2, 1)], [(3, 1)], [(3, 1), (0, 3)], [(3, 1), (0, 3)]] ∧
    ∀ set ∈ runSets (optNFA 'a' 'b' 'c') 0 ['x', 'a', 'c'] true true,
      (set.map Prod.fst).Nodup ∧ set.length ≤ (optNFA 'a' 'b' 'c').numStates :=
  ⟨by simp [WellFormed, optNFA, newTransition], by decide, by decide,
   fun set hset =>
     ⟨((runNFA_state_set_invariant (optNFA 'a' 'b' 'c') 0 ['x', 'a', 'c'] true true).1
        set hset).1,
      ((runNFA_state_set_invariant (optNFA 'a' 'b' 'c') 0 ['x', 'a', 'c'] true true).1
        set hset).2 (by simp [WellFormed, optNFA, newTransition]) (by decide)⟩⟩

/-! ### A transition into a dropped state (C22) -/

/-- C22 fails on the code. The pattern `a?(*)` has balanced parentheses and compiles. The `?`
gives state 0 an epsilon transition to state 1 beside the transition on `a`; the `(` clears
`lastCharWasOperator`, so the `*` passes both assertions and takes the single-atom branch:
it redirects the first transition into state 1 (the one on `a`) and drops state 1. The
returned automaton has `numStates = 1`, and the epsilon transition of state 0 still targets
index 1: the automaton is not well formed, and the closure that `runNFA` computes at entry
puts the dropped state into the state set. -/
theorem constructNFA_dangling_transition :
    balanced ['a', '?', '(', '*', ')'] = true ∧
    constructNFA ['a', '?', '(', '*', ')'] = .ok danglingNFA ∧
    danglingNFA.numStates = 1 ∧
    transitionsOf danglingNFA.states 0 = [newTransition ['a'] 0, newTransition [] 1] ∧
    ¬ WellFormed danglingNFA ∧
    epsilonClosure danglingNFA.states [(0, 0)] = [(0, 0), (1, 0)] := by
  refine ⟨by decide, rfl, rfl, rfl, ?_, by decide⟩
  intro h
  have := h.2 _ (List.mem_singleton.2 rfl) (newTransition [] 1) (by simp [danglingNFA])
  simp [danglingNFA, newTransition] at this

end Pda

namespace Pda

/-! ### Greedy search: the first accept fixes the start (C9) -/

set_option maxRecDepth 10000 in
theorem constructNFA_sixteen :
    constructNFA ['a', 'b', 'c', 'd', 'e', 'f', 'g', 'h', 'i', 'j', 'k', 'l', 'm', 'n', 'o', 'p']
      = .ok sixteenNFA := rfl

/-- C2 fails on the code. The pattern `abcdefghijklmnop` consists of 16 literal characters
and occurs in `xxabcdefghijklmnopxx` at index 2. Storing its 17th state grows the array
(`maxStates == numStates` at 16), and the transitions of states 0 to 14, stored before,
keep pointing into the block that `realloc` has freed. The returned automaton is not well
formed: the transition of state 0 on `a` targets no state of the array. It does not accept
the pattern, and `runNFA` in search mode, greedy or not, returns no match (start -1) where
the claim gives start 2, length 16. -/
theorem runNFA_literal_search_sixteen :
    (∀ c ∈ ['a', 'b', 'c', 'd', 'e', 'f', 'g', 'h', 'i', 'j', 'k', 'l', 'm', 'n', 'o', 'p'],
      isMeta c = false) ∧
    firstOccurrence ['a', 'b', 'c', 'd', 'e', 'f', 'g', 'h', 'i', 'j', 'k', 'l', 'm', 'n', 'o', 'p']
      ['x', 'x', 'a', 'b', 'c', 'd', 'e', 'f', 'g', 'h', 'i', 'j', 'k', 'l', 'm', 'n', 'o', 'p',
       'x', 'x'] = some 2 ∧
    constructNFA ['a', 'b', 'c', 'd', 'e', 'f', 'g', 'h', 'i', 'j', 'k', 'l', 'm', 'n', 'o', 'p']
      = .ok sixteenNFA ∧
    transitionsOf sixteenNFA.states 0 = [newTransition ['a'] 33] ∧
    ¬ WellFormed sixteenNFA ∧
    ¬ Accepts sixteenNFA
      ['a', 'b', 'c', 'd', 'e', 'f', 'g', 'h', 'i', 'j', 'k', 'l', 'm', 'n', 'o', 'p'] ∧
    runNFA sixteenNFA 0 ['x', 'x', 'a', 'b', 'c', 'd', 'e', 'f', 'g', 'h', 'i', 'j', 'k', 'l',
      'm', 'n', 'o', 'p', 'x', 'x'] true false = { start := -1, length := 0 } ∧
    runNFA sixteenNFA 0 ['x', 'x', 'a', 'b', 'c', 'd', 'e', 'f', 'g', 'h', 'i', 'j', 'k', 'l',
      'm', 'n', 'o', 'p', 'x', 'x'] true true = { start := -1, length := 0 } := by
  refine ⟨by decide, by decide, constructNFA_sixteen, rfl, ?_, ?_, by decide, by decide⟩
  · intro h
    have := h.2 _ (List.mem_cons_self _ _) (newTransition ['a'] 33) (List.mem_singleton.2 rfl)
    exact absurd this (by decide)
  · rintro ⟨f, hr, _⟩
    cases hr with
    | eps t ht he _ =>
      have : t = newTransition ['a'] 33 := by
        simpa [transitionsOf, sixteenNFA, literalState] using ht
      subst this
      simp [isEpsilon, newTransition] at he
    | step t ht hm hrest =>
      have : t = newTransition ['a'] 33 := by
        simpa [transitionsOf, sixteenNFA, literalState] using ht
      subst this
      cases hrest with
      | eps t ht he _ => simp [transitionsOf, sixteenNFA, newTransition] at ht
      | step t ht hm hrest => simp [transitionsOf, sixteenNFA, newTransition] at ht

/-! ### A state set larger than the automaton (C21) -/

/-- C21 fails on the code. The pattern `a?(*)` compiles to an automaton with `numStates = 1`
whose state 0 keeps an epsilon transition to the dropped state 1. The closure that `runNFA`
computes at entry, and again after the character `a`, holds two entries, state 0 and the
dropped state: the state set is larger than the number of states of the automaton. -/
theorem runNFA_state_set_exceeds :
    constructNFA ['a', '?', '(', '*', ')'] = .ok danglingNFA ∧
    danglingNFA.numStates = 1 ∧
    runSets danglingNFA 0 ['a'] true true =
      [[(0, 0)], [(0, 0), (1, 0)], [(0, 0)], [(0, 0)], [(0, 0), (1, 0)]] ∧
    ∃ set ∈ runSets danglingNFA 0 ['a'] true true, danglingNFA.numStates < set.length :=
  ⟨rfl, rfl, by decide, [(0, 0), (1, 0)], by decide, by decide⟩

end Pda
